import Mathlib

/-!
# nova: a fiber based job scheduler

Shallow embedding of `nova.h` (batch tasks, jobs, dependency tokens, the dual
queue and the call protocol) together with the properties of its
specification.

Conventions of the embedding

* `unsigned` / `uint32_t` values are naturals below `UINT_MOD = 2^32`,
  `std::size_t` values are naturals below `SIZE_MOD = 2^64`; every operation
  that can wrap is written with an explicit `%`.
* The `float` arithmetic of `batch_function::operator()` is embedded as exact
  arithmetic: `floorf (count * k / sections)` is the natural number quotient
  `count * k / sections`.  Results are therefore statements about executions
  in which the float operations are exact.
* Memory is explicit: a `World` holds the objects that a `void*` can address,
  the control blocks of the `std::shared_ptr`s, the two queues and a log of
  observable events.  Operations take a world and return the next one.
* Undefined behaviour is recorded as `Event.undefined_behaviour`, a loop that
  does not terminate as `Event.diverged`.
-/

namespace nova

/-- Number of values of `unsigned` and of `uint32_t`. -/
def UINT_MOD : Nat := 2 ^ 32

/-- Number of values of `std::size_t`. -/
def SIZE_MOD : Nat := 2 ^ 64

namespace impl

/-! ## function and batch_function -/

/-- One element of a bound parameter tuple.  `integral` elements are the ones
whose type satisfies `std::is_integral`; the index type is `unsigned`. -/
inductive Param where
  | integral (v : Nat)
  | other (v : Nat)
  deriving DecidableEq, Repr

/-- Embedding of `std::is_integral<T>::value` for the type of an element. -/
def Param.is_integral : Param → Bool
  | .integral _ => true
  | .other _ => false

/-- Value of an element read through an integral reference. -/
def Param.value : Param → Nat
  | .integral v => v
  | .other v => v

/-- Embedding of `std::tuple<Params...>`. -/
abbrev tuple_t := List Param

/-- Embedding of `integral_index<Tuple>::value`: the position of the first
element of integral type (`integral_index_inner<true, _>` is `0`,
`integral_index_inner<false, _>` is `1 +` the index in the tail). -/
def integral_index : tuple_t → Nat
  | [] => 0
  | p :: ps => if p.is_integral then 0 else 1 + integral_index ps

/-- Callables that can be bound: user code (identified by a number) and the
two routines of the library that it binds itself. -/
inductive Callable where
  | user (id : Nat)
  | finish_called_job
  | kill_worker
  deriving DecidableEq, Repr

/-- Embedding of `function<Callable, Params...>`: callable and bound tuple. -/
structure function where
  m_callable : Callable
  m_tuple : tuple_t
  deriving DecidableEq, Repr

/-- Embedding of `batch_function`: the inherited callable and tuple of
`function`, the section counter and the section count. -/
structure batch_function where
  m_callable : Callable
  m_tuple : tuple_t
  m_currentSection : Nat
  m_sections : Nat
  deriving DecidableEq, Repr

/-- Embedding of `batch_function::start(tuple_t &)`:
`std::get<tupleIntegralIndex::value>(tuple)`. -/
def batch_function.start (tuple : tuple_t) : Nat :=
  (tuple.getD (integral_index tuple) (Param.integral 0)).value

/-- Embedding of `batch_function::end(tuple_t &)`:
`std::get<tupleIntegralIndex::value + 1>(tuple)`. -/
def batch_function.end_ (tuple : tuple_t) : Nat :=
  (tuple.getD (integral_index tuple + 1) (Param.integral 0)).value

/-- Assignment through the reference returned by `start(params)`. -/
def batch_function.set_start (tuple : tuple_t) (v : Nat) : tuple_t :=
  tuple.set (integral_index tuple) (Param.integral v)

/-- Assignment through the reference returned by `end(params)`. -/
def batch_function.set_end (tuple : tuple_t) (v : Nat) : tuple_t :=
  tuple.set (integral_index tuple + 1) (Param.integral v)

/-- Embedding of the constructor `batch_function(callable, args...)`:
the base `function` stores callable and tuple, `m_currentSection = 0`, and
`m_sections = min(static_cast<size_t>(end() - start()), get_thread_count())`
where `end() - start()` is a subtraction of `unsigned` values. -/
def batch_function.ctor (callable : Callable) (args : tuple_t) (thread_count : Nat) :
    batch_function :=
  { m_callable := callable
    m_tuple := args
    m_currentSection := 0
    m_sections :=
      min ((batch_function.end_ args + UINT_MOD - batch_function.start args) % UINT_MOD)
        thread_count }

/-- Embedding of `get_sections`. -/
def batch_function.get_sections (bf : batch_function) : Nat := bf.m_sections

/-- Conversion of the (exact) float value `v` to `unsigned`: defined only when
the value is in range. -/
def float_to_uint (v : Nat) : Option Nat :=
  if v < UINT_MOD then some v else none

/-- Conversion of the (exact) float value `v` to `std::size_t`: defined only
when the value is in range. -/
def float_to_size (v : Nat) : Option Nat :=
  if v < SIZE_MOD then some v else none

/-- Embedding of `batch_function::operator()`.  Returns the object after the
interlocked increment together with the parameter tuple handed to the
callable, or `none` when the body has undefined behaviour (a zero section
count as divisor, a float out of the range of the integer converted to). -/
def batch_function.invoke (bf : batch_function) : Option (batch_function × tuple_t) :=
  let params := bf.m_tuple
  let batchStart := batch_function.start bf.m_tuple
  let batchEnd := batch_function.end_ bf.m_tuple
  let count := (batchEnd + SIZE_MOD - batchStart) % SIZE_MOD
  let incremented := (bf.m_currentSection + 1) % UINT_MOD
  let section_ := incremented
  if bf.m_sections = 0 then none
  else
    match float_to_uint (batchStart + count * ((section_ + SIZE_MOD - 1) % SIZE_MOD) / bf.m_sections),
          float_to_size (batchStart + count * section_ / bf.m_sections) with
    | some newStart, some batchEnd' =>
      let params := batch_function.set_start params newStart
      let params := batch_function.set_end params (batchEnd' % UINT_MOD)
      some ({ bf with m_currentSection := incremented }, params)
    | _, _ => none

/-- Invoke a batch task `n` times in a row, collecting the tuples handed to the
callable in the order in which the sections were claimed. -/
def batch_function.invoke_n : Nat → batch_function → Option (batch_function × List tuple_t)
  | 0, bf => some (bf, [])
  | n + 1, bf =>
    match bf.invoke with
    | none => none
    | some (bf1, params) =>
      match batch_function.invoke_n n bf1 with
      | none => none
      | some (bf2, rest) => some (bf2, params :: rest)

/-- Shape of a well formed batch tuple: parameters of non integral type, then
the two consecutive integral positions, then the remaining parameters. -/
def batch_tuple (pre : List Nat) (s e : Nat) (post : tuple_t) : tuple_t :=
  pre.map Param.other ++ Param.integral s :: Param.integral e :: post

end impl

/-- Embedding of `bind_batch(lambda, start, end, args...)` as issued by
`parallel_for(start, end, callable, args...)`. -/
def parallel_for_batch (callable : impl.Callable) (start end_ : Nat) (args : impl.tuple_t)
    (thread_count : Nat) : impl.batch_function :=
  impl.batch_function.ctor callable
    (impl.Param.integral start :: impl.Param.integral end_ :: args) thread_count

end nova

/-! ## job, dependency_token and the memory they live in -/

namespace nova

/-- Embedding of `dependency_token`: its only member is the
`std::shared_ptr<shared_token> m_token`, here the identity of the control
block referred to, or `none` for an empty pointer. -/
structure dependency_token where
  m_token : Option Nat := none
  deriving DecidableEq, Repr

namespace impl

/-- Functions of type `void(void*)` that a job stores in its run and delete
slots: `job::no_op`, the two overloads of `job::run_runnable` (selected by
`is_shared`), `job::delete_runnable`, and any other function handed to
`job(runFunc, deleteFunc, runnable)`. -/
inductive func where
  | no_op
  | run_runnable
  | run_runnable_shared
  | delete_runnable
  | raw (id : Nat)
  deriving DecidableEq, Repr

/-- Embedding of `job` (the members of `job::JobData`, with their default
member initialisers; the padding carries no information). -/
structure job where
  m_runFunc : func := func.no_op
  m_deleteFunc : func := func.no_op
  m_runnable : Option Nat := none
  m_callToken : dependency_token := {}
  deriving DecidableEq, Repr

/-- Modelled from the spec: the multi producer multi consumer queue behind
`NOVA_QUEUE_TYPE` (its header is not part of the sources).  The spec treats it
as a black box with push and a try-pop that reports success; no order of
removal is promised, so the element removed is chosen by `pick`. -/
def mpmc_pop {T : Type} (pick : Nat) (q : List T) : Option (T × List T) :=
  match q[pick % q.length]? with
  | none => none
  | some item => some (item, q.eraseIdx (pick % q.length))

/-- Modelled from the spec: push of one element or of a collection on the
black box queue. -/
def mpmc_push {T : Type} (q : List T) (items : List T) : List T := q ++ items

/-- Embedding of `queue_wrapper<T>`: the global and the main queue.  The
condition variables only wake waiting threads and carry no data. -/
structure queue_wrapper (T : Type) where
  m_globalQueue : List T := []
  m_mainQueue : List T := []
  deriving DecidableEq, Repr

/-- Embedding of the two `queue_wrapper::push<ToMain>` overloads for one item
and of the two for a collection (`items` has one element for the former):
`ToMain` selects `m_mainQueue`, otherwise `m_globalQueue`. -/
def queue_wrapper.push {T : Type} (ToMain : Bool) (items : List T) (q : queue_wrapper T) :
    queue_wrapper T :=
  if ToMain then { q with m_mainQueue := mpmc_push q.m_mainQueue items }
  else { q with m_globalQueue := mpmc_push q.m_globalQueue items }

/-- Embedding of `queue_wrapper::pop`: the loop leaves only when
`m_globalQueue.pop(item)` succeeds.  `none`: the try-pop fails, the caller
keeps spinning or sleeps. -/
def queue_wrapper.pop {T : Type} (pick : Nat) (q : queue_wrapper T) :
    Option (T × queue_wrapper T) :=
  match mpmc_pop pick q.m_globalQueue with
  | some (item, rest) => some (item, { q with m_globalQueue := rest })
  | none => none

/-- Embedding of `queue_wrapper::pop_main`: the loop condition
`!m_globalQueue.pop(item) && !m_mainQueue.pop(item)` tries the global queue
and, only when that fails, the main queue.  `none`: both fail. -/
def queue_wrapper.pop_main {T : Type} (pick : Nat) (q : queue_wrapper T) :
    Option (T × queue_wrapper T) :=
  match mpmc_pop pick q.m_globalQueue with
  | some (item, rest) => some (item, { q with m_globalQueue := rest })
  | none =>
    match mpmc_pop pick q.m_mainQueue with
    | some (item, rest) => some (item, { q with m_mainQueue := rest })
    | none => none

/-- Objects that the `void*` of a job can address. -/
inductive Runnable where
  | function (f : function)
  | shared_batch (ctrl : Nat)
  | completionJob (currentFiber : Nat) (FromMain : Bool)
  deriving DecidableEq, Repr

/-- Embedding of `is_shared<T>::value` for the type of a runnable. -/
def Runnable.is_shared : Runnable → Bool
  | .shared_batch _ => true
  | _ => false

end impl

/-- Embedding of `dependency_token::shared_token`: the owned continuation. -/
structure shared_token where
  m_job : impl.job
  deriving DecidableEq, Repr

namespace impl

/-- Observable events, in the order in which they happen. -/
inductive Event where
  | applied (callable : Callable) (params : tuple_t)
  | raw_call (id : Nat) (data : Option Nat)
  | deleted (addr : Nat)
  | batch_released (ctrl : Nat)
  | continuation (token : Nat)
  | undefined_behaviour
  | diverged
  deriving DecidableEq, Repr

/-- State of the memory and of the queues.
`heap`: the objects a `void*` can address (`none`: released);
`batches`: control blocks of `std::shared_ptr<batch_function>` with their
use count (`none`: object released);
`tokens`: control blocks of `std::shared_ptr<shared_token>` with their use
count (`none`: object released);
`queue`: the `queue_wrapper<job>` singleton; `log`: the events so far. -/
structure World where
  heap : List (Option Runnable) := []
  batches : List (Option (Nat × batch_function)) := []
  tokens : List (Option (Nat × shared_token)) := []
  queue : queue_wrapper job := {}
  log : List Event := []
  deriving DecidableEq, Repr

/-- Append an event to the log. -/
def World.emit (w : World) (e : Event) : World := { w with log := w.log ++ [e] }

/-- Place a new object in memory; returns its address. -/
def World.alloc (w : World) (r : Runnable) : World × Nat :=
  ({ w with heap := w.heap ++ [some r] }, w.heap.length)

/-- Object at an address (`none`: nothing there). -/
def World.cell (w : World) (addr : Nat) : Option Runnable := w.heap.getD addr none

/-- Embedding of `std::make_shared<batch_function>(bf)`: copies `bf` into a
new control block with use count 1; returns the block. -/
def make_shared_batch (w : World) (bf : batch_function) : World × Nat :=
  ({ w with batches := w.batches ++ [some (1, bf)] }, w.batches.length)

/-- Copy of a `std::shared_ptr<batch_function>`: the use count goes up. -/
def batch_acquire (w : World) (ctrl : Nat) : World :=
  match w.batches.getD ctrl none with
  | some (n, bf) => { w with batches := w.batches.set ctrl (some (n + 1, bf)) }
  | none => w.emit Event.undefined_behaviour

/-- Destruction of a `std::shared_ptr<batch_function>`: the use count goes
down and the last owner deletes the batch function. -/
def batch_release (w : World) (ctrl : Nat) : World :=
  match w.batches.getD ctrl none with
  | some (n, bf) =>
    if n ≤ 1 then ({ w with batches := w.batches.set ctrl none }).emit (Event.batch_released ctrl)
    else { w with batches := w.batches.set ctrl (some (n - 1, bf)) }
  | none => w.emit Event.undefined_behaviour

/-- Embedding of the constructor `job(Runnable&& runnable)` for an lvalue
argument: `new std::decay_t<Runnable>(runnable)` copies the runnable to the
heap (copying a `shared_ptr` raises its use count), the run function is the
`run_runnable` overload for its type, the delete function `delete_runnable`. -/
def job.ctor_runnable (w : World) (r : Runnable) : World × job :=
  let w1 := match r with
    | Runnable.shared_batch ctrl => batch_acquire w ctrl
    | _ => w
  let (w2, addr) := w1.alloc r
  (w2, { m_runFunc := if r.is_shared then func.run_runnable_shared else func.run_runnable
         m_deleteFunc := func.delete_runnable
         m_runnable := some addr })

/-- Embedding of the constructor `job(Runnable * runnable)`: borrows. -/
def job.ctor_pointer (addr : Nat) : job :=
  { m_runFunc := func.run_runnable, m_deleteFunc := func.no_op, m_runnable := some addr }

/-- Embedding of `job(runFunc, deleteFunc, runnable)`. -/
def job.ctor_raw (runFunc deleteFunc : func) (runnable : Option Nat) : job :=
  { m_runFunc := runFunc, m_deleteFunc := deleteFunc, m_runnable := runnable }

/-- Embedding of the loop of `split_batch_function`:
`for (unsigned section = 0; section < bf.get_sections(); section++)
jobs.emplace_back(basePtr)`.  The counter is an `unsigned`; `fuel` bounds the
number of loop tests. -/
def split_loop (ctrl sections : Nat) : Nat → Nat → World → List job → World × List job
  | 0, _, w, jobs => (w.emit Event.diverged, jobs)
  | fuel + 1, section_, w, jobs =>
    if section_ < sections then
      let (w1, j) := job.ctor_runnable w (Runnable.shared_batch ctrl)
      split_loop ctrl sections fuel ((section_ + 1) % UINT_MOD) w1 (jobs ++ [j])
    else (w, jobs)

/-- Embedding of `split_batch_function(bf)`: `basePtr` is a new shared copy of
`bf`, every job is built from `basePtr`, and `basePtr` goes out of scope on
return. -/
def split_batch_function (w : World) (bf : batch_function) : World × List job :=
  let (w1, basePtr) := make_shared_batch w bf
  let (w2, jobs) := split_loop basePtr bf.get_sections (bf.get_sections + 1) 0 w1 []
  (batch_release w2 basePtr, jobs)

/-- An argument of `push`: a plain runnable or a batch runnable. -/
inductive RunnableArg where
  | plain (f : function)
  | batch (bf : batch_function)
  deriving DecidableEq, Repr

/-- Embedding of `batch_count<Args...>::value`. -/
def batch_count : List RunnableArg → Nat
  | [] => 0
  | RunnableArg.batch _ :: args => 1 + batch_count args
  | RunnableArg.plain _ :: args => batch_count args

/-- State threaded through `pack_runnable`: the array, the running index, the
vector of batch jobs. -/
structure Packed where
  jobs : List job
  index : Nat
  batchJobs : List job
  deriving DecidableEq, Repr

/-- Embedding of the two single runnable overloads of `pack_runnable<true>`:
`jobs[index++] = std::move(job{runnable})` for a plain runnable (the slot
written is a default constructed job, whose delete function is `no_op` on
`nullptr` and whose token is empty, so the assignment stores the new job; a
write past the end of the array is undefined), and
`batchJobs.insert(batchJobs.end(), split_batch_function(bf)...)` for a batch
runnable. -/
def pack_runnable_one (p : Packed) (w : World) : RunnableArg → World × Packed
  | RunnableArg.plain f =>
    let (w1, j) := job.ctor_runnable w (Runnable.function f)
    if p.index < p.jobs.length then
      (w1, { p with jobs := p.jobs.set p.index j, index := p.index + 1 })
    else (w1.emit Event.undefined_behaviour, { p with index := p.index + 1 })
  | RunnableArg.batch bf =>
    let (w1, splitEnvs) := split_batch_function w bf
    (w1, { p with batchJobs := p.batchJobs ++ splitEnvs })

/-- Embedding of the recursive overload of `pack_runnable<true>`: break the
first runnable off the parameter pack and recurse. -/
def pack_runnable_from (p : Packed) (w : World) : List RunnableArg → World × Packed
  | [] => (w, p)
  | r :: rs =>
    let (w1, p1) := pack_runnable_one p w r
    pack_runnable_from p1 w1 rs

/-- Embedding of the entry overload of `pack_runnable<true>`: `index(0)`. -/
def pack_runnable (jobs batchJobs : List job) (w : World) (runnables : List RunnableArg) :
    World × Packed :=
  pack_runnable_from { jobs := jobs, index := 0, batchJobs := batchJobs } w runnables

/-- Embedding of `impl::push<ToMain>(std::array<job, N>&&)` and of
`impl::push<ToMain>(std::vector<job>&&)`: one bulk push on the queue. -/
def push_jobs (ToMain : Bool) (jobs : List job) (w : World) : World :=
  { w with queue := w.queue.push ToMain jobs }

/-- Embedding of `impl::push<ToMain, false>(runnables...)`: an array of
`sizeof...(Runnables) - batch_count` default jobs and an empty vector are
filled by `pack_runnable<true>`, and `push_picker<ToMain, false>` pushes first
the array, then the vector. -/
def push_independent (ToMain : Bool) (runnables : List RunnableArg) (w : World) : World :=
  let jobs := List.replicate (runnables.length - batch_count runnables) ({} : job)
  let (w1, p) := pack_runnable jobs [] w runnables
  push_jobs ToMain p.batchJobs (push_jobs ToMain p.jobs w1)

/-- Embedding of a call through a stored function pointer, `f(data)`:
`no_op` does nothing; `run_runnable` invokes the object addressed (a bound
function applies its callable to its tuple; the completion lambda of
`impl::call` runs `nova::push<FromMain>(bind(&finish_called_job,
currentFiber))`); the `shared_ptr` overload invokes the shared batch function;
`delete_runnable` deletes the object addressed (`delete` of a null pointer
does nothing; deleting a `shared_ptr` releases its reference). -/
def call_func (f : func) (data : Option Nat) (w : World) : World :=
  match f with
  | func.no_op => w
  | func.raw id => w.emit (Event.raw_call id data)
  | func.run_runnable =>
    match data.bind w.cell with
    | some (Runnable.function fn) => w.emit (Event.applied fn.m_callable fn.m_tuple)
    | some (Runnable.completionJob currentFiber FromMain) =>
      push_independent FromMain
        [RunnableArg.plain ⟨Callable.finish_called_job, [Param.other currentFiber]⟩] w
    | _ => w.emit Event.undefined_behaviour
  | func.run_runnable_shared =>
    match data.bind w.cell with
    | some (Runnable.shared_batch ctrl) =>
      match w.batches.getD ctrl none with
      | some (n, bf) =>
        match bf.invoke with
        | some (bf1, params) =>
          ({ w with batches := w.batches.set ctrl (some (n, bf1)) }).emit
            (Event.applied bf.m_callable params)
        | none => w.emit Event.undefined_behaviour
      | none => w.emit Event.undefined_behaviour
    | _ => w.emit Event.undefined_behaviour
  | func.delete_runnable =>
    match data with
    | none => w
    | some addr =>
      match w.cell addr with
      | some r =>
        let w1 := ({ w with heap := w.heap.set addr none }).emit (Event.deleted addr)
        match r with
        | Runnable.shared_batch ctrl => batch_release w1 ctrl
        | _ => w1
      | none => w.emit Event.undefined_behaviour

/-- Copy of a `dependency_token`: the use count of its control block goes up;
copying an empty token does nothing. -/
def token_acquire (w : World) (t : dependency_token) : World :=
  match t.m_token with
  | none => w
  | some id =>
    match w.tokens.getD id none with
    | some (n, st) => { w with tokens := w.tokens.set id (some (n + 1, st)) }
    | none => w.emit Event.undefined_behaviour

/-- Release of one reference to the control block `id`.  The last owner
destroys the `shared_token`: `~shared_token` runs `m_job()`, then the member
`m_job` is destroyed (`~job` calls the delete function, then the token the job
holds is released in turn).  `fuel` bounds the chain of tokens released in
turn; a chain visits each live control block at most once. -/
def token_release : Nat → World → Nat → World
  | 0, w, _ => w.emit Event.diverged
  | fuel + 1, w, id =>
    match w.tokens.getD id none with
    | none => w.emit Event.undefined_behaviour
    | some (n, st) =>
      if n ≤ 1 then
        let w1 := ({ w with tokens := w.tokens.set id none }).emit (Event.continuation id)
        let w2 := call_func st.m_job.m_runFunc st.m_job.m_runnable w1
        let w3 := call_func st.m_job.m_deleteFunc st.m_job.m_runnable w2
        match st.m_job.m_callToken.m_token with
        | none => w3
        | some inner => token_release fuel w3 inner
      else { w with tokens := w.tokens.set id (some (n - 1, st)) }

end impl

/-- Destruction (or reset) of the `std::shared_ptr` inside a token. -/
def dependency_token.drop (t : dependency_token) (w : impl.World) : impl.World :=
  match t.m_token with
  | none => w
  | some id => impl.token_release w.tokens.length w id

/-- Embedding of `dependency_token::Open`: `m_token.reset()`. -/
def dependency_token.Open (t : dependency_token) (w : impl.World) :
    impl.World × dependency_token :=
  (t.drop w, { m_token := none })

namespace impl

/-- Embedding of `job::operator()`: `m_runFunc(m_runnable)`. -/
def job.invoke (j : job) (w : World) : World := call_func j.m_runFunc j.m_runnable w

/-- Embedding of `job::~job`: `m_deleteFunc(m_runnable)`, then the members
are destroyed, which releases `m_callToken`. -/
def job.destroy (j : job) (w : World) : World :=
  j.m_callToken.drop (call_func j.m_deleteFunc j.m_runnable w)

/-- Embedding of `job::move(job&& e)`; returns the world, `*this` and `e`
afterwards.  The move assignment of the token releases what `*this` held and
leaves the token of `e` empty. -/
def job.move (self e : job) (w : World) : World × job × job :=
  let self1 := { self with m_runFunc := e.m_runFunc, m_deleteFunc := e.m_deleteFunc,
                           m_runnable := e.m_runnable }
  let w1 := self1.m_callToken.drop w
  let self2 := { self1 with m_callToken := e.m_callToken }
  let e1 := { e with m_callToken := ({} : dependency_token) }
  (w1, self2, { e1 with m_runFunc := func.no_op, m_deleteFunc := func.no_op, m_runnable := none })

/-- Embedding of the move constructor `job(job&& e)`: the members take their
default initialisers, then `move`. -/
def job.move_ctor (e : job) (w : World) : World × job × job :=
  job.move {} e w

/-- Embedding of `job::operator=(job&& e)`:
`m_deleteFunc(m_runnable)`, then `move`. -/
def job.move_assign (self e : job) (w : World) : World × job × job :=
  job.move self e (call_func self.m_deleteFunc self.m_runnable w)

/-- Embedding of `job::set_dependency_token`: copy assignment of the token
(the new reference is taken, then the old one is released). -/
def job.set_dependency_token (j : job) (se : dependency_token) (w : World) : World × job :=
  ((j.m_callToken.drop (token_acquire w se)), { j with m_callToken := se })

/-- Embedding of `job::open_dependency_token`. -/
def job.open_dependency_token (j : job) (w : World) : World × job :=
  let (w1, t) := j.m_callToken.Open w
  (w1, { j with m_callToken := t })

end impl

/-- Embedding of `dependency_token(impl::job & e)` and of
`dependency_token(impl::job && e)`: `std::make_shared<shared_token>` of a
token whose `m_job` is move constructed from `e`; the new control block has
use count 1.  Returns the world, the token and `e` afterwards. -/
def dependency_token.ctor_job (e : impl.job) (w : impl.World) :
    impl.World × dependency_token × impl.job :=
  let (w1, m_job, e1) := impl.job.move_ctor e w
  ({ w1 with tokens := w1.tokens ++ [some (1, { m_job := m_job })] },
   { m_token := some w1.tokens.length }, e1)

/-- Embedding of `dependency_token(Runnable&& runnable)`: the `m_job` of the
shared token is `job(runnable)`. -/
def dependency_token.ctor_runnable (r : impl.Runnable) (w : impl.World) :
    impl.World × dependency_token :=
  let (w1, j) := impl.job.ctor_runnable w r
  ({ w1 with tokens := w1.tokens ++ [some (1, { m_job := j })] },
   { m_token := some w1.tokens.length })

end nova

/-! ## push with a token, call -/

namespace nova
namespace impl

/-- Embedding of the loop `for (job & j : jobs) j.set_dependency_token(dt)`. -/
def set_tokens (dt : dependency_token) : List job → World → World × List job
  | [], w => (w, [])
  | j :: js, w =>
    let (w1, j1) := j.set_dependency_token dt w
    let (w2, js1) := set_tokens dt js w1
    (w2, j1 :: js1)

/-- Embedding of `impl::push<ToMain>(dependency_token & dt, jobs)` for an
array and for a vector: every job receives a copy of `dt`, then the
collection is pushed. -/
def push_with_token (ToMain : Bool) (dt : dependency_token) (jobs : List job) (w : World) :
    World :=
  let (w1, jobs1) := set_tokens dt jobs w
  push_jobs ToMain jobs1 w1

/-- Embedding of the two overloads of `call_push<ToMain>`: with the array and
the vector (`some`), and without parameters (`none`), which does nothing. -/
def call_push (ToMain : Bool) (dt : dependency_token) :
    Option (List job × List job) → World → World
  | none, w => w
  | some (jobs, batchJobs), w =>
    push_with_token ToMain dt batchJobs (push_with_token ToMain dt jobs w)

/-- Embedding of `impl::call<ToMain, FromMain>(params...)` up to the fiber
switch: `currentFiber` is the result of `GetCurrentFiber()`, the completion
lambda lives in the frame of the caller, `dt` is built from a job that
borrows it, and `call_push` attaches `dt` and enqueues.  Returns the world
and `dt`, to which `resources::call_token()` now points. -/
def call (ToMain FromMain : Bool) (currentFiber : Nat)
    (params : Option (List job × List job)) (w : World) : World × dependency_token :=
  let (w1, completionJob) := w.alloc (Runnable.completionJob currentFiber FromMain)
  let (w2, dt, _) := dependency_token.ctor_job (job.ctor_pointer completionJob) w1
  (call_push ToMain dt params w2, dt)

/-- Embedding of the first statement of `open_call_token_enter_job_loop` and
of the last one of `finish_called_job`: `resources::call_token()->Open()`. -/
def open_call_token (call_token : dependency_token) (w : World) : World × dependency_token :=
  call_token.Open w

end impl

/-- Embedding of `switch_to_main`: `impl::call<false, true>()`. -/
def switch_to_main (currentFiber : Nat) (w : impl.World) : impl.World × dependency_token :=
  impl.call false true currentFiber none w

namespace impl

/-- The job that the completion lambda of `call` pushes: it owns a heap copy of
`bind(&finish_called_job, currentFiber)` placed at `addr`. -/
def resume_job (addr : Nat) : job :=
  { m_runFunc := func.run_runnable, m_deleteFunc := func.delete_runnable,
    m_runnable := some addr, m_callToken := { m_token := none } }

/-- Number of times the continuation of control block `id` has been invoked. -/
def World.fired (w : World) (id : Nat) : Nat := w.log.count (Event.continuation id)

/-! ## A dependency token and the envelopes holding it -/

/-- A dependency token in use: the handle of its creator and the live
envelopes. -/
structure TokenSys where
  world : World
  creator : dependency_token
  envelopes : List job
  deriving DecidableEq, Repr

/-- What can happen to the handles of a token: a new envelope is built from a
runnable and receives a copy of the handle of the creator; an envelope is
invoked; an envelope is destroyed; the creator opens its handle. -/
inductive TokenAction where
  | attach (r : Runnable)
  | invoke (i : Nat)
  | destroy (i : Nat)
  | open_creator
  deriving DecidableEq, Repr

/-- A token built from a runnable by `dependency_token(Runnable&&)`. -/
def TokenSys.create (w : World) (r : Runnable) : TokenSys :=
  let (w1, dt) := dependency_token.ctor_runnable r w
  { world := w1, creator := dt, envelopes := [] }

/-- One action on a token in use. -/
def TokenSys.step (s : TokenSys) : TokenAction → TokenSys
  | TokenAction.attach r =>
    let (w1, j) := job.ctor_runnable s.world r
    let (w2, j1) := j.set_dependency_token s.creator w1
    { s with world := w2, envelopes := s.envelopes ++ [j1] }
  | TokenAction.invoke i =>
    match s.envelopes[i]? with
    | some j => { s with world := j.invoke s.world }
    | none => s
  | TokenAction.destroy i =>
    match s.envelopes[i]? with
    | some j => { s with world := j.destroy s.world, envelopes := s.envelopes.eraseIdx i }
    | none => s
  | TokenAction.open_creator =>
    let (w1, t) := s.creator.Open s.world
    { s with world := w1, creator := t }

/-- A sequence of actions. -/
def TokenSys.run (s : TokenSys) (acts : List TokenAction) : TokenSys :=
  acts.foldl TokenSys.step s

/-- Number of handles on control block `id` held in the system. -/
def TokenSys.holders (s : TokenSys) (id : Nat) : Nat :=
  (s.envelopes.countP fun j => j.m_callToken.m_token = some id) +
    (if s.creator.m_token = some id then 1 else 0)

end impl
end nova

/-! ## worker_thread: thread ids and the thread count -/

namespace nova
namespace impl

/-- Embedding of the locked block of `worker_thread::init_thread`:
`thread_id() = thread_count(); thread_count()++` on the shared `std::size_t`
counter.  Returns the id assigned and the new count. -/
def worker_thread.init_thread (thread_count : Nat) : Nat × Nat :=
  (thread_count, (thread_count + 1) % SIZE_MOD)

/-- Value of `thread_count()` after `n` workers have run `init_thread`; the
static starts at `1`. -/
def worker_thread.thread_count_after : Nat → Nat
  | 0 => 1
  | n + 1 => (worker_thread.init_thread (worker_thread.thread_count_after n)).2

end impl
end nova

/-! ## The dual queue as seen by the workers -/

namespace nova
namespace impl

/-- Embedding of the choice made by `worker_thread::job_loop`:
`if (get_thread_id() == 0) pop_main(j); else pop(j);`. -/
def job_loop_pop {T : Type} (thread_id pick : Nat) (q : queue_wrapper T) :
    Option (T × queue_wrapper T) :=
  if thread_id = 0 then q.pop_main pick else q.pop pick

/-- Pushes and the pops of the worker loops. -/
inductive QueueAction (T : Type) where
  | push (ToMain : Bool) (items : List T)
  | job_loop_pop (thread_id pick : Nat)

/-- The queue pair, every envelope paired with the `ToMain` it was pushed
with, and the record of which thread dequeued which envelope. -/
structure QueueSys (T : Type) where
  queue : queue_wrapper (Bool × T) := {}
  dequeued : List (Nat × (Bool × T)) := []

/-- One action on the queue pair.  A pop that fails changes nothing. -/
def QueueSys.step {T : Type} (s : QueueSys T) : QueueAction T → QueueSys T
  | QueueAction.push ToMain items =>
    { s with queue := s.queue.push ToMain (items.map fun x => (ToMain, x)) }
  | QueueAction.job_loop_pop thread_id pick =>
    match job_loop_pop thread_id pick s.queue with
    | some (item, q) => { queue := q, dequeued := s.dequeued ++ [(thread_id, item)] }
    | none => s

/-- A sequence of actions from the empty queue pair. -/
def QueueSys.run {T : Type} (acts : List (QueueAction T)) : QueueSys T :=
  acts.foldl QueueSys.step {}

/-- Invariant of the queue pair: only envelopes pushed with `ToMain = false`
are in the global queue, and every envelope dequeued by a thread other than
thread 0 was pushed with `ToMain = false`. -/
def QueueSys.Inv {T : Type} (s : QueueSys T) : Prop :=
  (∀ x ∈ s.queue.m_globalQueue, x.1 = false) ∧
  (∀ d ∈ s.dequeued, d.2.1 = true → d.1 = 0)

end impl
end nova

/-! ## Counting the handles on a control block -/

namespace nova
namespace impl

/-- The job holds a handle on control block `id`. -/
def job.holds (id : Nat) (j : job) : Bool := decide (j.m_callToken.m_token = some id)

/-- Number of jobs in the two queues that hold a handle on control block `id`. -/
def World.qcount (w : World) (id : Nat) : Nat :=
  (w.queue.m_globalQueue.countP (job.holds id)) + (w.queue.m_mainQueue.countP (job.holds id))

/-- The step from `w` to `w1` leaves the control blocks of the tokens alone,
invokes no continuation, and adds no handle to the queues. -/
def Frame (w w1 : World) : Prop :=
  w1.tokens = w.tokens ∧ (∀ id, w1.fired id = w.fired id) ∧ (∀ id, w1.qcount id = w.qcount id)

/-- No job of the list holds a token. -/
def TokenFree (jobs : List job) : Prop := ∀ j ∈ jobs, j.m_callToken.m_token = none

end impl
end nova

namespace nova
namespace impl

/-- Invariant of a token in use, for the control block `id` whose shared token
is `st` and whose continuation had been invoked `base` times on creation:
every handle in the system is empty or refers to `id`; while handles are held
the use count equals their number and the continuation has not been invoked;
once none is held the control block is destroyed and the continuation has been
invoked exactly once. -/
def TokenSys.Inv (id base : Nat) (st : shared_token) (s : TokenSys) : Prop :=
  (∀ j ∈ s.envelopes, j.m_callToken.m_token = none ∨ j.m_callToken.m_token = some id) ∧
  (s.creator.m_token = none ∨ s.creator.m_token = some id) ∧
  s.world.tokens.getD id none = (if s.holders id = 0 then none else some (s.holders id, st)) ∧
  s.world.fired id = base + (if s.holders id = 0 then 1 else 0)

end impl
end nova

namespace nova
namespace impl

/-- Destroy the jobs of a list, one after the other. -/
def destroy_all (jobs : List job) (w : World) : World :=
  jobs.foldl (fun w1 j => j.destroy w1) w

/-- Invoke the jobs of a list, one after the other. -/
def invoke_all (jobs : List job) (w : World) : World :=
  jobs.foldl (fun w1 j => j.invoke w1) w

/-- The job that `split_batch_function` builds around the heap copy of
`basePtr` placed at `addr`. -/
def shared_job (addr : Nat) : job :=
  { m_runFunc := func.run_runnable_shared, m_deleteFunc := func.delete_runnable,
    m_runnable := some addr, m_callToken := { m_token := none } }

end impl
end nova

/-! ## The scheduler: calls, worker loop iterations and dependent pushes -/

namespace nova
namespace impl

/-- Embedding of `impl::push<ToMain, true>(runnables...)`: as
`push_independent`, but `push_picker<ToMain, true>` hands both collections to
`impl::push<ToMain>(*resources::dependent_token(), collection)`.
`dependent_token` is the token that the thread local pointer refers to. -/
def push_dependent (ToMain : Bool) (dependent_token : dependency_token)
    (runnables : List RunnableArg) (w : World) : World :=
  let jobs := List.replicate (runnables.length - batch_count runnables) ({} : job)
  let (w1, p) := pack_runnable jobs [] w runnables
  push_with_token ToMain dependent_token p.batchJobs
    (push_with_token ToMain dependent_token p.jobs w1)

/-- Number of envelopes that a push of `runnables` submits in world `w`. -/
def packed_count (runnables : List RunnableArg) (w : World) : Nat :=
  let jobs := List.replicate (runnables.length - batch_count runnables) ({} : job)
  (pack_runnable jobs [] w runnables).2.jobs.length +
    (pack_runnable jobs [] w runnables).2.batchJobs.length

/-- One iteration of the loop of `worker_thread::job_loop` in progress: the
thread that popped, the local `job j`, and whether `j()` has been entered. -/
structure Iteration where
  thread_id : Nat
  j : job
  invoked : Bool
  deriving DecidableEq, Repr

/-- A job as `nova::call` packs it before `impl::call` attaches the token:
run function, delete function and data pointer. -/
abbrev RawJob := func × func × Option Nat

/-- The job of a packed triple; its token is empty. -/
def RawJob.job (r : RawJob) : job := job.ctor_raw r.1 r.2.1 r.2.2

/-- State of the scheduler: memory and queues, the loop iterations in
progress (on any fiber), the `dt` of the calls made (each stays in the frame of
its suspended caller; the thread local `call_token` points to it until it is
opened), and two records kept for the statement of properties: one entry `id`
in `submitted` for every envelope that received a copy of token `id`, one
entry `id` in `completed` for every envelope holding token `id` that was
destroyed at the end of its loop iteration, after `j()`. -/
structure Sched where
  world : World := {}
  iterations : List Iteration := []
  call_tokens : List dependency_token := []
  submitted : List Nat := []
  completed : List Nat := []
  deriving DecidableEq, Repr

/-- Steps of the scheduler.
`call`: `impl::call<ToMain, FromMain>` on fiber `currentFiber`, up to the
fiber switch; `open_call_token`: the fiber switched to runs
`resources::call_token()->Open()`; `pop`: a worker pops in `job_loop`;
`invoke`: `j()` is entered; `push`: `nova::push` from running code;
`push_dependent`: `nova::push_dependent` while the thread local
`dependent_token` points to the token of iteration `i`; `finish`: the loop
body of iteration `i` ends, `rp` and `j` are destroyed. -/
inductive SchedAction where
  | call (ToMain FromMain : Bool) (currentFiber : Nat)
      (params : Option (List RawJob × List RawJob))
  | open_call_token (i : Nat)
  | pop (thread_id pick : Nat)
  | invoke (i : Nat)
  | push (ToMain : Bool) (runnables : List RunnableArg)
  | push_dependent (i : Nat) (ToMain : Bool) (runnables : List RunnableArg)
  | finish (i : Nat)
  deriving DecidableEq, Repr

/-- Entries recorded for `n` envelopes receiving or giving up token `t`. -/
def token_entries (t : dependency_token) (n : Nat) : List Nat :=
  match t.m_token with
  | some id => List.replicate n id
  | none => []

/-- Jobs handed to `impl::call`. -/
def call_params (params : Option (List RawJob × List RawJob)) :
    Option (List job × List job) :=
  match params with
  | some (a, b) => some (a.map RawJob.job, b.map RawJob.job)
  | none => none

/-- Number of jobs handed to `impl::call`. -/
def call_params_count (params : Option (List RawJob × List RawJob)) : Nat :=
  match params with
  | some (a, b) => a.length + b.length
  | none => 0

/-- One step of the scheduler.  A step that is not possible in the state
(a pop from empty queues, an index that names nothing, `j()` entered twice,
the loop body ending before `j()`) changes nothing. -/
def Sched.step (s : Sched) : SchedAction → Sched
  | SchedAction.call ToMain FromMain currentFiber params =>
    { s with
      world := (call ToMain FromMain currentFiber (call_params params) s.world).1
      call_tokens := s.call_tokens ++
        [(call ToMain FromMain currentFiber (call_params params) s.world).2]
      submitted := s.submitted ++
        token_entries (call ToMain FromMain currentFiber (call_params params) s.world).2
          (call_params_count params) }
  | SchedAction.open_call_token i =>
    match s.call_tokens[i]? with
    | some dt =>
      { s with world := (open_call_token dt s.world).1
               call_tokens := s.call_tokens.set i (open_call_token dt s.world).2 }
    | none => s
  | SchedAction.pop thread_id pick =>
    match job_loop_pop thread_id pick s.world.queue with
    | some (item, q) =>
      { s with
        world := (job.move_assign {} item { s.world with queue := q }).1
        iterations := s.iterations ++
          [{ thread_id := thread_id
             j := (job.move_assign {} item { s.world with queue := q }).2.1
             invoked := false }] }
    | none => s
  | SchedAction.invoke i =>
    match s.iterations[i]? with
    | some it =>
      if it.invoked then s
      else { s with world := it.j.invoke s.world
                    iterations := s.iterations.set i { it with invoked := true } }
    | none => s
  | SchedAction.push ToMain runnables =>
    { s with world := push_independent ToMain runnables s.world }
  | SchedAction.push_dependent i ToMain runnables =>
    match s.iterations[i]? with
    | some it =>
      { s with world := push_dependent ToMain it.j.m_callToken runnables s.world
               submitted := s.submitted ++
                 token_entries it.j.m_callToken (packed_count runnables s.world) }
    | none => s
  | SchedAction.finish i =>
    match s.iterations[i]? with
    | some it =>
      if it.invoked then
        { s with world := it.j.destroy s.world
                 iterations := s.iterations.eraseIdx i
                 completed := s.completed ++ token_entries it.j.m_callToken 1 }
      else s
    | none => s

/-- The scheduler after a sequence of steps from the initial state. -/
def Sched.run (acts : List SchedAction) : Sched := acts.foldl Sched.step {}

/-- Loop iterations in progress whose job holds a handle on `id`. -/
def Sched.itercount (s : Sched) (id : Nat) : Nat :=
  s.iterations.countP fun it => it.j.holds id

/-- Call tokens not yet opened that refer to `id`. -/
def Sched.pending (s : Sched) (id : Nat) : Nat :=
  s.call_tokens.countP fun t => decide (t.m_token = some id)

/-- Live envelopes (queued or in a loop iteration) holding a handle on `id`. -/
def Sched.envelopes (s : Sched) (id : Nat) : Nat := s.world.qcount id + s.itercount id

/-- Invariant of the scheduler for control block `id`, on the numbers that
describe it: `len` control blocks exist, `tok` is the block `id`, `fired` the
number of invocations of its continuation, `env` the live envelopes and `pend`
the unopened call tokens holding it, `sub` and `comp` the records. -/
def InvNum (id len : Nat) (tok : Option (Nat × shared_token))
    (fired env pend sub comp : Nat) : Prop :=
  (len ≤ id → env + pend = 0 ∧ fired = 0 ∧ tok = none) ∧
  (id < len →
    (env + pend = 0 → tok = none ∧ fired = 1) ∧
    (env + pend ≠ 0 →
      (∃ st : shared_token, tok = some (env + pend, st) ∧ st.m_job.m_callToken.m_token = none) ∧
      fired = 0)) ∧
  sub = comp + env

/-- Invariant of the scheduler for control block `id`. -/
def Sched.InvAt (s : Sched) (id : Nat) : Prop :=
  InvNum id s.world.tokens.length (s.world.tokens.getD id none) (s.world.fired id)
    (s.envelopes id) (s.pending id) (s.submitted.count id) (s.completed.count id)

end impl
end nova

/-! ## Fibers and the thread local stack of recycled fibers -/

namespace nova
namespace impl

/-- How a fiber came to be: a thread turned into a fiber by
`ConvertThreadToFiberEx`, or a fiber made by `CreateFiberEx` with the start
routine named. -/
inductive FiberStart where
  | converted_thread
  | open_call_token_enter_job_loop
  deriving DecidableEq, Repr

/-- Embedding of `get_fresh_fiber`.  `available_fibers` is the thread local
vector of the calling thread, `fibers` the fibers of the process (a fiber
handle is the position of its entry; `CreateFiberEx` hands out a handle not
used before).  With `available_fibers().size() > 0` the result is the element
at `size() - 1`, followed by `pop_back()`; otherwise a fiber is created with
start routine `open_call_token_enter_job_loop`.  Returns the fiber, the
vector and the fibers of the process afterwards. -/
def get_fresh_fiber (available_fibers : List Nat) (fibers : List FiberStart) :
    Nat × List Nat × List FiberStart :=
  if available_fibers.length > 0 then
    (available_fibers.getD (available_fibers.length - 1) 0, available_fibers.dropLast, fibers)
  else
    (fibers.length, available_fibers, fibers ++ [FiberStart.open_call_token_enter_job_loop])

/-- Embedding of the first statement of `finish_called_job`:
`resources::available_fibers().push_back(GetCurrentFiber())`. -/
def finish_called_job_mark (current_fiber : Nat) (available_fibers : List Nat) : List Nat :=
  available_fibers ++ [current_fiber]

end impl
end nova

namespace nova
namespace impl

/-- The part of the thread local state of a worker that fiber switches use:
the fiber the thread runs (`GetCurrentFiber()`) and its vector
`resources::available_fibers()`. -/
structure FiberThread where
  current_fiber : Nat
  available_fibers : List Nat := []
  deriving DecidableEq, Repr

/-- The fibers of the process and where they are: `fibers` lists every fiber
made so far, `threads` the workers, `suspended` the fibers that are suspended
in `SwitchToFiber` inside `impl::call` (one for each call whose resume job has
not run yet).  `max_outstanding` records the largest number of such calls seen
so far. -/
structure FiberSys where
  fibers : List FiberStart
  threads : List FiberThread
  suspended : List Nat := []
  max_outstanding : Nat := 0
  deriving DecidableEq, Repr

/-- The state after `worker_count` threads have run
`ConvertThreadToFiberEx`: thread `t` runs fiber `t`. -/
def FiberSys.init (worker_count : Nat) : FiberSys :=
  { fibers := List.replicate worker_count FiberStart.converted_thread
    threads := (List.range worker_count).map fun t => { current_fiber := t } }

/-- What the threads do to the fibers.
`call thread`: the code running on `thread` executes `impl::call`, that is
`SwitchToFiber(get_fresh_fiber())`;
`resume thread k`: the loop running on `thread` has popped the resume job of
the `k`-th suspended fiber and runs `finish_called_job(oldFiber)` up to its
`SwitchToFiber(oldFiber)`. -/
inductive FiberAction where
  | call (thread : Nat)
  | resume (thread k : Nat)
  deriving DecidableEq, Repr

/-- The thread that performs the action. -/
def FiberAction.thread : FiberAction → Nat
  | FiberAction.call thread => thread
  | FiberAction.resume thread _ => thread

/-- One action.  An action of a thread that does not exist, or the resumption
of a fiber that is not suspended, changes nothing. -/
def FiberSys.step (s : FiberSys) : FiberAction → FiberSys
  | FiberAction.call thread =>
    match s.threads[thread]? with
    | some th =>
      { fibers := (get_fresh_fiber th.available_fibers s.fibers).2.2
        threads := s.threads.set thread
          { current_fiber := (get_fresh_fiber th.available_fibers s.fibers).1
            available_fibers := (get_fresh_fiber th.available_fibers s.fibers).2.1 }
        suspended := s.suspended ++ [th.current_fiber]
        max_outstanding := max s.max_outstanding (s.suspended.length + 1) }
    | none => s
  | FiberAction.resume thread k =>
    match s.threads[thread]?, s.suspended[k]? with
    | some th, some oldFiber =>
      { s with
        threads := s.threads.set thread
          { current_fiber := oldFiber
            available_fibers := finish_called_job_mark th.current_fiber th.available_fibers }
        suspended := s.suspended.eraseIdx k }
    | _, _ => s

/-- A sequence of actions from the start with `worker_count` threads. -/
def FiberSys.run (worker_count : Nat) (acts : List FiberAction) : FiberSys :=
  acts.foldl FiberSys.step (FiberSys.init worker_count)

/-- Number of fibers waiting in the vectors of recycled fibers. -/
def FiberSys.recycled (s : FiberSys) : Nat :=
  (s.threads.map fun th => th.available_fibers.length).sum

/-- The fibers made so far are those the threads run, those suspended in a
call and those in the vectors of recycled fibers. -/
def FiberSys.Conserved (s : FiberSys) : Prop :=
  s.fibers.length = s.threads.length + s.suspended.length + s.recycled

/-- Every thread other than `thread` has an empty vector of recycled fibers. -/
def FiberSys.OnlyThread (thread : Nat) (s : FiberSys) : Prop :=
  ∀ (t : Nat) (th : FiberThread), s.threads[t]? = some th → t ≠ thread →
    th.available_fibers = []

end impl
end nova

/-! ## Every envelope pushed, for the account of the two queues -/

namespace nova
namespace impl

/-- The envelopes that one action pushes, each paired with its `ToMain`. -/
def QueueAction.pushed {T : Type} : QueueAction T → List (Bool × T)
  | QueueAction.push ToMain items => items.map fun x => (ToMain, x)
  | QueueAction.job_loop_pop _ _ => []

/-- The envelopes that a sequence of actions pushes, in the order of the
pushes. -/
def QueueSys.pushed {T : Type} (acts : List (QueueAction T)) : List (Bool × T) :=
  (acts.map QueueAction.pushed).flatten

end impl
end nova

/-! ## nova::call and the packing of borrowed runnables -/

namespace nova
namespace impl

/-- Embedding of the single runnable overload of `pack_runnable<false>`:
`jobs[index++] = { &runnable }`, a job that borrows the runnable at address
`runnable` in the frame of the caller (the slot written is a default
constructed job, so the assignment stores the new job; a write past the end of
the array is undefined). -/
def pack_runnable_false_one (p : Packed) (w : World) (runnable : Nat) : World × Packed :=
  if p.index < p.jobs.length then
    (w, { p with jobs := p.jobs.set p.index (job.ctor_pointer runnable), index := p.index + 1 })
  else (w.emit Event.undefined_behaviour, { p with index := p.index + 1 })

/-- Embedding of the call `pack_runnable<false>(jobs, index, batchJobs,
runnables...)` for runnables that are not batch functions, as overload
resolution settles it: one runnable selects the single runnable overload;
more select the overload that breaks the first runnable off and recurses on
the rest; with an empty parameter pack the three arguments `(jobs, index,
batchJobs)` fit no overload (the entry overload wants the vector in second
place, every other one a runnable in fourth place), so the program is
rejected when it is compiled: `none`. -/
def pack_runnable_false_from (p : Packed) (w : World) : List Nat → Option (World × Packed)
  | [] => none
  | [runnable] => some (pack_runnable_false_one p w runnable)
  | runnable :: next :: runnables =>
    pack_runnable_false_from (pack_runnable_false_one p w runnable).2
      (pack_runnable_false_one p w runnable).1 (next :: runnables)

/-- Embedding of the entry overload of `pack_runnable<false>`: `index(0)`,
then the call above. -/
def pack_runnable_false (jobs batchJobs : List job) (w : World) (runnables : List Nat) :
    Option (World × Packed) :=
  pack_runnable_false_from { jobs := jobs, index := 0, batchJobs := batchJobs } w runnables

end impl

/-- Embedding of `nova::call<ToMain, FromMain>(runnables...)` up to the fiber
switch, for runnables that are not batch functions, each given by its address
in the frame of the caller: an array of `sizeof...(Runnables)` default jobs
and an empty vector are filled by `pack_runnable<false>` and handed to
`impl::call<ToMain, FromMain>`.  `none`: the instantiation is rejected when
it is compiled, and nothing runs. -/
def call (ToMain FromMain : Bool) (currentFiber : Nat) (runnables : List Nat)
    (w : impl.World) : Option (impl.World × dependency_token) :=
  match impl.pack_runnable_false (List.replicate runnables.length ({} : impl.job)) [] w
      runnables with
  | none => none
  | some (w1, p) => some (impl.call ToMain FromMain currentFiber (some (p.jobs, p.batchJobs)) w1)

end nova

/-! ## The thread local state of a worker and the body of its loop -/

namespace nova
namespace impl

/-- The thread local statics that the loop of `worker_thread::job_loop` reads
and writes: `worker_thread::running()`, initially `true`, and the pointer
`resources::dependent_token()`, initially null (`none`), otherwise the token
it points to. -/
structure Worker where
  running : Bool := true
  dependent_token : Option dependency_token := none
  deriving DecidableEq, Repr

/-- Embedding of the constructor of `raii_ptr`: `m_ptr = val`. -/
def raii_ptr.ctor (val : dependency_token) (t : Worker) : Worker :=
  { t with dependent_token := some val }

/-- Embedding of the destructor of `raii_ptr`: `m_ptr = nullptr`. -/
def raii_ptr.dtor (t : Worker) : Worker :=
  { t with dependent_token := none }

/-- Embedding of `worker_thread::kill_worker`: `running() = false`, on the
flag of the thread that runs it. -/
def worker_thread.kill_worker (t : Worker) : Worker :=
  { t with running := false }

/-- What an event does to the thread local state of the thread it happens on:
an application of `kill_worker` runs `worker_thread::kill_worker` there. -/
def Worker.effect (t : Worker) : Event → Worker
  | Event.applied Callable.kill_worker _ => worker_thread.kill_worker t
  | _ => t

/-- Embedding of `j()` on a worker: the memory changes as `job::operator()`
says, and what it applies runs on the calling thread. -/
def Worker.invoke (j : job) (t : Worker) (w : World) : Worker × World :=
  (((j.invoke w).log.drop w.log.length).foldl Worker.effect t, j.invoke w)

/-- A job built by `job(Runnable&&)` from a plain runnable, whose heap copy is
at `addr`, after it has received the token `tok`. -/
def owning_job (addr : Nat) (tok : dependency_token) : job :=
  { m_runFunc := func.run_runnable, m_deleteFunc := func.delete_runnable,
    m_runnable := some addr, m_callToken := tok }

/-- The body of the loop of `job_loop` after the pop, at the point where `rp`
has been constructed: `resources::dependent_token()` points to the token of
`j`. -/
def job_loop_entered (j : job) (t : Worker) (w : World) : Worker × World :=
  (raii_ptr.ctor j.m_callToken t, w)

/-- The body of the loop at the point where `j()` has returned. -/
def job_loop_returned (j : job) (t : Worker) (w : World) : Worker × World :=
  Worker.invoke j (job_loop_entered j t w).1 (job_loop_entered j t w).2

/-- The body of the loop at the end of the block, after the destructor of
`rp` (the variable declared last is destroyed first). -/
def job_loop_cleared (j : job) (t : Worker) (w : World) : Worker × World :=
  (raii_ptr.dtor (job_loop_returned j t w).1, (job_loop_returned j t w).2)

/-- The body of the loop inside `~job`, after `m_deleteFunc(m_runnable)`. -/
def job_loop_deleted (j : job) (t : Worker) (w : World) : Worker × World :=
  ((job_loop_cleared j t w).1,
   call_func j.m_deleteFunc j.m_runnable (job_loop_cleared j t w).2)

/-- Embedding of the body of the loop of `job_loop` after the pop:
`raii_ptr<dependency_token> rp(resources::dependent_token(),
&j.get_dependency_token()); j();`, then the destructors of `rp` and of `j`;
the last thing `~job` does is to destroy the member `m_callToken`. -/
def job_loop_body (j : job) (t : Worker) (w : World) : Worker × World :=
  ((job_loop_deleted j t w).1, j.m_callToken.drop (job_loop_deleted j t w).2)

end impl
end nova

/-! ## Pushes made by the code that a worker runs -/

namespace nova
namespace impl

/-- Embedding of `nova::push_dependent<ToMain>(runnables...)` run on a
worker: after packing, `push_picker<ToMain, true>` dereferences the thread
local pointer `resources::dependent_token()`; through a null pointer that is
undefined. -/
def Worker.push_dependent (ToMain : Bool) (runnables : List RunnableArg) (t : Worker)
    (w : World) : World :=
  match t.dependent_token with
  | some token => impl.push_dependent ToMain token runnables w
  | none =>
    (pack_runnable (List.replicate (runnables.length - batch_count runnables) ({} : job)) [] w
      runnables).1.emit Event.undefined_behaviour

/-- Embedding of `nova::push<ToMain>(runnables...)` run on a worker: the thread
local state plays no part. -/
def Worker.push (ToMain : Bool) (runnables : List RunnableArg) (_t : Worker) (w : World) :
    World :=
  push_independent ToMain runnables w

/-- The array and the vector that a push of `runnables` packs in world `w`. -/
def packed (runnables : List RunnableArg) (w : World) : Packed :=
  (pack_runnable (List.replicate (runnables.length - batch_count runnables) ({} : job)) [] w
    runnables).2

end impl
end nova

/-! ## impl::call statement by statement, among the other workers -/

namespace nova
namespace impl

/-- Embedding of one `push<ToMain>(dt, collection)` of `call_push`, on the
state of the scheduler: every job receives a copy of `dt`, then the
collection is enqueued; the envelopes are recorded as submitted. -/
def Sched.push_with_token (ToMain : Bool) (dt : dependency_token) (jobs : List RawJob)
    (s : Sched) : Sched :=
  { s with world := impl.push_with_token ToMain dt (jobs.map RawJob.job) s.world
           submitted := s.submitted ++ token_entries dt jobs.length }

/-- An execution of `impl::call<ToMain, FromMain>` in progress: its template
argument `ToMain`, its parameters (`none` for the form without parameters)
and the number `pc` of steps taken after `dt` was built and
`resources::call_token()` set: step 1 is the first `push<ToMain>(dt, ..)` of
`call_push`, step 2 the second, step 3 is `SwitchToFiber(get_fresh_fiber())`,
which suspends the calling fiber, and step 4 is
`resources::call_token()->Open()` on the fiber switched to. -/
structure CallFrame where
  ToMain : Bool
  params : Option (List RawJob × List RawJob)
  pc : Nat := 0
  deriving DecidableEq, Repr

/-- The scheduler together with the calls in progress; call `c` owns the
token at position `c` of `call_tokens`. -/
structure CallSys where
  sched : Sched := {}
  frames : List CallFrame := []
  deriving DecidableEq, Repr

/-- Steps: a fiber enters `impl::call` (`dt` is built and `call_token` set);
call `c` takes its next step; any worker does something else. -/
inductive CallAction where
  | call (ToMain FromMain : Bool) (currentFiber : Nat)
      (params : Option (List RawJob × List RawJob))
  | next (c : Nat)
  | worker (a : SchedAction)
  deriving DecidableEq, Repr

/-- The next step of a call in progress whose token is `dt`; the form of the
call without parameters selects the `call_push` that does nothing. -/
def CallFrame.next (fr : CallFrame) (c : Nat) (dt : dependency_token) (s : Sched) :
    Sched × CallFrame :=
  if fr.pc = 0 then
    ((match fr.params with
      | some p => s.push_with_token fr.ToMain dt p.1
      | none => s), { fr with pc := 1 })
  else if fr.pc = 1 then
    ((match fr.params with
      | some p => s.push_with_token fr.ToMain dt p.2
      | none => s), { fr with pc := 2 })
  else if fr.pc = 2 then (s, { fr with pc := 3 })
  else if fr.pc = 3 then (s.step (SchedAction.open_call_token c), { fr with pc := 4 })
  else (s, fr)

/-- One step.  The steps of the calls go through `call` and `next`; a worker
step is one of the other steps of the scheduler. -/
def CallSys.step (s : CallSys) : CallAction → CallSys
  | CallAction.call ToMain FromMain currentFiber params =>
    { sched := s.sched.step (SchedAction.call ToMain FromMain currentFiber none)
      frames := s.frames ++ [{ ToMain := ToMain, params := params }] }
  | CallAction.next c =>
    match s.frames[c]?, s.sched.call_tokens[c]? with
    | some fr, some dt =>
      { sched := (fr.next c dt s.sched).1, frames := s.frames.set c (fr.next c dt s.sched).2 }
    | _, _ => s
  | CallAction.worker a =>
    match a with
    | SchedAction.call _ _ _ _ => s
    | SchedAction.open_call_token _ => s
    | a => { s with sched := s.sched.step a }

/-- A sequence of steps from the initial state. -/
def CallSys.run (acts : List CallAction) : CallSys := acts.foldl CallSys.step {}

/-- Invariant of the calls in progress: the scheduler satisfies its invariant
for every latch, every token of `call_tokens` belongs to a call, and the token
of a call that has not taken step 4 refers to a latch. -/
def CallSys.Inv (s : CallSys) : Prop :=
  (∀ id, s.sched.InvAt id) ∧
  s.frames.length = s.sched.call_tokens.length ∧
  ∀ (c : Nat) (fr : CallFrame), s.frames[c]? = some fr → fr.pc < 4 →
    ∃ id, s.sched.call_tokens[c]? = some { m_token := some id }

end impl
end nova

/-! ## Workers, their loops and the kill jobs -/

namespace nova
namespace impl

/-- Embedding of the loop of `kill_all_workers`:
`for (unsigned c = 0; c < worker_thread::get_thread_count(); c++)
nova::push(bind(worker_thread::kill_worker))`.  The counter is an `unsigned`;
`fuel` bounds the number of loop tests. -/
def kill_all_workers_loop (thread_count : Nat) : Nat → Nat → World → World
  | 0, _, w => w.emit Event.diverged
  | fuel + 1, c, w =>
    if c < thread_count then
      kill_all_workers_loop thread_count fuel ((c + 1) % UINT_MOD)
        (push_independent false [RunnableArg.plain ⟨Callable.kill_worker, []⟩] w)
    else w

end impl

/-- Embedding of `kill_all_workers`, with the value that
`worker_thread::get_thread_count()` returns. -/
def kill_all_workers (thread_count : Nat) (w : impl.World) : impl.World :=
  impl.kill_all_workers_loop thread_count (thread_count + 1) 0 w

namespace impl

/-- A thread in `worker_thread::job_loop`: its thread local state and the
local `job j` of the loop body, `none` while the thread is at the loop test
or in the pop. -/
structure LoopThread where
  tl : Worker := {}
  j : Option job := none
  deriving DecidableEq, Repr

/-- The workers and the memory they share. -/
structure WorkerSys where
  world : World := {}
  threads : List LoopThread := []
  deriving DecidableEq, Repr

/-- The state with `worker_count` threads entering `job_loop`. -/
def WorkerSys.init (worker_count : Nat) : WorkerSys :=
  { threads := List.replicate worker_count {} }

/-- Steps of the workers.
`loop_test thread pick`: the thread evaluates `while (running())` and, when
the flag holds, makes one attempt of its pop;
`run thread`: the thread executes the rest of the loop body, `rp`, `j()` and
the destructors;
`push ToMain f`: running code executes `nova::push<ToMain>(bind(..))` for the
bound function `f`. -/
inductive WorkerAction where
  | loop_test (thread pick : Nat)
  | run (thread : Nat)
  | push (ToMain : Bool) (f : function)
  deriving DecidableEq, Repr

/-- One step.  A step of a thread that does not exist, a loop test in the
middle of the body and a body without a job change nothing; so does a loop
test that finds `running()` false (the loop is left, nothing is popped) and
a pop that finds nothing. -/
def WorkerSys.step (s : WorkerSys) : WorkerAction → WorkerSys
  | WorkerAction.loop_test thread pick =>
    match s.threads[thread]? with
    | some th =>
      match th.j with
      | some _ => s
      | none =>
        if th.tl.running then
          match job_loop_pop thread pick s.world.queue with
          | some (item, q) =>
            { world := (job.move_assign {} item { s.world with queue := q }).1
              threads := s.threads.set thread
                { th with j := some (job.move_assign {} item { s.world with queue := q }).2.1 } }
          | none => s
        else s
    | none => s
  | WorkerAction.run thread =>
    match s.threads[thread]? with
    | some th =>
      match th.j with
      | some j =>
        { world := (job_loop_body j th.tl s.world).2
          threads := s.threads.set thread { tl := (job_loop_body j th.tl s.world).1, j := none } }
      | none => s
    | none => s
  | WorkerAction.push ToMain f =>
    { s with world := push_independent ToMain [RunnableArg.plain f] s.world }

/-- A sequence of steps from the start with `worker_count` workers. -/
def WorkerSys.run (worker_count : Nat) (acts : List WorkerAction) : WorkerSys :=
  acts.foldl WorkerSys.step (WorkerSys.init worker_count)

/-- The step pushes a kill job. -/
def WorkerAction.pushes_kill : WorkerAction → Bool
  | WorkerAction.push _ f => decide (f.m_callable = Callable.kill_worker)
  | _ => false

/-- The job runs `worker_thread::kill_worker` when invoked in world `w`. -/
def job.runs_kill_worker (w : World) (j : job) : Bool :=
  match j.m_runnable.bind w.cell with
  | some (Runnable.function f) => decide (f.m_callable = Callable.kill_worker)
  | _ => false

/-- The jobs that exist: queued, or local to a loop body in progress. -/
def WorkerSys.jobs (s : WorkerSys) : List job :=
  s.world.queue.m_globalQueue ++ s.world.queue.m_mainQueue ++
    s.threads.filterMap fun th => th.j

/-- Number of workers whose `running()` flag is false. -/
def WorkerSys.stopped (s : WorkerSys) : Nat :=
  s.threads.countP fun th => !th.tl.running

/-- Number of kill jobs that exist. -/
def WorkerSys.kill_jobs (s : WorkerSys) : Nat :=
  s.jobs.countP (job.runs_kill_worker s.world)

/-- Invariant of the workers: every job that exists owns a bound function in
memory, no two jobs own the same one, a thread inside the loop body has found
its flag true, and the workers stopped and the kill jobs that exist add up to
`kills`. -/
def WorkerSys.Inv (kills : Nat) (s : WorkerSys) : Prop :=
  (∀ j ∈ s.jobs, ∃ (addr : Nat) (f : function),
    j = resume_job addr ∧ s.world.cell addr = some (Runnable.function f)) ∧
  (s.jobs.map fun j => j.m_runnable).Nodup ∧
  (∀ th ∈ s.threads, th.j ≠ none → th.tl.running = true) ∧
  s.stopped + s.kill_jobs = kills

end impl
end nova

/-! ## A consumer in pop or pop_main, step by step -/

namespace nova
namespace impl

/-- Value of the macro `SPIN_COUNT`. -/
def SPIN_COUNT : Nat := 10000

/-- Where a consumer stands in the loop of `queue_wrapper::pop` or
`queue_wrapper::pop_main`: about to evaluate the loop condition (the
try-pop), inside the loop body after a failed try-pop, blocked in
`SleepConditionVariableCS(.., INFINITE)`, or returned with an item. -/
inductive PopPhase where
  | test
  | body
  | sleeping
  | done
  deriving DecidableEq, Repr

/-- A consumer inside `pop` (thread id other than 0) or `pop_main` (thread
id 0), as `job_loop` selects, together with the queue pair: the local
`unsigned counter`, the place in the loop and the item received. -/
structure PopState (T : Type) where
  queue : queue_wrapper T := {}
  thread_id : Nat
  counter : Nat := 0
  phase : PopPhase := PopPhase.test
  item : Option T := none

/-- Steps: the consumer executes its next statement (`pick` selects what a
try-pop removes), or another thread executes `queue_wrapper::push<ToMain>` of
one item. -/
inductive PopAction (T : Type) where
  | consumer (pick : Nat)
  | push (ToMain : Bool) (item : T)

/-- One step.
The consumer: the loop condition is the try-pop of `job_loop_pop`; the body is
`if (counter++ > SPIN_COUNT) { counter = 0; SleepConditionVariableCS(..) }`;
a blocked consumer does nothing until it is woken.
A push: the item is enqueued, then `WakeConditionVariable` is called on
`s_mainCV`, and on `s_cv` as well when `ToMain` is false; the consumer waits
on `s_mainCV` in `pop_main` and on `s_cv` in `pop`, and a wake call does
something only to a thread that is blocked on the condition variable at
that moment (the critical section named in the sleep is thread local and no
push enters it). -/
def PopState.step {T : Type} (s : PopState T) : PopAction T → PopState T
  | PopAction.consumer pick =>
    match s.phase with
    | PopPhase.test =>
      match job_loop_pop s.thread_id pick s.queue with
      | some (item, q) => { s with queue := q, phase := PopPhase.done, item := some item }
      | none => { s with phase := PopPhase.body }
    | PopPhase.body =>
      if s.counter > SPIN_COUNT then { s with counter := 0, phase := PopPhase.sleeping }
      else { s with counter := (s.counter + 1) % UINT_MOD, phase := PopPhase.test }
    | PopPhase.sleeping => s
    | PopPhase.done => s
  | PopAction.push ToMain item =>
    if s.phase = PopPhase.sleeping ∧ (s.thread_id = 0 ∨ ToMain = false) then
      { s with queue := s.queue.push ToMain [item], phase := PopPhase.test }
    else { s with queue := s.queue.push ToMain [item] }

/-- A sequence of steps. -/
def PopState.run {T : Type} (s : PopState T) (acts : List (PopAction T)) : PopState T :=
  acts.foldl PopState.step s

end impl
end nova

namespace nova
namespace impl

/-- An interleaving of a consumer with one push: the consumer spins on the
empty queues until its counter exceeds `SPIN_COUNT`, its next try-pop fails,
then another thread pushes `item` on the global queue, then the consumer
executes the body of its loop. -/
def PopAction.late_push {T : Type} (pick : Nat) (item : T) : List (PopAction T) :=
  List.replicate (2 * (SPIN_COUNT + 1)) (PopAction.consumer pick) ++
    [PopAction.consumer pick, PopAction.push false item, PopAction.consumer pick]

end impl
end nova

/-! ## Thread ids handed out by init_thread -/

namespace nova
namespace impl

/-- The locked blocks of `worker_thread::init_thread` run by `n` workers one
after the other (the lock guard on `init_lock()` lets one thread at a time
through), starting from the shared count `thread_count`: the ids assigned, in
the order in which the workers pass, and the count afterwards. -/
def worker_thread.spawn : Nat → Nat → List Nat × Nat
  | 0, thread_count => ([], thread_count)
  | n + 1, thread_count =>
    ((worker_thread.init_thread thread_count).1 ::
        (worker_thread.spawn n (worker_thread.init_thread thread_count).2).1,
     (worker_thread.spawn n (worker_thread.init_thread thread_count).2).2)

/-- Embedding of `threads.resize(threadCount - 1)` in `start_async` and
`start_sync`: the number of `worker_thread` objects constructed, each of which
starts a thread that runs `init_thread`; `threadCount` is an `unsigned`. -/
def start_worker_count (threadCount : Nat) : Nat :=
  (threadCount + UINT_MOD - 1) % UINT_MOD

end impl
end nova

namespace Nova

/-- Embedding of the locked block of the legacy `WorkerThread::InitThread`:
`s_thread_id = s_threadCount; s_threadCount++` on `unsigned int` statics.
Returns the id assigned and the new count. -/
def WorkerThread.InitThread (s_threadCount : Nat) : Nat × Nat :=
  (s_threadCount, (s_threadCount + 1) % nova.UINT_MOD)

end Nova

/-! ## Size of the subrange handed to the callable -/

namespace nova
namespace impl

end impl
end nova

/-! ## The legacy front end of Queue.h: envelopes of a batch job -/

namespace Nova

/-- Functions that the legacy `Envelope` stores in `m_runFunc`: the
instantiations of its static member templates. -/
inductive RunFunc where
  | RunRunnable
  | DeleteRunnable
  | RunAndDeleteRunnable
  deriving DecidableEq, Repr

/-- Embedding of the legacy `Envelope`.  The constructor `Envelope(){}`
initialises neither pointer (`none`) and leaves the vector of sealed
envelopes empty; a sealed envelope is identified by its shared seal. -/
structure Envelope where
  m_runFunc : Option RunFunc := none
  m_runnable : Option Nat := none
  m_sealedEnvelopes : List Nat := []
  deriving DecidableEq, Repr

/-- Embedding of the constructor `Envelope(Runnable * runnable)`. -/
def Envelope.ctor_pointer (runnable : Nat) : Envelope :=
  { m_runFunc := some RunFunc.RunRunnable, m_runnable := some runnable }

/-- Embedding of the loop shared by `Queue::SplitBatchJob` and
`Queue::SplitBatchJobNoAlloc`:
`for (unsigned int section = 1; section <= j.GetSections(); section++)
{ Envelope gj(..); ..; jobs.push_back(gj); }`, where `gj` stands for the
envelope pushed.  The counter is an `unsigned`; `fuel` bounds the number of
loop tests, and `none` says that it did not suffice. -/
def Queue.split_loop (sections : Nat) (gj : Envelope) : Nat → Nat → List Envelope →
    Option (List Envelope)
  | 0, _, _ => none
  | fuel + 1, section_, jobs =>
    if section_ ≤ sections then
      Queue.split_loop sections gj fuel ((section_ + 1) % nova.UINT_MOD) (jobs ++ [gj])
    else some jobs

/-- Embedding of `Queue::SplitBatchJob(j)`: `std::vector<Envelope>
jobs(j.GetSections())` holds `GetSections()` default constructed envelopes
before the loop runs; `basePtr` is the address of the heap copy of `j`, and
`AddSealedEnvelopes`, whose body is in a file that is not among the sources,
is a parameter. -/
def Queue.SplitBatchJob (sections basePtr : Nat) (AddSealedEnvelopes : Envelope → Envelope) :
    Option (List Envelope) :=
  Queue.split_loop sections (AddSealedEnvelopes (Envelope.ctor_pointer basePtr)) (sections + 1) 1
    (List.replicate sections {})

/-- Embedding of `Queue::SplitBatchJobNoAlloc(j)`: as `SplitBatchJob`, with
envelopes that borrow `j` (at address `j`) and carry no sealed envelope. -/
def Queue.SplitBatchJobNoAlloc (sections j : Nat) : Option (List Envelope) :=
  Queue.split_loop sections (Envelope.ctor_pointer j) (sections + 1) 1
    (List.replicate sections {})

end Nova

/-! ## Where the fibers are -/

namespace nova
namespace impl

/-- The places that hold a fiber: the fiber that each thread runs, the fibers
suspended in a call, and the slots of the vectors of recycled fibers. -/
def FiberSys.places (s : FiberSys) : List Nat :=
  (s.threads.map fun th => th.current_fiber) ++ s.suspended ++
    (s.threads.map fun th => th.available_fibers).flatten

/-- Number of times that fiber `x` is the fiber run by the thread or is in a
slot of its vector of recycled fibers. -/
def FiberThread.occurrences (x : Nat) (th : FiberThread) : Nat :=
  (if th.current_fiber = x then 1 else 0) + th.available_fibers.count x

/-- Number of places that hold fiber `x`. -/
def FiberSys.occurrences (s : FiberSys) (x : Nat) : Nat :=
  (s.threads.map (FiberThread.occurrences x)).sum + s.suspended.count x

end impl
end nova

/-! ## The runnables of a pack, by kind, and the batch overload of `pack_runnable<false>` -/

namespace nova
namespace impl

/-- The arguments of a pack that are not batch functions, in argument order. -/
def plain_runnables : List RunnableArg → List function
  | [] => []
  | RunnableArg.plain f :: args => f :: plain_runnables args
  | RunnableArg.batch _ :: args => plain_runnables args

/-- The arguments of a pack that are batch functions, in argument order. -/
def batch_runnables : List RunnableArg → List batch_function
  | [] => []
  | RunnableArg.plain _ :: args => batch_runnables args
  | RunnableArg.batch bf :: args => bf :: batch_runnables args

/-- Embedding of the loop of `split_batch_function_no_alloc`:
`for (unsigned section = 0; section < j.get_sections(); section++)
jobs.emplace_back(&bf)`, where `sections` is the value of `j.get_sections()`
and `bf` the address of the batch function.  The counter is an `unsigned`;
`fuel` bounds the number of loop tests (`none`: out of fuel). -/
def split_no_alloc_loop (bf sections : Nat) : Nat → Nat → List job → Option (List job)
  | 0, _, _ => none
  | fuel + 1, section_, jobs =>
    if section_ < sections then
      split_no_alloc_loop bf sections fuel ((section_ + 1) % UINT_MOD)
        (jobs ++ [job.ctor_pointer bf])
    else some jobs

/-- Embedding of `split_batch_function_no_alloc(bf)` for the batch function at
address `bf`.  The loop test reads `j.get_sections()`, and the function has no
parameter or local `j` (its parameter is `bf`): `j` is what the name `j`
denotes where the template is instantiated, `none` when no declaration is
visible under that name, as in `nova.h`, which declares none.  `none` as a
result: the instantiation is rejected when it is compiled (or the loop is out
of fuel). -/
def split_batch_function_no_alloc (j : Option batch_function) (bf : Nat) : Option (List job) :=
  match j with
  | none => none
  | some b => split_no_alloc_loop bf b.get_sections (b.get_sections + 1) 0 []

/-- Embedding of the batch overload of `pack_runnable<false>`:
`splitEnvs = split_batch_function_no_alloc(bf);
batchJobs.insert(batchJobs.end(), splitEnvs.begin(), splitEnvs.end())`. -/
def pack_runnable_false_batch (j : Option batch_function) (p : Packed) (bf : Nat) :
    Option Packed :=
  match split_batch_function_no_alloc j bf with
  | none => none
  | some splitEnvs => some { p with batchJobs := p.batchJobs ++ splitEnvs }

end impl
end nova

/-! ## Jobs under construction, move and destruction -/

namespace nova
namespace impl

/-- A set of `job` objects and the memory they refer to.  `jobs[i]` is the
value of object `i` while it is alive and `none` once it has been destroyed. -/
structure JobSys where
  world : World := {}
  jobs : List (Option job) := []
  deriving DecidableEq, Repr

/-- What a program does with its `job` objects.  `create f`: `job{f}` for a
runnable `f` that is not a batch function (the job owns a heap copy of it);
`default_ctor`: `job()`; `move_ctor k`: a new object `job(std::move(jobs[k]))`;
`move_assign i k`: `jobs[i] = std::move(jobs[k])`; `destroy i`: the
destructor of object `i`; `invoke i`: `jobs[i]()`. -/
inductive JobAction where
  | create (f : function)
  | default_ctor
  | move_ctor (k : Nat)
  | move_assign (i k : Nat)
  | destroy (i : Nat)
  | invoke (i : Nat)
  deriving DecidableEq, Repr

/-- One action on the objects.  An action that names an object that is not
alive (or a move assignment of an object to itself) is not one of the
sequences considered and leaves the state as it is. -/
def JobSys.step (s : JobSys) : JobAction → JobSys
  | JobAction.create f =>
    { world := (job.ctor_runnable s.world (Runnable.function f)).1
      jobs := s.jobs ++ [some (job.ctor_runnable s.world (Runnable.function f)).2] }
  | JobAction.default_ctor => { s with jobs := s.jobs ++ [some ({} : job)] }
  | JobAction.move_ctor k =>
    match s.jobs[k]? with
    | some (some e) =>
      { world := (job.move_ctor e s.world).1
        jobs := s.jobs.set k (some (job.move_ctor e s.world).2.2) ++
          [some (job.move_ctor e s.world).2.1] }
    | _ => s
  | JobAction.move_assign i k =>
    if i = k then s
    else
      match s.jobs[i]?, s.jobs[k]? with
      | some (some self), some (some e) =>
        { world := (job.move_assign self e s.world).1
          jobs := (s.jobs.set i (some (job.move_assign self e s.world).2.1)).set k
            (some (job.move_assign self e s.world).2.2) }
      | _, _ => s
  | JobAction.destroy i =>
    match s.jobs[i]? with
    | some (some j) => { world := j.destroy s.world, jobs := s.jobs.set i none }
    | _ => s
  | JobAction.invoke i =>
    match s.jobs[i]? with
    | some (some j) => { s with world := j.invoke s.world }
    | _ => s

/-- The state after a sequence of actions, started without any object and
with nothing in memory. -/
def JobSys.run (acts : List JobAction) : JobSys :=
  acts.foldl JobSys.step {}

/-- Object slot `o` is a live job whose delete function is `delete_runnable`
on the closure at `addr`. -/
def JobSys.holder (addr : Nat) (o : Option job) : Bool :=
  match o with
  | some j => decide (j.m_deleteFunc = func.delete_runnable ∧ j.m_runnable = some addr)
  | none => false

/-- Number of live jobs that hold the closure at `addr`. -/
def JobSys.holders (s : JobSys) (addr : Nat) : Nat := s.jobs.countP (JobSys.holder addr)

/-- Number of times `delete_runnable` has released the closure at `addr`. -/
def JobSys.deleted (s : JobSys) (addr : Nat) : Nat := s.world.log.count (Event.deleted addr)

/-- Invariant of the objects: a live job is a default (or moved-from) job, or
the owner of a closure that is still in memory; a closure has been released
once and is held by no job, or has not been released and is held by exactly
one; nothing undefined has happened. -/
def JobSys.Inv (s : JobSys) : Prop :=
  (∀ (k : Nat) (j : job), s.jobs[k]? = some (some j) →
    j = {} ∨ ∃ addr f, j = owning_job addr {} ∧
      s.world.cell addr = some (Runnable.function f)) ∧
  (∀ addr, s.deleted addr + s.holders addr = if addr < s.world.heap.length then 1 else 0) ∧
  s.world.log.count Event.undefined_behaviour = 0

end impl
end nova

/-! # Properties -/

namespace nova
namespace impl

/-! ## Batch tuples -/

theorem getD_others_append (pre : List Nat) (rest : tuple_t) (i : Nat) (d : Param) :
    (pre.map Param.other ++ rest).getD (pre.length + i) d = rest.getD i d := by
  induction pre with
  | nil => simp
  | cons x xs ih =>
    have h : (x :: xs).length + i = (xs.length + i) + 1 := by simp; omega
    rw [h]
    simpa using ih

theorem integral_index_batch_tuple (pre : List Nat) (s e : Nat) (post : tuple_t) :
    integral_index (batch_tuple pre s e post) = pre.length := by
  induction pre with
  | nil => simp [batch_tuple, integral_index, Param.is_integral]
  | cons x xs ih =>
    simp only [batch_tuple, List.map_cons, List.cons_append, integral_index, Param.is_integral,
      List.length_cons] at ih ⊢
    simp [ih]; omega

theorem start_batch_tuple (pre : List Nat) (s e : Nat) (post : tuple_t) :
    batch_function.start (batch_tuple pre s e post) = s := by
  unfold batch_function.start
  rw [integral_index_batch_tuple]
  have := getD_others_append pre (Param.integral s :: Param.integral e :: post) 0
    (Param.integral 0)
  rw [Nat.add_zero] at this
  unfold batch_tuple
  rw [this]; rfl

theorem end_batch_tuple (pre : List Nat) (s e : Nat) (post : tuple_t) :
    batch_function.end_ (batch_tuple pre s e post) = e := by
  unfold batch_function.end_
  rw [integral_index_batch_tuple]
  have := getD_others_append pre (Param.integral s :: Param.integral e :: post) 1
    (Param.integral 0)
  unfold batch_tuple
  rw [this]; rfl

theorem uint_mod_eq : UINT_MOD = 4294967296 := by decide

theorem size_mod_eq : SIZE_MOD = 18446744073709551616 := by decide

/-- Wrapping subtraction of `unsigned` values is the difference on an ordered
pair. -/
theorem uint_sub_of_le (s e : Nat) (hse : s ≤ e) (he : e < UINT_MOD) :
    (e + UINT_MOD - s) % UINT_MOD = e - s := by
  have he1 : e < 4294967296 := uint_mod_eq ▸ he
  rw [uint_mod_eq]; omega

theorem ctor_sections_batch_tuple (c : Callable) (pre : List Nat) (s e : Nat) (post : tuple_t)
    (w : Nat) (hse : s ≤ e) (he : e < UINT_MOD) :
    batch_function.ctor c (batch_tuple pre s e post) w =
      ⟨c, batch_tuple pre s e post, 0, min (e - s) w⟩ := by
  unfold batch_function.ctor
  rw [start_batch_tuple, end_batch_tuple, uint_sub_of_le s e hse he]

/-- C7 (construction).  A batch task built for the range `[start, end)` while
the thread count is `w` has `sections = min(end - start, w)`, a section counter
of 0, and stores callable and tuple as given; hence
`1 ≤ sections ≤ end - start` when `end > start` and `w ≥ 1`.  The thread count
starts at 1 and every `init_thread` adds one, so it is at least 1. -/
theorem batch_function_ctor_sections (callable : Callable) (pre : List Nat) (s e : Nat)
    (post : tuple_t) (w : Nat) (hse : s ≤ e) (he : e < UINT_MOD) :
    (batch_function.ctor callable (batch_tuple pre s e post) w).get_sections = min (e - s) w ∧
    (batch_function.ctor callable (batch_tuple pre s e post) w).m_currentSection = 0 ∧
    (batch_function.ctor callable (batch_tuple pre s e post) w).m_tuple
      = batch_tuple pre s e post ∧
    (batch_function.ctor callable (batch_tuple pre s e post) w).m_callable = callable ∧
    (s < e → 1 ≤ w →
      1 ≤ (batch_function.ctor callable (batch_tuple pre s e post) w).get_sections ∧
      (batch_function.ctor callable (batch_tuple pre s e post) w).get_sections ≤ e - s) ∧
    (∀ n : Nat, n + 1 < SIZE_MOD →
      worker_thread.thread_count_after n = n + 1 ∧ 1 ≤ worker_thread.thread_count_after n) := by
  rw [ctor_sections_batch_tuple callable pre s e post w hse he]
  refine ⟨rfl, rfl, rfl, rfl, ?_, ?_⟩
  · intro h1 h2
    simp only [batch_function.get_sections]
    constructor
    · apply Nat.le_min.mpr; constructor <;> omega
    · exact Nat.min_le_left _ _
  · intro n
    induction n with
    | zero => intro _; simp [worker_thread.thread_count_after]
    | succ n ih =>
      intro hn
      have h := (ih (by omega)).1
      simp only [worker_thread.thread_count_after, worker_thread.init_thread, h]
      have : (n + 1 + 1) % SIZE_MOD = n + 1 + 1 := Nat.mod_eq_of_lt hn
      rw [this]
      exact ⟨rfl, by omega⟩

theorem batch_function_ctor_sections_witness :
    (batch_function.ctor (Callable.user 0) (batch_tuple [7] 3 13 []) 4).get_sections
      = min (13 - 3) 4 ∧
    (batch_function.ctor (Callable.user 0) (batch_tuple [7] 3 13 []) 4).m_currentSection = 0 :=
  ⟨(batch_function_ctor_sections (Callable.user 0) [7] 3 13 [] 4 (by decide) (by decide)).1,
   (batch_function_ctor_sections (Callable.user 0) [7] 3 13 [] 4 (by decide) (by decide)).2.1⟩

end impl
end nova

namespace nova
namespace impl

/-! ## Jobs and moves -/

/-- C6 (move construction).  The move constructor gives the destination the
run function, delete function, data pointer and token of the source and
changes nothing in memory (no use count changes); the source is left with
`no_op`, `no_op`, a null pointer and an empty token, and invoking or destroying
it leaves every world unchanged. -/
theorem job_move_ctor_transfers (e : job) (w : World) :
    (job.move_ctor e w).1 = w ∧
    (job.move_ctor e w).2.1 = e ∧
    (job.move_ctor e w).2.2 =
      { m_runFunc := func.no_op, m_deleteFunc := func.no_op, m_runnable := none,
        m_callToken := { m_token := none } } ∧
    (∀ w1 : World, (job.move_ctor e w).2.2.invoke w1 = w1) ∧
    (∀ w1 : World, (job.move_ctor e w).2.2.destroy w1 = w1) := by
  refine ⟨rfl, rfl, rfl, fun _ => rfl, fun _ => rfl⟩

/-! ## The dual queue -/

end impl
end nova

namespace nova
namespace impl

/-! ## Memory lemmas -/

theorem getD_append_length {α : Type} (l : List α) (x d : α) :
    (l ++ [x]).getD l.length d = x := by
  simp [List.getD_eq_getElem?_getD]

theorem getD_append_of_lt {α : Type} (l r : List α) (i : Nat) (d : α) (h : i < l.length) :
    (l ++ r).getD i d = l.getD i d := by
  simp [List.getD_eq_getElem?_getD, List.getElem?_append_left h]

theorem getD_set_self {α : Type} (l : List α) (i : Nat) (x d : α) (h : i < l.length) :
    (l.set i x).getD i d = x := by
  simp [List.getD_eq_getElem?_getD, h]

theorem getD_set_of_ne {α : Type} (l : List α) (i k : Nat) (x d : α) (h : i ≠ k) :
    (l.set i x).getD k d = l.getD k d := by
  simp [List.getD_eq_getElem?_getD, List.getElem?_set_ne h]

theorem lt_length_of_getD_some {α : Type} (l : List (Option α)) (i : Nat) (x : α)
    (h : l.getD i none = some x) : i < l.length := by
  by_contra hlt
  have : l.getD i none = none := by
    simp [List.getD_eq_getElem?_getD, List.getElem?_eq_none (Nat.le_of_not_lt hlt)]
  rw [this] at h
  cases h


theorem token_release_last (fuel id : Nat) (w : World) (st : shared_token)
    (h : w.tokens.getD id none = some (1, st)) (ht : st.m_job.m_callToken.m_token = none) :
    token_release (fuel + 1) w id =
      call_func st.m_job.m_deleteFunc st.m_job.m_runnable
        (call_func st.m_job.m_runFunc st.m_job.m_runnable
          (({ w with tokens := w.tokens.set id none }).emit (Event.continuation id))) := by
  simp only [token_release, h, ht, Nat.le_refl, if_true]

theorem token_release_shared (fuel id n : Nat) (w : World) (st : shared_token)
    (h : w.tokens.getD id none = some (n, st)) (hn : 1 < n) :
    token_release (fuel + 1) w id =
      { w with tokens := w.tokens.set id (some (n - 1, st)) } := by
  have : ¬ n ≤ 1 := by omega
  simp only [token_release, h, this, if_false]

theorem drop_last (id : Nat) (w : World) (st : shared_token)
    (h : w.tokens.getD id none = some (1, st)) (ht : st.m_job.m_callToken.m_token = none) :
    dependency_token.drop { m_token := some id } w =
      call_func st.m_job.m_deleteFunc st.m_job.m_runnable
        (call_func st.m_job.m_runFunc st.m_job.m_runnable
          (({ w with tokens := w.tokens.set id none }).emit (Event.continuation id))) := by
  have hlt := lt_length_of_getD_some _ _ _ h
  obtain ⟨fuel, hf⟩ : ∃ fuel, w.tokens.length = fuel + 1 := ⟨w.tokens.length - 1, by omega⟩
  simp only [dependency_token.drop, hf]
  exact token_release_last fuel id w st h ht

theorem drop_shared (id n : Nat) (w : World) (st : shared_token)
    (h : w.tokens.getD id none = some (n, st)) (hn : 1 < n) :
    dependency_token.drop { m_token := some id } w =
      { w with tokens := w.tokens.set id (some (n - 1, st)) } := by
  have hlt := lt_length_of_getD_some _ _ _ h
  obtain ⟨fuel, hf⟩ : ∃ fuel, w.tokens.length = fuel + 1 := ⟨w.tokens.length - 1, by omega⟩
  simp only [dependency_token.drop, hf]
  exact token_release_shared fuel id n w st h hn

theorem count_append_singleton_self {α : Type} [DecidableEq α] (l : List α) (a : α) :
    (l ++ [a]).count a = l.count a + 1 := by
  simp

theorem count_append_singleton_ne {α : Type} [DecidableEq α] (l : List α) (a b : α)
    (h : b ≠ a) : (l ++ [b]).count a = l.count a := by
  simp [List.count_cons, h]

theorem push_independent_single (ToMain : Bool) (f : function) (w : World) :
    push_independent ToMain [RunnableArg.plain f] w =
      { w with heap := w.heap ++ [some (Runnable.function f)]
               queue := w.queue.push ToMain [resume_job w.heap.length] } := by
  cases ToMain <;>
    simp [push_independent, batch_count, pack_runnable, pack_runnable_from, pack_runnable_one,
      job.ctor_runnable, World.alloc, Runnable.is_shared, push_jobs, queue_wrapper.push,
      mpmc_push, resume_job]

/-- Invoking the job that borrows the completion lambda of a call pushes one
resume job, bound to the fiber captured, on the queue that `FromMain` selects. -/
theorem invoke_completionJob (addr currentFiber : Nat) (FromMain : Bool) (w : World)
    (h : w.cell addr = some (Runnable.completionJob currentFiber FromMain)) :
    (job.ctor_pointer addr).invoke w =
      { w with heap := w.heap ++ [some (Runnable.function
                  ⟨Callable.finish_called_job, [Param.other currentFiber]⟩)]
               queue := w.queue.push FromMain [resume_job w.heap.length] } := by
  simp only [job.invoke, job.ctor_pointer, call_func, Option.bind, h]
  exact push_independent_single _ _ _

end impl
end nova

namespace nova
namespace impl

/-! ## Steps that leave the tokens alone -/

theorem Frame.refl (w : World) : Frame w w := ⟨rfl, fun _ => rfl, fun _ => rfl⟩

theorem Frame.trans {a b c : World} (h1 : Frame a b) (h2 : Frame b c) : Frame a c :=
  ⟨h2.1.trans h1.1, fun id => (h2.2.1 id).trans (h1.2.1 id),
    fun id => (h2.2.2 id).trans (h1.2.2 id)⟩

theorem frame_emit (w : World) (e : Event) (h : ∀ id, e ≠ Event.continuation id) :
    Frame w (w.emit e) := by
  refine ⟨rfl, fun id => ?_, fun _ => rfl⟩
  simp only [World.fired, World.emit]
  exact count_append_singleton_ne _ _ _ (h id)

theorem frame_of_eq (w w1 : World) (ht : w1.tokens = w.tokens) (hl : w1.log = w.log)
    (hq : w1.queue = w.queue) : Frame w w1 := by
  refine ⟨ht, fun id => ?_, fun id => ?_⟩
  · simp only [World.fired, hl]
  · simp only [World.qcount, hq]

theorem frame_batch_acquire (w : World) (ctrl : Nat) : Frame w (batch_acquire w ctrl) := by
  unfold batch_acquire
  split
  · exact frame_of_eq _ _ rfl rfl rfl
  · exact frame_emit _ _ (fun _ h => by cases h)

theorem frame_batch_release (w : World) (ctrl : Nat) : Frame w (batch_release w ctrl) := by
  unfold batch_release
  split
  · split
    · exact (frame_of_eq w _ rfl rfl rfl).trans (frame_emit _ _ (fun _ h => by cases h))
    · exact frame_of_eq _ _ rfl rfl rfl
  · exact frame_emit _ _ (fun _ h => by cases h)

theorem frame_ctor_runnable (w : World) (r : Runnable) :
    Frame w (job.ctor_runnable w r).1 ∧ (job.ctor_runnable w r).2.m_callToken.m_token = none := by
  refine ⟨?_, rfl⟩
  unfold job.ctor_runnable
  cases r with
  | function f => exact frame_of_eq _ _ rfl rfl rfl
  | completionJob c f => exact frame_of_eq _ _ rfl rfl rfl
  | shared_batch ctrl =>
    exact (frame_batch_acquire w ctrl).trans (frame_of_eq _ _ rfl rfl rfl)

theorem frame_split_loop (ctrl sections : Nat) :
    ∀ (fuel section_ : Nat) (w : World) (jobs : List job), TokenFree jobs →
      Frame w (split_loop ctrl sections fuel section_ w jobs).1 ∧
      TokenFree (split_loop ctrl sections fuel section_ w jobs).2 := by
  intro fuel
  induction fuel with
  | zero =>
    intro section_ w jobs hj
    exact ⟨frame_emit _ _ (fun _ h => by cases h), hj⟩
  | succ fuel ih =>
    intro section_ w jobs hj
    simp only [split_loop]
    split
    · have hc := frame_ctor_runnable w (Runnable.shared_batch ctrl)
      have hj1 : TokenFree (jobs ++ [(job.ctor_runnable w (Runnable.shared_batch ctrl)).2]) := by
        intro j hjm
        simp only [List.mem_append, List.mem_singleton] at hjm
        rcases hjm with hjm | rfl
        · exact hj j hjm
        · exact hc.2
      have := ih ((section_ + 1) % UINT_MOD)
        (job.ctor_runnable w (Runnable.shared_batch ctrl)).1 _ hj1
      exact ⟨hc.1.trans this.1, this.2⟩
    · exact ⟨Frame.refl w, hj⟩

theorem frame_split_batch_function (w : World) (bf : batch_function) :
    Frame w (split_batch_function w bf).1 ∧ TokenFree (split_batch_function w bf).2 := by
  unfold split_batch_function
  have h1 : Frame w (make_shared_batch w bf).1 := frame_of_eq _ _ rfl rfl rfl
  have h2 := frame_split_loop (make_shared_batch w bf).2 bf.get_sections (bf.get_sections + 1) 0
    (make_shared_batch w bf).1 [] (fun _ h => by cases h)
  exact ⟨h1.trans (h2.1.trans (frame_batch_release _ _)), h2.2⟩

theorem tokenFree_set (jobs : List job) (i : Nat) (j : job) (h : TokenFree jobs)
    (hj : j.m_callToken.m_token = none) : TokenFree (jobs.set i j) := by
  intro x hx
  rcases List.mem_or_eq_of_mem_set hx with hx | rfl
  · exact h x hx
  · exact hj

theorem tokenFree_append (a b : List job) (ha : TokenFree a) (hb : TokenFree b) :
    TokenFree (a ++ b) := by
  intro x hx
  rcases List.mem_append.mp hx with hx | hx
  · exact ha x hx
  · exact hb x hx

theorem frame_pack_runnable_one (p : Packed) (w : World) (r : RunnableArg)
    (hj : TokenFree p.jobs) (hb : TokenFree p.batchJobs) :
    Frame w (pack_runnable_one p w r).1 ∧ TokenFree (pack_runnable_one p w r).2.jobs ∧
      TokenFree (pack_runnable_one p w r).2.batchJobs := by
  cases r with
  | plain f =>
    have hc := frame_ctor_runnable w (Runnable.function f)
    simp only [pack_runnable_one]
    split
    · exact ⟨hc.1, tokenFree_set _ _ _ hj hc.2, hb⟩
    · exact ⟨hc.1.trans (frame_emit _ _ (fun _ h => by cases h)), hj, hb⟩
  | batch bf =>
    have hs := frame_split_batch_function w bf
    simp only [pack_runnable_one]
    exact ⟨hs.1, hj, tokenFree_append _ _ hb hs.2⟩

theorem frame_pack_runnable_from (rs : List RunnableArg) :
    ∀ (p : Packed) (w : World), TokenFree p.jobs → TokenFree p.batchJobs →
      Frame w (pack_runnable_from p w rs).1 ∧ TokenFree (pack_runnable_from p w rs).2.jobs ∧
        TokenFree (pack_runnable_from p w rs).2.batchJobs := by
  induction rs with
  | nil => intro p w hj hb; exact ⟨Frame.refl w, hj, hb⟩
  | cons r rs ih =>
    intro p w hj hb
    have h1 := frame_pack_runnable_one p w r hj hb
    have h2 := ih (pack_runnable_one p w r).2 (pack_runnable_one p w r).1 h1.2.1 h1.2.2
    exact ⟨h1.1.trans h2.1, h2.2⟩

theorem tokenFree_replicate (n : Nat) : TokenFree (List.replicate n ({} : job)) := by
  intro j hj
  rw [List.eq_of_mem_replicate hj]

theorem countP_holds_tokenFree (jobs : List job) (id : Nat) (h : TokenFree jobs) :
    jobs.countP (job.holds id) = 0 := by
  rw [List.countP_eq_zero]
  intro j hj
  simp [job.holds, h j hj]

theorem qcount_push_jobs (ToMain : Bool) (jobs : List job) (w : World) (id : Nat) :
    (push_jobs ToMain jobs w).qcount id = w.qcount id + jobs.countP (job.holds id) := by
  cases ToMain <;>
    simp [push_jobs, World.qcount, queue_wrapper.push, mpmc_push, List.countP_append] <;> omega

theorem frame_push_jobs_tokenFree (ToMain : Bool) (jobs : List job) (w : World)
    (h : TokenFree jobs) : Frame w (push_jobs ToMain jobs w) := by
  refine ⟨rfl, fun _ => rfl, fun id => ?_⟩
  rw [qcount_push_jobs, countP_holds_tokenFree jobs id h]
  rfl

theorem frame_push_independent (ToMain : Bool) (rs : List RunnableArg) (w : World) :
    Frame w (push_independent ToMain rs w) := by
  unfold push_independent pack_runnable
  have h := frame_pack_runnable_from rs
    { jobs := List.replicate (rs.length - batch_count rs) ({} : job), index := 0, batchJobs := [] }
    w (tokenFree_replicate _) (fun _ h => by cases h)
  exact h.1.trans ((frame_push_jobs_tokenFree ToMain _ _ h.2.1).trans
    (frame_push_jobs_tokenFree ToMain _ _ h.2.2))

theorem frame_delete_cell (w : World) (addr : Nat) :
    Frame w (World.emit { w with heap := w.heap.set addr none } (Event.deleted addr)) :=
  (frame_of_eq w { w with heap := w.heap.set addr none } rfl rfl rfl).trans
    (frame_emit _ _ (fun _ h => by cases h))

theorem frame_call_func (f : func) (data : Option Nat) (w : World) :
    Frame w (call_func f data w) := by
  unfold call_func
  split
  · exact Frame.refl w
  · exact frame_emit _ _ (fun _ h => by cases h)
  · split
    · exact frame_emit _ _ (fun _ h => by cases h)
    · exact frame_push_independent _ _ _
    · exact frame_emit _ _ (fun _ h => by cases h)
  · split
    · split
      · split
        · exact (frame_of_eq w _ rfl rfl rfl).trans (frame_emit _ _ (fun _ h => by cases h))
        · exact frame_emit _ _ (fun _ h => by cases h)
      · exact frame_emit _ _ (fun _ h => by cases h)
    · exact frame_emit _ _ (fun _ h => by cases h)
  · split
    · exact Frame.refl w
    · split
      · split
        · exact (frame_delete_cell w _).trans (frame_batch_release _ _)
        · exact frame_delete_cell w _
      · exact frame_emit _ _ (fun _ h => by cases h)

end impl
end nova

namespace nova
namespace impl

/-! ## Taking and releasing references -/

theorem countP_eraseIdx {α : Type} (p : α → Bool) :
    ∀ (xs : List α) (i : Nat) (x : α), xs[i]? = some x →
      (xs.eraseIdx i).countP p + (if p x then 1 else 0) = xs.countP p := by
  intro xs
  induction xs with
  | nil => intro i x h; simp at h
  | cons y ys ih =>
    intro i x h
    cases i with
    | zero =>
      simp only [List.getElem?_cons_zero, Option.some.injEq] at h
      subst h
      simp only [List.eraseIdx_zero, List.tail_cons, List.countP_cons]
    | succ i =>
      simp only [List.getElem?_cons_succ] at h
      have := ih i x h
      simp only [List.eraseIdx_cons_succ, List.countP_cons]
      omega

/-- Effect of releasing one reference on a control block whose continuation
job holds no token itself: with other references left the use count goes
down by one; the last reference destroys the block and invokes the
continuation once.  Other control blocks and the handles in the queues are not
affected. -/
theorem drop_spec (w : World) (id h : Nat) (st : shared_token)
    (hst : st.m_job.m_callToken.m_token = none)
    (hget : w.tokens.getD id none = some (h + 1, st)) :
    ((dependency_token.drop { m_token := some id } w).tokens.getD id none =
        (if h = 0 then none else some (h, st))) ∧
    ((dependency_token.drop { m_token := some id } w).fired id =
        w.fired id + (if h = 0 then 1 else 0)) ∧
    (∀ id1, id1 ≠ id →
      (dependency_token.drop { m_token := some id } w).tokens.getD id1 none =
        w.tokens.getD id1 none ∧
      (dependency_token.drop { m_token := some id } w).fired id1 = w.fired id1) ∧
    (∀ id1, (dependency_token.drop { m_token := some id } w).qcount id1 = w.qcount id1) ∧
    (dependency_token.drop { m_token := some id } w).tokens.length = w.tokens.length := by
  have hlt := lt_length_of_getD_some _ _ _ hget
  by_cases h0 : h = 0
  · subst h0
    rw [drop_last id w st hget hst]
    have hf1 := frame_call_func st.m_job.m_runFunc st.m_job.m_runnable
      (({ w with tokens := w.tokens.set id none }).emit (Event.continuation id))
    have hf2 := frame_call_func st.m_job.m_deleteFunc st.m_job.m_runnable
      (call_func st.m_job.m_runFunc st.m_job.m_runnable
        (({ w with tokens := w.tokens.set id none }).emit (Event.continuation id)))
    have hf := hf1.trans hf2
    refine ⟨?_, ?_, ?_, ?_, ?_⟩
    · rw [hf.1]
      simp only [World.emit, if_true]
      exact getD_set_self _ _ _ _ hlt
    · rw [hf.2.1]
      simp only [World.fired, World.emit, if_true]
      exact count_append_singleton_self _ _
    · intro id1 hne
      rw [hf.1, hf.2.1]
      constructor
      · simp only [World.emit]
        exact getD_set_of_ne _ _ _ _ _ (Ne.symm hne)
      · simp only [World.fired, World.emit]
        apply count_append_singleton_ne
        intro heq
        cases heq
        exact hne rfl
    · intro id1
      rw [hf.2.2]
      rfl
    · rw [hf.1]
      simp [World.emit]
  · rw [drop_shared id (h + 1) w st hget (by omega)]
    simp only [Nat.add_sub_cancel, h0, if_false, Nat.add_zero]
    refine ⟨getD_set_self _ _ _ _ hlt, rfl, ?_, fun _ => rfl, by simp⟩
    intro id1 hne
    exact ⟨getD_set_of_ne _ _ _ _ _ (Ne.symm hne), rfl⟩

/-- Effect of copying a handle on a live control block. -/
theorem acquire_spec (w : World) (id n : Nat) (st : shared_token)
    (hget : w.tokens.getD id none = some (n, st)) :
    token_acquire w { m_token := some id } =
      { w with tokens := w.tokens.set id (some (n + 1, st)) } := by
  simp only [token_acquire, hget]

end impl
end nova

namespace nova
namespace impl

/-! ## A dependency token fires exactly once -/

theorem drop_empty (t : dependency_token) (w : World) (h : t.m_token = none) : t.drop w = w := by
  simp only [dependency_token.drop, h]

theorem TokenSys.inv_create (w : World) (r : Runnable) :
    (TokenSys.create w r).Inv w.tokens.length (w.fired w.tokens.length)
      { m_job := (job.ctor_runnable w r).2 } := by
  have hf := (frame_ctor_runnable w r).1
  have hh : (TokenSys.create w r).holders w.tokens.length = 1 := by
    simp [TokenSys.holders, TokenSys.create, dependency_token.ctor_runnable, hf.1]
  unfold TokenSys.Inv
  refine And.intro ?_ (And.intro (Or.inr ?_) (And.intro ?_ ?_))
  · intro j hj
    simp [TokenSys.create, dependency_token.ctor_runnable] at hj
  · simp [TokenSys.create, dependency_token.ctor_runnable, hf.1]
  · rw [hh]
    simp only [TokenSys.create, dependency_token.ctor_runnable, hf.1]
    exact getD_append_length _ _ _
  · rw [hh]
    simp only [TokenSys.create, dependency_token.ctor_runnable]
    exact hf.2.1 _

theorem TokenSys.holders_mk (w : World) (c : dependency_token) (es : List job) (id : Nat) :
    TokenSys.holders { world := w, creator := c, envelopes := es } id =
      es.countP (fun j => decide (j.m_callToken.m_token = some id)) +
        (if c.m_token = some id then 1 else 0) := rfl

theorem token_eq_of_m_token (t : dependency_token) (x : Option Nat) (h : t.m_token = x) :
    t = { m_token := x } := by
  cases t; simp_all

/-- Shape of the invariant once the number of holders is known. -/
theorem TokenSys.inv_of_holders (id base k : Nat) (st : shared_token) (s : TokenSys)
    (henv : ∀ j ∈ s.envelopes, j.m_callToken.m_token = none ∨ j.m_callToken.m_token = some id)
    (hcr : s.creator.m_token = none ∨ s.creator.m_token = some id)
    (hk : s.holders id = k)
    (htok : s.world.tokens.getD id none = (if k = 0 then none else some (k, st)))
    (hfired : s.world.fired id = base + (if k = 0 then 1 else 0)) :
    s.Inv id base st := by
  subst hk
  exact ⟨henv, hcr, htok, hfired⟩

theorem TokenSys.step_keeps_token_inv (id base : Nat) (st : shared_token)
    (hst : st.m_job.m_callToken.m_token = none) (s : TokenSys) (a : TokenAction)
    (h : s.Inv id base st) : (s.step a).Inv id base st := by
  obtain ⟨henv, hcr, htok, hfired⟩ := h
  cases a with
  | attach r =>
    have hf := frame_ctor_runnable s.world r
    simp only [TokenSys.step, job.set_dependency_token]
    rw [drop_empty _ _ hf.2]
    rcases hcr with hc | hc
    · -- the creator has opened its handle: the copy is empty
      have hacq : token_acquire (job.ctor_runnable s.world r).1 s.creator
          = (job.ctor_runnable s.world r).1 := by
        simp only [token_acquire, hc]
      refine TokenSys.inv_of_holders id base (s.holders id) st _ ?_ ?_ ?_ ?_ ?_
      · intro j hj
        simp only [List.mem_append, List.mem_singleton] at hj
        rcases hj with hj | rfl
        · exact henv j hj
        · exact Or.inl hc
      · exact Or.inl hc
      · simp [TokenSys.holders, List.countP_append, hc]
      · show (token_acquire (job.ctor_runnable s.world r).1 s.creator).tokens.getD id none = _
        rw [hacq, hf.1.1]; exact htok
      · show (token_acquire (job.ctor_runnable s.world r).1 s.creator).fired id = _
        rw [hacq, hf.1.2.1]; exact hfired
    · have hpos : s.holders id ≠ 0 := by
        simp [TokenSys.holders, hc]
      rw [if_neg hpos] at htok hfired
      have hget : (job.ctor_runnable s.world r).1.tokens.getD id none
          = some (s.holders id, st) := by rw [hf.1.1]; exact htok
      have hc1 := token_eq_of_m_token _ _ hc
      have hlt := lt_length_of_getD_some _ _ _ hget
      refine TokenSys.inv_of_holders id base (s.holders id + 1) st _ ?_ ?_ ?_ ?_ ?_
      · intro j hj
        simp only [List.mem_append, List.mem_singleton] at hj
        rcases hj with hj | rfl
        · exact henv j hj
        · exact Or.inr hc
      · exact Or.inr hc
      · simp [TokenSys.holders, List.countP_append, hc]
      · show (token_acquire (job.ctor_runnable s.world r).1 s.creator).tokens.getD id none = _
        rw [if_neg (by omega), hc1, acquire_spec _ _ _ _ hget]
        exact getD_set_self _ _ _ _ hlt
      · show (token_acquire (job.ctor_runnable s.world r).1 s.creator).fired id = _
        rw [if_neg (by omega), hc1, acquire_spec _ _ _ _ hget]
        have := hf.1.2.1 id
        simp only [World.fired] at this hfired ⊢
        rw [this]; simpa using hfired
  | invoke i =>
    cases hj : s.envelopes[i]? with
    | none => simp only [TokenSys.step, hj]; exact ⟨henv, hcr, htok, hfired⟩
    | some j =>
      simp only [TokenSys.step, hj]
      have hf := frame_call_func j.m_runFunc j.m_runnable s.world
      refine TokenSys.inv_of_holders id base (s.holders id) st _ henv hcr rfl ?_ ?_
      · show (job.invoke j s.world).tokens.getD id none = _
        simp only [job.invoke, hf.1]; exact htok
      · show (job.invoke j s.world).fired id = _
        simp only [job.invoke, hf.2.1]; exact hfired
  | destroy i =>
    cases hj : s.envelopes[i]? with
    | none => simp only [TokenSys.step, hj]; exact ⟨henv, hcr, htok, hfired⟩
    | some j =>
      simp only [TokenSys.step, hj]
      have hf := frame_call_func j.m_deleteFunc j.m_runnable s.world
      have hcount := countP_eraseIdx (fun j : job => decide (j.m_callToken.m_token = some id))
        s.envelopes i j hj
      have henv1 : ∀ x ∈ s.envelopes.eraseIdx i,
          x.m_callToken.m_token = none ∨ x.m_callToken.m_token = some id :=
        fun x hx => henv x (List.mem_of_mem_eraseIdx hx)
      rcases henv j (List.getElem?_mem hj) with hjt | hjt
      · simp [hjt] at hcount
        refine TokenSys.inv_of_holders id base (s.holders id) st _ henv1 hcr ?_ ?_ ?_
        · simp only [TokenSys.holders, hcount]
        · show (job.destroy j s.world).tokens.getD id none = _
          simp only [job.destroy, drop_empty _ _ hjt, hf.1]; exact htok
        · show (job.destroy j s.world).fired id = _
          simp only [job.destroy, drop_empty _ _ hjt, hf.2.1]; exact hfired
      · have hjt1 := token_eq_of_m_token _ _ hjt
        simp only [hjt, decide_True, if_true] at hcount
        have hk : s.holders id = (s.holders id - 1) + 1 := by
          simp only [TokenSys.holders]; omega
        have hpos : s.holders id ≠ 0 := by omega
        rw [if_neg hpos] at htok hfired
        have hget : (call_func j.m_deleteFunc j.m_runnable s.world).tokens.getD id none
            = some ((s.holders id - 1) + 1, st) := by
          rw [hf.1, ← hk]; exact htok
        have hd := drop_spec _ id _ st hst hget
        refine TokenSys.inv_of_holders id base (s.holders id - 1) st _ henv1 hcr ?_ ?_ ?_
        · simp only [TokenSys.holders]; omega
        · show (job.destroy j s.world).tokens.getD id none = _
          simp only [job.destroy, hjt1]
          exact hd.1
        · show (job.destroy j s.world).fired id = _
          simp only [job.destroy, hjt1]
          rw [hd.2.1, hf.2.1, hfired]
          simp
  | open_creator =>
    simp only [TokenSys.step, dependency_token.Open]
    rcases hcr with hc | hc
    · refine TokenSys.inv_of_holders id base (s.holders id) st _ henv (Or.inl rfl) ?_ ?_ ?_
      · simp [TokenSys.holders, hc]
      · show (s.creator.drop s.world).tokens.getD id none = _
        rw [drop_empty _ _ hc]; exact htok
      · show (s.creator.drop s.world).fired id = _
        rw [drop_empty _ _ hc]; exact hfired
    · have hc1 := token_eq_of_m_token _ _ hc
      have hk : s.holders id = (s.holders id - 1) + 1 := by
        simp [TokenSys.holders, hc]
      have hpos : s.holders id ≠ 0 := by omega
      rw [if_neg hpos] at htok hfired
      have hget : s.world.tokens.getD id none = some ((s.holders id - 1) + 1, st) := by
        rw [← hk]; exact htok
      have hd := drop_spec _ id _ st hst hget
      refine TokenSys.inv_of_holders id base (s.holders id - 1) st _ henv (Or.inl rfl) ?_ ?_ ?_
      · simp [TokenSys.holders, hc]
      · show (s.creator.drop s.world).tokens.getD id none = _
        rw [hc1]; exact hd.1
      · show (s.creator.drop s.world).fired id = _
        rw [hc1, hd.2.1, hfired]; simp

theorem TokenSys.run_keeps_token_inv (id base : Nat) (st : shared_token)
    (hst : st.m_job.m_callToken.m_token = none) (acts : List TokenAction) :
    ∀ s : TokenSys, s.Inv id base st → (acts.foldl TokenSys.step s).Inv id base st := by
  induction acts with
  | nil => intro s h; exact h
  | cons a as ih => intro s h; exact ih _ (TokenSys.step_keeps_token_inv id base st hst s a h)

/-- C2 (a dependency token fires exactly once).  Take a token created from a
runnable in any world and any sequence of actions on it: new envelopes
receiving a copy of the handle of the creator, envelopes being invoked,
envelopes being destroyed, the creator opening its handle.  As long as at
least one handle is held (by an envelope or by the creator) the use count of
the control block equals the number of handles held and the continuation has
not been invoked; as soon as no handle is held the control block, and with it
the continuation job, is destroyed and the continuation has been invoked
exactly once.  The release of the last handle on a control block is the
destruction of the shared token: the continuation is recorded and run, and
then its delete function is called. -/
theorem dependency_fires_exactly_once (w : World) (r : Runnable) (acts : List TokenAction) :
    (0 < ((TokenSys.create w r).run acts).holders w.tokens.length →
      ((TokenSys.create w r).run acts).world.tokens.getD w.tokens.length none =
        some (((TokenSys.create w r).run acts).holders w.tokens.length,
          { m_job := (job.ctor_runnable w r).2 }) ∧
      ((TokenSys.create w r).run acts).world.fired w.tokens.length = w.fired w.tokens.length) ∧
    (((TokenSys.create w r).run acts).holders w.tokens.length = 0 →
      ((TokenSys.create w r).run acts).world.tokens.getD w.tokens.length none = none ∧
      ((TokenSys.create w r).run acts).world.fired w.tokens.length
        = w.fired w.tokens.length + 1) ∧
    (∀ (w1 : World) (id : Nat) (st : shared_token),
      w1.tokens.getD id none = some (1, st) → st.m_job.m_callToken.m_token = none →
      dependency_token.drop { m_token := some id } w1 =
        call_func st.m_job.m_deleteFunc st.m_job.m_runnable
          (call_func st.m_job.m_runFunc st.m_job.m_runnable
            (({ w1 with tokens := w1.tokens.set id none }).emit (Event.continuation id)))) := by
  have hinv := TokenSys.run_keeps_token_inv w.tokens.length (w.fired w.tokens.length)
    { m_job := (job.ctor_runnable w r).2 } rfl acts _ (TokenSys.inv_create w r)
  obtain ⟨_, _, htok, hfired⟩ := hinv
  refine ⟨?_, ?_, fun w1 id st h1 h2 => drop_last id w1 st h1 h2⟩
  · intro hpos
    have hne : ((TokenSys.create w r).run acts).holders w.tokens.length ≠ 0 := by omega
    simp only [TokenSys.run] at hne ⊢
    rw [if_neg hne] at htok hfired
    exact ⟨htok, by simpa using hfired⟩
  · intro hz
    simp only [TokenSys.run] at hz ⊢
    rw [if_pos hz] at htok hfired
    exact ⟨htok, hfired⟩

end impl
end nova

namespace nova
namespace impl

/-! ## Splitting a batch function -/

theorem set_getD_self {α : Type} (l : List (Option α)) (i : Nat) (x : α)
    (h : l.getD i none = some x) : l.set i (some x) = l := by
  have hlt := lt_length_of_getD_some l i x h
  apply List.ext_getElem (by simp)
  intro k h1 h2
  by_cases hk : i = k
  · subst hk
    simp only [List.getElem_set_self]
    have : l.getD i none = l[i] := by simp [List.getD_eq_getElem?_getD, hlt]
    rw [this] at h
    exact h.symm
  · simp [List.getElem_set_ne hk]

theorem split_loop_spec (ctrl n : Nat) (bf : batch_function) (hn : n < UINT_MOD) :
    ∀ (m fuel section_ : Nat) (w : World) (jobs : List job) (c : Nat),
      section_ + m = n → m + 1 ≤ fuel → w.batches.getD ctrl none = some (c, bf) →
      split_loop ctrl n fuel section_ w jobs =
        ({ w with heap := w.heap ++ List.replicate m (some (Runnable.shared_batch ctrl))
                  batches := w.batches.set ctrl (some (c + m, bf)) },
         jobs ++ (List.range' w.heap.length m).map shared_job) := by
  intro m
  induction m with
  | zero =>
    intro fuel section_ w jobs c hs hf hget
    obtain ⟨fuel, rfl⟩ : ∃ f, fuel = f + 1 := ⟨fuel - 1, by omega⟩
    have : ¬ section_ < n := by omega
    simp only [split_loop, this, if_false, List.replicate_zero, List.append_nil, Nat.add_zero,
      List.range'_zero, List.map_nil, set_getD_self _ _ _ hget]
  | succ m ih =>
    intro fuel section_ w jobs c hs hf hget
    obtain ⟨fuel, rfl⟩ : ∃ f, fuel = f + 1 := ⟨fuel - 1, by omega⟩
    have hlt : section_ < n := by omega
    have hmod : (section_ + 1) % UINT_MOD = section_ + 1 := Nat.mod_eq_of_lt (by omega)
    have hctrl := lt_length_of_getD_some _ _ _ hget
    simp only [split_loop, hlt, if_true, hmod]
    have hstep : job.ctor_runnable w (Runnable.shared_batch ctrl) =
        ({ w with heap := w.heap ++ [some (Runnable.shared_batch ctrl)]
                  batches := w.batches.set ctrl (some (c + 1, bf)) }, shared_job w.heap.length) := by
      have hacq : batch_acquire w ctrl =
          { w with batches := w.batches.set ctrl (some (c + 1, bf)) } := by
        simp only [batch_acquire, hget]
      simp only [job.ctor_runnable, hacq, World.alloc, Runnable.is_shared, shared_job, if_true]
    rw [hstep]
    have hget1 : ({ w with heap := w.heap ++ [some (Runnable.shared_batch ctrl)]
                           batches := w.batches.set ctrl (some (c + 1, bf)) } :
        World).batches.getD ctrl none = some (c + 1, bf) :=
      getD_set_self _ _ _ _ hctrl
    rw [ih fuel (section_ + 1) _ _ (c + 1) (by omega) (by omega) hget1]
    simp only [List.length_append, List.length_singleton, List.set_set, List.append_assoc,
      List.singleton_append, List.range'_succ, List.map_cons, Prod.mk.injEq, and_true]
    have h1 : c + 1 + m = c + (m + 1) := by omega
    rw [h1]
    simp [List.replicate_succ]

/-- Closed form of `split_batch_function`. -/
theorem split_batch_function_spec (w : World) (bf : batch_function)
    (hn : bf.get_sections < UINT_MOD) :
    split_batch_function w bf =
      (batch_release
        { w with heap := w.heap ++
                   List.replicate bf.get_sections (some (Runnable.shared_batch w.batches.length))
                 batches := w.batches ++ [some (1 + bf.get_sections, bf)] } w.batches.length,
       (List.range' w.heap.length bf.get_sections).map shared_job) := by
  have hget : (make_shared_batch w bf).1.batches.getD w.batches.length none = some (1, bf) := by
    simp only [make_shared_batch]
    exact getD_append_length _ _ _
  have h := split_loop_spec w.batches.length bf.get_sections bf hn bf.get_sections
    (bf.get_sections + 1) 0 (make_shared_batch w bf).1 [] 1 (by omega) (by omega) hget
  simp only [split_batch_function]
  have h2 : (make_shared_batch w bf).2 = w.batches.length := rfl
  rw [h2, h]
  simp [make_shared_batch]

theorem batch_release_heap (w : World) (ctrl : Nat) : (batch_release w ctrl).heap = w.heap := by
  unfold batch_release
  split
  · split <;> rfl
  · rfl

theorem batch_invoke_callable (b b1 : batch_function) (p : tuple_t)
    (h : b.invoke = some (b1, p)) : b1.m_callable = b.m_callable := by
  unfold batch_function.invoke at h
  by_cases h0 : b.m_sections = 0
  · rw [if_pos h0] at h; cases h
  · rw [if_neg h0] at h
    generalize float_to_uint _ = x at h
    generalize float_to_size _ = y at h
    cases x with
    | none => cases h
    | some a =>
      cases y with
      | none => cases h
      | some c =>
        simp only [Option.some.injEq, Prod.mk.injEq] at h
        rw [← h.1]

/-- Invoking a job built by `split_batch_function` invokes the shared batch
function: its counter advances and the callable is applied to the subrange. -/
theorem invoke_shared_job (w : World) (addr ctrl c : Nat) (b b1 : batch_function) (p : tuple_t)
    (hcell : w.cell addr = some (Runnable.shared_batch ctrl))
    (hget : w.batches.getD ctrl none = some (c, b)) (hinv : b.invoke = some (b1, p)) :
    (shared_job addr).invoke w =
      ({ w with batches := w.batches.set ctrl (some (c, b1)) }).emit
        (Event.applied b.m_callable p) := by
  simp only [job.invoke, shared_job, call_func, Option.bind, hcell, hget, hinv]

theorem invoke_all_shared (ctrl c : Nat) (callable : Callable) :
    ∀ (js : List job) (w : World) (b bm : batch_function) (calls : List tuple_t),
      (∀ j ∈ js, ∃ addr, j = shared_job addr ∧ w.cell addr = some (Runnable.shared_batch ctrl)) →
      w.batches.getD ctrl none = some (c, b) → b.m_callable = callable →
      b.invoke_n js.length = some (bm, calls) →
      (invoke_all js w).batches.getD ctrl none = some (c, bm) ∧
      (invoke_all js w).log = w.log ++ calls.map (Event.applied callable) ∧
      (invoke_all js w).heap = w.heap := by
  intro js
  induction js with
  | nil =>
    intro w b bm calls _ hget _ hrun
    simp only [List.length_nil, batch_function.invoke_n, Option.some.injEq, Prod.mk.injEq] at hrun
    obtain ⟨rfl, rfl⟩ := hrun
    simp only [invoke_all, List.foldl_nil, List.map_nil, List.append_nil]
    exact ⟨hget, trivial, trivial⟩
  | cons j js ih =>
    intro w b bm calls hjs hget hcall hrun
    obtain ⟨addr, rfl, hcell⟩ := hjs _ (List.mem_cons_self _ _)
    simp only [List.length_cons, batch_function.invoke_n] at hrun
    cases hinv : b.invoke with
    | none => simp [hinv] at hrun
    | some r =>
      obtain ⟨b1, p⟩ := r
      simp only [hinv] at hrun
      cases hrest : batch_function.invoke_n js.length b1 with
      | none => simp [hrest] at hrun
      | some r2 =>
        obtain ⟨b2, rest⟩ := r2
        simp only [hrest, Option.some.injEq, Prod.mk.injEq] at hrun
        obtain ⟨rfl, rfl⟩ := hrun
        have hlt := lt_length_of_getD_some _ _ _ hget
        have hstep := invoke_shared_job w addr ctrl c b b1 p hcell hget hinv
        have hih := ih ((shared_job addr).invoke w) b1 b2 rest
          (by
            intro j hj
            obtain ⟨a, ha, hc⟩ := hjs j (List.mem_cons_of_mem _ hj)
            refine ⟨a, ha, ?_⟩
            rw [hstep]; exact hc)
          (by rw [hstep]; exact getD_set_self _ _ _ _ hlt)
          ((batch_invoke_callable b b1 p hinv).trans hcall) hrest
        simp only [invoke_all, List.foldl_cons] at hih ⊢
        refine ⟨hih.1, ?_, ?_⟩
        · rw [hih.2.1, hstep, hcall]
          simp [World.emit]
        · rw [hih.2.2, hstep]; rfl

theorem destroy_all_shared (ctrl : Nat) (bf : batch_function) :
    ∀ (ds : List job) (w : World) (k : Nat),
      (ds.map job.m_runnable).Nodup →
      (∀ j ∈ ds, ∃ addr, j = shared_job addr ∧ w.cell addr = some (Runnable.shared_batch ctrl)) →
      w.batches.getD ctrl none = some (k, bf) → ds.length ≤ k → 1 ≤ k →
      (destroy_all ds w).batches.getD ctrl none =
        (if ds.length = k then none else some (k - ds.length, bf)) ∧
      (destroy_all ds w).log.count (Event.batch_released ctrl) =
        w.log.count (Event.batch_released ctrl) + (if ds.length = k then 1 else 0) := by
  intro ds
  induction ds with
  | nil =>
    intro w k _ _ hget _ hk
    have : ¬ (0 = k) := by omega
    simp only [destroy_all, List.foldl_nil, List.length_nil, this, if_false, Nat.sub_zero,
      Nat.add_zero]
    exact ⟨hget, trivial⟩
  | cons j ds ih =>
    intro w k hnd hjs hget hlen hk
    obtain ⟨addr, rfl, hcell⟩ := hjs _ (List.mem_cons_self _ _)
    have hlt := lt_length_of_getD_some _ _ _ hget
    simp only [List.map_cons, List.nodup_cons] at hnd
    simp only [List.length_cons] at hlen
    -- the first job: its cell is deleted and one reference is released
    have hget1 : (World.emit { w with heap := w.heap.set addr none }
        (Event.deleted addr)).batches.getD ctrl none = some (k, bf) := hget
    have hstep : (shared_job addr).destroy w =
        batch_release (World.emit { w with heap := w.heap.set addr none }
          (Event.deleted addr)) ctrl := by
      simp only [job.destroy, shared_job, dependency_token.drop, call_func, hcell]
    have hcells : ∀ j ∈ ds, ∃ a, j = shared_job a ∧
        ((shared_job addr).destroy w).cell a = some (Runnable.shared_batch ctrl) := by
      intro j hj
      obtain ⟨a, ha, hc⟩ := hjs j (List.mem_cons_of_mem _ hj)
      refine ⟨a, ha, ?_⟩
      have hne : addr ≠ a := by
        intro heq
        apply hnd.1
        rw [List.mem_map]
        exact ⟨j, hj, by rw [ha, heq]⟩
      rw [hstep]
      simp only [World.cell, batch_release_heap, World.emit]
      rw [getD_set_of_ne _ _ _ _ _ hne]
      exact hc
    simp only [destroy_all, List.foldl_cons]
    by_cases hk1 : k = 1
    · -- last reference: the remaining list is empty
      subst hk1
      have hds : ds = [] := List.eq_nil_of_length_eq_zero (by omega)
      subst hds
      have hrel1 : (shared_job addr).destroy w =
          World.emit { World.emit { w with heap := w.heap.set addr none } (Event.deleted addr) with
            batches := w.batches.set ctrl none } (Event.batch_released ctrl) := by
        rw [hstep]
        simp only [batch_release, World.emit, hget, Nat.le_refl, if_true]
      rw [hrel1]
      simp only [List.foldl_nil, List.length_cons, List.length_nil, Nat.zero_add, if_true]
      refine ⟨getD_set_self _ _ _ _ hlt, ?_⟩
      simp [World.emit, List.count_append]
    · have hrel : (shared_job addr).destroy w =
          { World.emit { w with heap := w.heap.set addr none } (Event.deleted addr) with
            batches := w.batches.set ctrl (some (k - 1, bf)) } := by
        rw [hstep]
        have : ¬ k ≤ 1 := by omega
        simp only [batch_release, World.emit, hget, this, if_false]
      have hget2 : ((shared_job addr).destroy w).batches.getD ctrl none = some (k - 1, bf) := by
        rw [hrel]; exact getD_set_self _ _ _ _ hlt
      have hih := ih ((shared_job addr).destroy w) (k - 1) hnd.2 hcells hget2 (by omega)
        (by omega)
      simp only [destroy_all] at hih
      have hc1 : (ds.length = k - 1) ↔ (ds.length + 1 = k) := by omega
      have hc2 : k - 1 - ds.length = k - (ds.length + 1) := by omega
      simp only [hc1, hc2] at hih
      refine ⟨hih.1, ?_⟩
      rw [hih.2, hrel]
      simp [World.emit, List.count_append]

theorem batch_release_last (w : World) (ctrl : Nat) (bf : batch_function)
    (h : w.batches.getD ctrl none = some (1, bf)) :
    batch_release w ctrl =
      ({ w with batches := w.batches.set ctrl none }).emit (Event.batch_released ctrl) := by
  simp only [batch_release, h, Nat.le_refl, if_true]

theorem batch_release_more (w : World) (ctrl k : Nat) (bf : batch_function)
    (h : w.batches.getD ctrl none = some (k, bf)) (hk : 1 < k) :
    batch_release w ctrl = { w with batches := w.batches.set ctrl (some (k - 1, bf)) } := by
  have : ¬ k ≤ 1 := by omega
  simp only [batch_release, h, this, if_false]

theorem getD_append_replicate {α : Type} (l : List α) (n a : Nat) (x d : α)
    (h1 : l.length ≤ a) (h2 : a < l.length + n) :
    (l ++ List.replicate n x).getD a d = x := by
  rw [List.getD_eq_getElem?_getD, List.getElem?_append_right h1]
  have : a - l.length < (List.replicate n x).length := by simp; omega
  rw [List.getElem?_eq_getElem this]
  simp

/-- The world that `split_batch_function` returns. -/
theorem split_batch_function_world (w : World) (bf : batch_function)
    (hn : bf.get_sections < UINT_MOD) :
    (split_batch_function w bf).2 = (List.range' w.heap.length bf.get_sections).map shared_job ∧
    (split_batch_function w bf).1.heap =
      w.heap ++ List.replicate bf.get_sections (some (Runnable.shared_batch w.batches.length)) ∧
    (split_batch_function w bf).1.batches.getD w.batches.length none =
      (if bf.get_sections = 0 then none else some (bf.get_sections, bf)) ∧
    (split_batch_function w bf).1.log.count (Event.batch_released w.batches.length) =
      w.log.count (Event.batch_released w.batches.length) +
        (if bf.get_sections = 0 then 1 else 0) := by
  rw [split_batch_function_spec w bf hn]
  refine ⟨rfl, batch_release_heap _ _, ?_, ?_⟩
  · by_cases h0 : bf.get_sections = 0
    · rw [if_pos h0, h0, batch_release_last _ _ bf (getD_append_length _ _ _)]
      exact getD_set_self _ _ _ _ (by simp)
    · rw [if_neg h0, batch_release_more _ _ (1 + bf.get_sections) bf (getD_append_length _ _ _)
        (by omega)]
      simp only [Nat.add_sub_cancel_left]
      exact getD_set_self _ _ _ _ (by simp)
  · by_cases h0 : bf.get_sections = 0
    · rw [if_pos h0, h0, batch_release_last _ _ bf (getD_append_length _ _ _)]
      simp [World.emit, List.count_append]
    · rw [if_neg h0, batch_release_more _ _ (1 + bf.get_sections) bf (getD_append_length _ _ _)
        (by omega)]
      rfl

/-- C10 (splitting a batch function).  `split_batch_function(bf)` returns
exactly `bf.get_sections()` jobs.  Each of them owns a heap copy of the same
shared pointer, so all refer to one shared copy of `bf`: whichever of the jobs
are invoked, in whatever order, the invocations advance the one section counter
of that copy and apply the callable to the sections in the order claimed.  The
shared copy is released exactly when the last of the jobs has been destroyed:
after destroying any choice of distinct jobs, in any order, the copy is alive
with a use count equal to the number of jobs left, and it is released, once,
when none is left. -/
theorem split_batch_function_shares_one_copy (w : World) (bf : batch_function)
    (hn : bf.get_sections < UINT_MOD) :
    (split_batch_function w bf).2.length = bf.get_sections ∧
    (∀ j ∈ (split_batch_function w bf).2, ∃ addr, j = shared_job addr ∧
      (split_batch_function w bf).1.cell addr = some (Runnable.shared_batch w.batches.length)) ∧
    (split_batch_function w bf).1.batches.getD w.batches.length none =
      (if bf.get_sections = 0 then none else some (bf.get_sections, bf)) ∧
    (∀ (js : List job) (bm : batch_function) (calls : List tuple_t),
      0 < bf.get_sections → (∀ j ∈ js, j ∈ (split_batch_function w bf).2) →
      bf.invoke_n js.length = some (bm, calls) →
      (invoke_all js (split_batch_function w bf).1).batches.getD w.batches.length none =
        some (bf.get_sections, bm) ∧
      (invoke_all js (split_batch_function w bf).1).log =
        (split_batch_function w bf).1.log ++ calls.map (Event.applied bf.m_callable)) ∧
    (∀ ds : List job, ds.Nodup → (∀ j ∈ ds, j ∈ (split_batch_function w bf).2) →
      (destroy_all ds (split_batch_function w bf).1).batches.getD w.batches.length none =
        (if ds.length = bf.get_sections then none
         else some (bf.get_sections - ds.length, bf)) ∧
      (destroy_all ds (split_batch_function w bf).1).log.count
          (Event.batch_released w.batches.length) =
        w.log.count (Event.batch_released w.batches.length) +
          (if ds.length = bf.get_sections then 1 else 0)) := by
  obtain ⟨hjobs, hheap, hbatch, hlog⟩ := split_batch_function_world w bf hn
  have hcells : ∀ j ∈ (split_batch_function w bf).2, ∃ addr, j = shared_job addr ∧
      (split_batch_function w bf).1.cell addr = some (Runnable.shared_batch w.batches.length) := by
    intro j hj
    rw [hjobs, List.mem_map] at hj
    obtain ⟨a, ha, rfl⟩ := hj
    rw [List.mem_range'_1] at ha
    refine ⟨a, rfl, ?_⟩
    simp only [World.cell, hheap]
    exact getD_append_replicate _ _ _ _ _ ha.1 ha.2
  refine ⟨by rw [hjobs]; simp, hcells, hbatch, ?_, ?_⟩
  · intro js bm calls hpos hjs hrun
    have hb : (split_batch_function w bf).1.batches.getD w.batches.length none
        = some (bf.get_sections, bf) := by
      rw [hbatch, if_neg (by omega)]
    have := invoke_all_shared w.batches.length bf.get_sections bf.m_callable js
      (split_batch_function w bf).1 bf bm calls (fun j hj => hcells j (hjs j hj)) hb rfl hrun
    exact ⟨this.1, this.2.1⟩
  · intro ds hnd hds
    have hlen : ds.length ≤ bf.get_sections := by
      have hsub : ds ⊆ (split_batch_function w bf).2 := fun j hj => hds j hj
      have := (List.subperm_of_subset hnd hsub).length_le
      rw [hjobs] at this
      simpa using this
    by_cases h0 : bf.get_sections = 0
    · have hds0 : ds = [] := List.eq_nil_of_length_eq_zero (by omega)
      subst hds0
      simp only [destroy_all, List.foldl_nil, List.length_nil, h0, if_true]
      rw [hbatch, hlog, if_pos h0]
      exact ⟨rfl, by rw [if_pos h0]⟩
    · have hb : (split_batch_function w bf).1.batches.getD w.batches.length none
          = some (bf.get_sections, bf) := by
        rw [hbatch, if_neg h0]
      have hinj : (ds.map job.m_runnable).Nodup := by
        apply List.Nodup.map_on _ hnd
        intro x hx y hy hxy
        obtain ⟨a, rfl, _⟩ := hcells x (hds x hx)
        obtain ⟨b, rfl, _⟩ := hcells y (hds y hy)
        simp only [shared_job, Option.some.injEq] at hxy
        rw [hxy]
      have := destroy_all_shared w.batches.length bf ds (split_batch_function w bf).1
        bf.get_sections hinj (fun j hj => hcells j (hds j hj)) hb hlen (by omega)
      refine ⟨this.1, ?_⟩
      rw [this.2, hlog, if_neg h0]
      simp

theorem split_batch_function_shares_one_copy_witness :
    (split_batch_function {} (parallel_for_batch (Callable.user 3) 0 10 [] 4)).2.length =
      (parallel_for_batch (Callable.user 3) 0 10 [] 4).get_sections :=
  (split_batch_function_shares_one_copy {} (parallel_for_batch (Callable.user 3) 0 10 [] 4)
    (by decide)).1

/-- C8 (reversed range).  For the `unsigned` arguments `start = 5`, `end = 3`
and 4 worker threads the subtraction `end - start` wraps: the batch function
has 4 sections, not 0, `split_batch_function` returns 4 jobs, not none, and
invoking the first of them applies the callable (to some subrange). -/
theorem batch_reversed_range_not_empty :
    (parallel_for_batch (Callable.user 0) 5 3 [] 4).get_sections = 4 ∧
    (split_batch_function {} (parallel_for_batch (Callable.user 0) 5 3 [] 4)).2.length = 4 ∧
    (∃ params, ((shared_job 0).invoke
        (split_batch_function {} (parallel_for_batch (Callable.user 0) 5 3 [] 4)).1).log =
      [Event.applied (Callable.user 0) params]) := by
  refine ⟨by decide, by decide, ⟨[Param.integral 5, Param.integral 4], by decide⟩⟩

/-- An empty range has no sections: `split_batch_function` returns no job,
the shared copy is released on return and the callable is not applied. -/
theorem batch_empty_range_no_sections (callable : Callable) (s : Nat) (args : tuple_t)
    (thread_count : Nat) (w : World) (hs : s < UINT_MOD) :
    (parallel_for_batch callable s s args thread_count).get_sections = 0 ∧
    (split_batch_function w (parallel_for_batch callable s s args thread_count)).2 = [] ∧
    (split_batch_function w (parallel_for_batch callable s s args thread_count)).1.heap
      = w.heap ∧
    ∀ c p, (split_batch_function w (parallel_for_batch callable s s args thread_count)).1.log.count
      (Event.applied c p) = w.log.count (Event.applied c p) := by
  have hctor : parallel_for_batch callable s s args thread_count =
      ⟨callable, batch_tuple [] s s args, 0, 0⟩ := by
    have := ctor_sections_batch_tuple callable [] s s args thread_count (Nat.le_refl s) hs
    simpa [parallel_for_batch, batch_tuple] using this
  have hn : (parallel_for_batch callable s s args thread_count).get_sections < UINT_MOD := by
    rw [hctor, uint_mod_eq]; simp [batch_function.get_sections]
  rw [split_batch_function_spec _ _ hn]
  rw [hctor]
  refine ⟨rfl, rfl, ?_, ?_⟩
  · rw [batch_release_heap]; simp [batch_function.get_sections]
  · intro c p
    have hget : (w.batches ++ [some (1 + 0, (⟨callable, batch_tuple [] s s args, 0, 0⟩ :
        batch_function))]).getD w.batches.length none = some (1 + 0, _) :=
      getD_append_length _ _ _
    simp only [batch_function.get_sections, batch_release, hget, Nat.add_zero, Nat.le_refl,
      if_true, World.emit]
    simp [List.count_append]

theorem batch_empty_range_no_sections_witness :
    (parallel_for_batch (Callable.user 0) 5 5 [] 4).get_sections = 0 :=
  (batch_empty_range_no_sections (Callable.user 0) 5 [] 4 {} (by decide)).1

end impl
end nova

namespace nova
namespace impl

/-! ## Attaching a token to fresh jobs -/

theorem set_tokens_none (jobs : List job) (w : World) (h : TokenFree jobs) :
    set_tokens { m_token := none } jobs w = (w, jobs) := by
  induction jobs generalizing w with
  | nil => rfl
  | cons j js ih =>
    have hj : j.m_callToken.m_token = none := h j (List.mem_cons_self _ _)
    have hjs : TokenFree js := fun x hx => h x (List.mem_cons_of_mem _ hx)
    have heq : ({ j with m_callToken := { m_token := none } } : job) = j := by
      cases j with
      | mk r d p t =>
        cases t with
        | mk m => simp only at hj; subst hj; rfl
    simp only [set_tokens, job.set_dependency_token, token_acquire, drop_empty _ _ hj, ih _ hjs,
      heq]

theorem set_tokens_some (id : Nat) (st : shared_token) :
    ∀ (jobs : List job) (w : World) (h : Nat), TokenFree jobs →
      w.tokens.getD id none = some (h, st) →
      set_tokens { m_token := some id } jobs w =
        ({ w with tokens := w.tokens.set id (some (h + jobs.length, st)) },
         jobs.map fun j => { j with m_callToken := { m_token := some id } }) := by
  intro jobs
  induction jobs with
  | nil =>
    intro w h _ hget
    simp only [set_tokens, List.length_nil, Nat.add_zero, List.map_nil, set_getD_self _ _ _ hget]
  | cons j js ih =>
    intro w h hfree hget
    have hj : j.m_callToken.m_token = none := hfree j (List.mem_cons_self _ _)
    have hjs : TokenFree js := fun x hx => hfree x (List.mem_cons_of_mem _ hx)
    have hlt := lt_length_of_getD_some _ _ _ hget
    have hget1 : ({ w with tokens := w.tokens.set id (some (h + 1, st)) } :
        World).tokens.getD id none = some (h + 1, st) := getD_set_self _ _ _ _ hlt
    simp only [set_tokens, job.set_dependency_token, acquire_spec _ _ _ _ hget,
      drop_empty _ _ hj, ih _ (h + 1) hjs hget1, List.set_set, List.length_cons, List.map_cons]
    have : h + 1 + js.length = h + (js.length + 1) := by omega
    rw [this]

theorem countP_holds_map_token (jobs : List job) (id id1 : Nat) :
    (jobs.map fun j => ({ j with m_callToken := { m_token := some id } } : job)).countP
        (job.holds id1) = if id1 = id then jobs.length else 0 := by
  induction jobs with
  | nil => simp
  | cons j js ih =>
    simp only [List.map_cons, List.countP_cons, ih, job.holds, List.length_cons]
    by_cases h : id1 = id
    · subst h; simp
    · have : ¬ (some id = some id1) := fun hh => h (Option.some.inj hh).symm
      simp [h, this]

/-- Effect of `impl::push<ToMain>(dt, jobs)` for fresh jobs and a live token:
the use count grows by the number of jobs, which are queued holding the
token; no continuation is invoked and no other control block changes. -/
theorem push_with_token_some (ToMain : Bool) (id h : Nat) (st : shared_token) (jobs : List job)
    (w : World) (hfree : TokenFree jobs) (hget : w.tokens.getD id none = some (h, st)) :
    (push_with_token ToMain { m_token := some id } jobs w).tokens =
      w.tokens.set id (some (h + jobs.length, st)) ∧
    (∀ x, (push_with_token ToMain { m_token := some id } jobs w).fired x = w.fired x) ∧
    (∀ x, (push_with_token ToMain { m_token := some id } jobs w).qcount x =
      w.qcount x + (if x = id then jobs.length else 0)) := by
  simp only [push_with_token, set_tokens_some id st jobs w h hfree hget]
  refine ⟨rfl, fun _ => rfl, fun x => ?_⟩
  rw [qcount_push_jobs, countP_holds_map_token]
  rfl

theorem push_with_token_none (ToMain : Bool) (jobs : List job) (w : World)
    (hfree : TokenFree jobs) :
    Frame w (push_with_token ToMain { m_token := none } jobs w) := by
  simp only [push_with_token, set_tokens_none jobs w hfree]
  exact frame_push_jobs_tokenFree ToMain jobs w hfree

end impl
end nova

namespace nova
namespace impl

/-! ## The invariant of the scheduler -/

theorem Sched.inv_same (s s1 : Sched) (id : Nat) (h : s.InvAt id)
    (hlen : s1.world.tokens.length = s.world.tokens.length)
    (htok : s1.world.tokens.getD id none = s.world.tokens.getD id none)
    (hfired : s1.world.fired id = s.world.fired id)
    (henv : s1.envelopes id = s.envelopes id)
    (hpend : s1.pending id = s.pending id)
    (hsub : s1.submitted.count id = s.submitted.count id)
    (hcomp : s1.completed.count id = s.completed.count id) : s1.InvAt id := by
  unfold Sched.InvAt at *
  rw [hlen, htok, hfired, henv, hpend, hsub, hcomp]
  exact h

/-- A live handle refers to an existing control block, whose use count is the
number of handles and whose continuation has not been invoked. -/
theorem Sched.live_of_holders (s : Sched) (id : Nat) (h : s.InvAt id)
    (hpos : s.envelopes id + s.pending id ≠ 0) :
    id < s.world.tokens.length ∧ s.world.fired id = 0 ∧
    ∃ st : shared_token,
      s.world.tokens.getD id none = some (s.envelopes id + s.pending id, st) ∧
      st.m_job.m_callToken.m_token = none := by
  unfold Sched.InvAt InvNum at h
  obtain ⟨h1, h2, _⟩ := h
  have hlt : id < s.world.tokens.length := by
    by_contra hc
    exact hpos (h1 (Nat.le_of_not_lt hc)).1
  obtain ⟨hst, hf⟩ := (h2 hlt).2 hpos
  exact ⟨hlt, hf, hst⟩

/-- Releasing one handle on `id`: the invariant for `id` itself. -/
theorem Sched.inv_drop (s s1 : Sched) (id : Nat) (w1 : World) (h : s.InvAt id)
    (hframe : Frame s.world w1)
    (hworld : s1.world = dependency_token.drop { m_token := some id } w1)
    (hcount : s1.itercount id + s1.pending id + 1 = s.itercount id + s.pending id)
    (hsub : s1.submitted.count id = s.submitted.count id)
    (hcomp : s1.completed.count id + s1.itercount id = s.completed.count id + s.itercount id) :
    s1.InvAt id := by
  have hpos : s.envelopes id + s.pending id ≠ 0 := by
    simp only [Sched.envelopes]; omega
  obtain ⟨hlt, hf0, st, hget, hst⟩ := s.live_of_holders id h hpos
  have hget1 : w1.tokens.getD id none = some ((s1.envelopes id + s1.pending id) + 1, st) := by
    rw [hframe.1, hget]
    have hq : s1.world.qcount id = s.world.qcount id := by
      rw [hworld]
      have := (drop_spec w1 id (s.envelopes id + s.pending id - 1) st hst
        (by rw [hframe.1, hget]; congr 2; omega)).2.2.2.1 id
      rw [this, hframe.2.2]
    simp only [Sched.envelopes, hq]
    congr 2
    omega
  have hd := drop_spec w1 id _ st hst hget1
  have hq : s1.world.qcount id = s.world.qcount id := by
    rw [hworld, hd.2.2.2.1, hframe.2.2]
  have hsubeq := h.2.2
  unfold Sched.InvAt InvNum
  rw [hworld, hd.1, hd.2.1, hd.2.2.2.2, hframe.1, hframe.2.1, hf0]
  refine ⟨fun hle => absurd hlt (Nat.not_lt.mpr hle), fun _ => ⟨?_, ?_⟩, ?_⟩
  · intro hz
    rw [if_pos hz, if_pos hz]
    exact ⟨rfl, rfl⟩
  · intro hnz
    rw [if_neg hnz, if_neg hnz]
    exact ⟨⟨st, rfl, hst⟩, rfl⟩
  · rw [hsub, hsubeq]
    simp only [Sched.envelopes, hq]
    omega

/-- Releasing one handle on `id0`: the invariant for every other `id`. -/
theorem Sched.inv_drop_other (s s1 : Sched) (id0 id : Nat) (w1 : World) (hne : id ≠ id0)
    (h0 : s.InvAt id0) (hpos : s.envelopes id0 + s.pending id0 ≠ 0) (h : s.InvAt id)
    (hframe : Frame s.world w1)
    (hworld : s1.world = dependency_token.drop { m_token := some id0 } w1)
    (hiter : s1.itercount id = s.itercount id)
    (hpend : s1.pending id = s.pending id)
    (hsub : s1.submitted.count id = s.submitted.count id)
    (hcomp : s1.completed.count id = s.completed.count id) : s1.InvAt id := by
  obtain ⟨_, _, st, hget, hst⟩ := s.live_of_holders id0 h0 hpos
  have hget1 : w1.tokens.getD id0 none
      = some ((s.envelopes id0 + s.pending id0 - 1) + 1, st) := by
    rw [hframe.1, hget]; congr 2; omega
  have hd := drop_spec w1 id0 _ st hst hget1
  apply Sched.inv_same s s1 id h
  · rw [hworld, hd.2.2.2.2, hframe.1]
  · rw [hworld, (hd.2.2.1 id hne).1, hframe.1]
  · rw [hworld, (hd.2.2.1 id hne).2, hframe.2.1]
  · simp only [Sched.envelopes, hiter]
    rw [hworld, hd.2.2.2.1, hframe.2.2]
  · exact hpend
  · exact hsub
  · exact hcomp

end impl
end nova

namespace nova
namespace impl

/-! ## World level effect of a dependent push and of a call -/

theorem push_dependent_none (ToMain : Bool) (rs : List RunnableArg) (w : World) :
    Frame w (push_dependent ToMain { m_token := none } rs w) := by
  unfold push_dependent pack_runnable
  have h := frame_pack_runnable_from rs
    { jobs := List.replicate (rs.length - batch_count rs) ({} : job), index := 0, batchJobs := [] }
    w (tokenFree_replicate _) (fun _ h => by cases h)
  exact h.1.trans ((push_with_token_none ToMain _ _ h.2.1).trans
    (push_with_token_none ToMain _ _ h.2.2))

theorem push_two_with_token (ToMain : Bool) (id H : Nat) (st : shared_token) (w w1 : World)
    (p : Packed) (hf : Frame w w1) (hj : TokenFree p.jobs) (hb : TokenFree p.batchJobs)
    (hget : w.tokens.getD id none = some (H, st)) :
    (push_with_token ToMain { m_token := some id } p.batchJobs
      (push_with_token ToMain { m_token := some id } p.jobs w1)).tokens.length
        = w.tokens.length ∧
    (push_with_token ToMain { m_token := some id } p.batchJobs
      (push_with_token ToMain { m_token := some id } p.jobs w1)).tokens.getD id none =
      some (H + (p.jobs.length + p.batchJobs.length), st) ∧
    (∀ x, x ≠ id → (push_with_token ToMain { m_token := some id } p.batchJobs
      (push_with_token ToMain { m_token := some id } p.jobs w1)).tokens.getD x none =
      w.tokens.getD x none) ∧
    (∀ x, (push_with_token ToMain { m_token := some id } p.batchJobs
      (push_with_token ToMain { m_token := some id } p.jobs w1)).fired x = w.fired x) ∧
    (∀ x, (push_with_token ToMain { m_token := some id } p.batchJobs
      (push_with_token ToMain { m_token := some id } p.jobs w1)).qcount x =
      w.qcount x + (if x = id then p.jobs.length + p.batchJobs.length else 0)) := by
  have hlt := lt_length_of_getD_some _ _ _ hget
  have hget1 : w1.tokens.getD id none = some (H, st) := by rw [hf.1]; exact hget
  have h1 := push_with_token_some ToMain id H st p.jobs w1 hj hget1
  have hget2 : (push_with_token ToMain { m_token := some id } p.jobs w1).tokens.getD id none
      = some (H + p.jobs.length, st) := by
    rw [h1.1, hf.1]; exact getD_set_self _ _ _ _ hlt
  have h2 := push_with_token_some ToMain id (H + p.jobs.length) st p.batchJobs _ hb hget2
  refine ⟨?_, ?_, ?_, ?_, ?_⟩
  · simp [h2.1, h1.1, hf.1]
  · rw [h2.1, h1.1, hf.1, List.set_set, Nat.add_assoc]
    exact getD_set_self _ _ _ _ hlt
  · intro x hx
    rw [h2.1, h1.1, hf.1, List.set_set]
    exact getD_set_of_ne _ _ _ _ _ (Ne.symm hx)
  · intro x
    rw [h2.2.1, h1.2.1, hf.2.1]
  · intro x
    rw [h2.2.2, h1.2.2, hf.2.2]
    by_cases hx : x = id
    · simp only [hx, if_true]; omega
    · simp only [hx, if_false, Nat.add_zero]

theorem push_dependent_some (ToMain : Bool) (id H : Nat) (st : shared_token)
    (rs : List RunnableArg) (w : World) (hget : w.tokens.getD id none = some (H, st)) :
    (push_dependent ToMain { m_token := some id } rs w).tokens.length = w.tokens.length ∧
    (push_dependent ToMain { m_token := some id } rs w).tokens.getD id none =
      some (H + packed_count rs w, st) ∧
    (∀ x, x ≠ id → (push_dependent ToMain { m_token := some id } rs w).tokens.getD x none =
      w.tokens.getD x none) ∧
    (∀ x, (push_dependent ToMain { m_token := some id } rs w).fired x = w.fired x) ∧
    (∀ x, (push_dependent ToMain { m_token := some id } rs w).qcount x =
      w.qcount x + (if x = id then packed_count rs w else 0)) := by
  have h := frame_pack_runnable_from rs
    { jobs := List.replicate (rs.length - batch_count rs) ({} : job), index := 0, batchJobs := [] }
    w (tokenFree_replicate _) (fun _ h => by cases h)
  exact push_two_with_token ToMain id H st w _ _ h.1 h.2.1 h.2.2 hget

theorem qcount_of_queue_eq (w1 w : World) (h : w1.queue = w.queue) (x : Nat) :
    w1.qcount x = w.qcount x := by
  simp only [World.qcount, h]

theorem tokenFree_rawJobs (a : List RawJob) : TokenFree (a.map RawJob.job) := by
  intro j hj
  rw [List.mem_map] at hj
  obtain ⟨r, _, rfl⟩ := hj
  rfl

/-- Effect of `impl::call` on the control blocks: a new block with the
borrowing continuation job and use count one plus the number of jobs
submitted, which are queued holding the token; nothing else changes. -/
theorem call_spec (ToMain FromMain : Bool) (currentFiber : Nat)
    (params : Option (List RawJob × List RawJob)) (w : World) :
    (call ToMain FromMain currentFiber (call_params params) w).2 =
      { m_token := some w.tokens.length } ∧
    (call ToMain FromMain currentFiber (call_params params) w).1.tokens.length =
      w.tokens.length + 1 ∧
    (call ToMain FromMain currentFiber (call_params params) w).1.tokens.getD w.tokens.length none
      = some (1 + call_params_count params, { m_job := job.ctor_pointer w.heap.length }) ∧
    (∀ x, x ≠ w.tokens.length →
      (call ToMain FromMain currentFiber (call_params params) w).1.tokens.getD x none =
        w.tokens.getD x none) ∧
    (∀ x, (call ToMain FromMain currentFiber (call_params params) w).1.fired x = w.fired x) ∧
    (∀ x, (call ToMain FromMain currentFiber (call_params params) w).1.qcount x =
      w.qcount x + (if x = w.tokens.length then call_params_count params else 0)) := by
  have hbase : ∀ x, x ≠ w.tokens.length →
      (w.tokens ++ [some (1, ({ m_job := job.ctor_pointer w.heap.length } : shared_token))]).getD
        x none = w.tokens.getD x none := by
    intro x hx
    by_cases hlt : x < w.tokens.length
    · exact getD_append_of_lt _ _ _ _ hlt
    · have h1 : w.tokens.length + 1 ≤ x := by omega
      simp [List.getD_eq_getElem?_getD, List.getElem?_eq_none, h1]
      rw [List.getElem?_eq_none (by omega)]
      rfl
  cases params with
  | none =>
    simp only [call, call_params, call_params_count, World.alloc, dependency_token.ctor_job,
      job.move_ctor, job.move, dependency_token.drop, call_push, job.ctor_pointer, Nat.add_zero]
    refine ⟨trivial, by simp, getD_append_length _ _ _, hbase, fun _ => rfl, fun x => ?_⟩
    simp only [ite_self, Nat.add_zero]
    rfl
  | some ab =>
    obtain ⟨a, b⟩ := ab
    simp only [call, call_params, call_params_count, World.alloc, dependency_token.ctor_job,
      job.move_ctor, job.move, dependency_token.drop, call_push, job.ctor_pointer]
    have hget0 : ({ w with
        heap := w.heap ++ [some (Runnable.completionJob currentFiber FromMain)]
        tokens := w.tokens ++
          [some (1, ({ m_job := job.ctor_pointer w.heap.length } : shared_token))] } :
        World).tokens.getD w.tokens.length none =
          some (1, { m_job := job.ctor_pointer w.heap.length }) := getD_append_length _ _ _
    have hlt := lt_length_of_getD_some _ _ _ hget0
    have h1 := push_with_token_some ToMain w.tokens.length 1 _ (a.map RawJob.job) _
      (tokenFree_rawJobs a) hget0
    have hget1 : (push_with_token ToMain { m_token := some w.tokens.length } (a.map RawJob.job)
        { w with
          heap := w.heap ++ [some (Runnable.completionJob currentFiber FromMain)]
          tokens := w.tokens ++
            [some (1, ({ m_job := job.ctor_pointer w.heap.length } : shared_token))] }
        ).tokens.getD w.tokens.length none =
          some (1 + (a.map RawJob.job).length, { m_job := job.ctor_pointer w.heap.length }) := by
      rw [h1.1]; exact getD_set_self _ _ _ _ hlt
    have h2 := push_with_token_some ToMain w.tokens.length _ _ (b.map RawJob.job) _
      (tokenFree_rawJobs b) hget1
    simp only [job.ctor_pointer] at h1 h2 hget1 hget0 hlt hbase
    refine ⟨trivial, ?_, ?_, ?_, ?_, ?_⟩
    · simp [h2.1, h1.1]
    · rw [h2.1, h1.1, List.set_set]
      simp only [List.length_map, Nat.add_assoc]
      exact getD_set_self _ _ _ _ hlt
    · intro x hx
      rw [h2.1, h1.1, List.set_set, getD_set_of_ne _ _ _ _ _ (Ne.symm hx)]
      exact hbase x hx
    · intro x
      rw [h2.2.1, h1.2.1]; rfl
    · intro x
      rw [h2.2.2, h1.2.2]
      simp only [List.length_map]
      simp only [World.qcount]
      by_cases hx : x = w.tokens.length
      · simp only [hx, if_true]; omega
      · simp only [hx, if_false, Nat.add_zero]

theorem push_with_token_heap (ToMain : Bool) (id h : Nat) (st : shared_token) (jobs : List job)
    (w : World) (hfree : TokenFree jobs) (hget : w.tokens.getD id none = some (h, st)) :
    (push_with_token ToMain { m_token := some id } jobs w).heap = w.heap := by
  simp only [push_with_token, set_tokens_some id st jobs w h hfree hget]
  rfl

theorem call_cell (ToMain FromMain : Bool) (currentFiber : Nat)
    (params : Option (List RawJob × List RawJob)) (w : World) :
    (call ToMain FromMain currentFiber (call_params params) w).1.cell w.heap.length =
      some (Runnable.completionJob currentFiber FromMain) := by
  cases params with
  | none =>
    simp only [call, call_params, World.alloc, dependency_token.ctor_job,
      job.move_ctor, job.move, dependency_token.drop, call_push, World.cell]
    exact getD_append_length _ _ _
  | some ab =>
    obtain ⟨a, b⟩ := ab
    simp only [call, call_params, World.alloc, dependency_token.ctor_job,
      job.move_ctor, job.move, dependency_token.drop, call_push]
    have hget0 : ({ w with
        heap := w.heap ++ [some (Runnable.completionJob currentFiber FromMain)]
        tokens := w.tokens ++
          [some (1, ({ m_job := job.ctor_pointer w.heap.length } : shared_token))] } :
        World).tokens.getD w.tokens.length none =
          some (1, { m_job := job.ctor_pointer w.heap.length }) := getD_append_length _ _ _
    have hlt := lt_length_of_getD_some _ _ _ hget0
    have h1 := push_with_token_some ToMain w.tokens.length 1 _ (a.map RawJob.job) _
      (tokenFree_rawJobs a) hget0
    have hh1 := push_with_token_heap ToMain w.tokens.length 1 _ (a.map RawJob.job) _
      (tokenFree_rawJobs a) hget0
    have hget1 : (push_with_token ToMain { m_token := some w.tokens.length } (a.map RawJob.job)
        { w with
          heap := w.heap ++ [some (Runnable.completionJob currentFiber FromMain)]
          tokens := w.tokens ++
            [some (1, ({ m_job := job.ctor_pointer w.heap.length } : shared_token))] }
        ).tokens.getD w.tokens.length none =
          some (1 + (a.map RawJob.job).length, { m_job := job.ctor_pointer w.heap.length }) := by
      rw [h1.1]; exact getD_set_self _ _ _ _ hlt
    have hh2 := push_with_token_heap ToMain w.tokens.length _ _ (b.map RawJob.job) _
      (tokenFree_rawJobs b) hget1
    simp only [World.cell]
    rw [hh2, hh1]
    exact getD_append_length _ _ _

/-- C5 (the continuation of a call).  After `call<ToMain, FromMain>`, with or
without jobs, the token of the call refers to a new control block whose use
count is one plus the number of jobs and whose continuation is the job that
borrows the completion lambda, which captured the fiber current on entry.
Invoking that continuation, in any world in which the lambda is still in
place, allocates one resume job bound to that fiber and appends it to the main
queue when `FromMain` is true and to the global queue otherwise, the other
queue being unchanged.  For `switch_to_main`, opening the call token on the
fiber switched to fires the continuation once and leaves exactly one more job,
the resume job, on the main queue. -/
theorem call_continuation_enqueues_resume (ToMain FromMain : Bool) (currentFiber : Nat)
    (params : Option (List RawJob × List RawJob)) (w : World) :
    (call ToMain FromMain currentFiber (call_params params) w).2 =
      { m_token := some w.tokens.length } ∧
    (call ToMain FromMain currentFiber (call_params params) w).1.tokens.getD w.tokens.length none
      = some (1 + call_params_count params, { m_job := job.ctor_pointer w.heap.length }) ∧
    (call ToMain FromMain currentFiber (call_params params) w).1.cell w.heap.length =
      some (Runnable.completionJob currentFiber FromMain) ∧
    (∀ w1 : World, w1.cell w.heap.length = some (Runnable.completionJob currentFiber FromMain) →
      ((job.ctor_pointer w.heap.length).invoke w1).cell w1.heap.length =
        some (Runnable.function ⟨Callable.finish_called_job, [Param.other currentFiber]⟩) ∧
      ((job.ctor_pointer w.heap.length).invoke w1).queue =
        w1.queue.push FromMain [resume_job w1.heap.length] ∧
      (FromMain = true →
        ((job.ctor_pointer w.heap.length).invoke w1).queue.m_mainQueue =
          w1.queue.m_mainQueue ++ [resume_job w1.heap.length] ∧
        ((job.ctor_pointer w.heap.length).invoke w1).queue.m_globalQueue =
          w1.queue.m_globalQueue) ∧
      (FromMain = false →
        ((job.ctor_pointer w.heap.length).invoke w1).queue.m_globalQueue =
          w1.queue.m_globalQueue ++ [resume_job w1.heap.length] ∧
        ((job.ctor_pointer w.heap.length).invoke w1).queue.m_mainQueue =
          w1.queue.m_mainQueue)) ∧
    (open_call_token (switch_to_main currentFiber w).2 (switch_to_main currentFiber w).1).1.queue
      = { m_globalQueue := w.queue.m_globalQueue
          m_mainQueue := w.queue.m_mainQueue ++ [resume_job (w.heap.length + 1)] } ∧
    (open_call_token (switch_to_main currentFiber w).2
        (switch_to_main currentFiber w).1).1.cell (w.heap.length + 1) =
      some (Runnable.function ⟨Callable.finish_called_job, [Param.other currentFiber]⟩) ∧
    (open_call_token (switch_to_main currentFiber w).2
        (switch_to_main currentFiber w).1).1.fired w.tokens.length
      = w.fired w.tokens.length + 1 := by
  have hc := call_spec ToMain FromMain currentFiber params w
  refine ⟨hc.1, hc.2.2.1, call_cell ToMain FromMain currentFiber params w, ?_, ?_⟩
  · intro w1 h1
    rw [invoke_completionJob _ _ _ _ h1]
    refine ⟨?_, rfl, ?_, ?_⟩
    · simp only [World.cell]
      exact getD_append_length _ _ _
    · intro hF; subst hF; exact ⟨rfl, rfl⟩
    · intro hF; subst hF; exact ⟨rfl, rfl⟩
  · have hsw : switch_to_main currentFiber w =
        ({ w with heap := w.heap ++ [some (Runnable.completionJob currentFiber true)]
                  tokens := w.tokens ++ [some (1, { m_job := job.ctor_pointer w.heap.length })] },
         { m_token := some w.tokens.length }) := by
      simp [switch_to_main, call, World.alloc, dependency_token.ctor_job, job.move_ctor, job.move,
        dependency_token.drop, call_push, job.ctor_pointer]
    have hget : ({ w with heap := w.heap ++ [some (Runnable.completionJob currentFiber true)]
                          tokens := w.tokens ++
                            [some (1, { m_job := job.ctor_pointer w.heap.length })] } :
        World).tokens.getD w.tokens.length none =
          some (1, { m_job := job.ctor_pointer w.heap.length }) :=
      getD_append_length _ _ _
    rw [hsw]
    simp only [open_call_token, dependency_token.Open]
    rw [drop_last _ _ _ hget rfl]
    simp only [job.ctor_pointer, call_func, Option.bind, World.cell, World.emit,
      getD_append_length, push_independent_single]
    refine ⟨?_, ?_, ?_⟩
    · simp [queue_wrapper.push, mpmc_push]
    · have : (w.heap ++ [some (Runnable.completionJob currentFiber true)]).length
          = w.heap.length + 1 := by simp
      rw [← this]
      exact getD_append_length _ _ _
    · simp [World.fired]


end impl
end nova

namespace nova
namespace impl

/-! ## Every step of the scheduler keeps the invariant -/

theorem countP_set {α : Type} (p : α → Bool) :
    ∀ (xs : List α) (i : Nat) (x y : α), xs[i]? = some y →
      (xs.set i x).countP p + (if p y then 1 else 0) = xs.countP p + (if p x then 1 else 0) := by
  intro xs
  induction xs with
  | nil => intro i x y h; simp at h
  | cons z zs ih =>
    intro i x y h
    cases i with
    | zero =>
      simp only [List.getElem?_cons_zero, Option.some.injEq] at h
      subst h
      simp only [List.set_cons_zero, List.countP_cons]
      omega
    | succ i =>
      simp only [List.getElem?_cons_succ] at h
      have := ih i x y h
      simp only [List.set_cons_succ, List.countP_cons]
      omega

theorem count_token_entries (l : List Nat) (t : dependency_token) (n id : Nat) :
    (l ++ token_entries t n).count id = l.count id + (if t.m_token = some id then n else 0) := by
  unfold token_entries
  cases ht : t.m_token with
  | none => simp
  | some x =>
    simp only [List.count_append, List.count_replicate, Option.some.injEq]
    by_cases hx : x = id
    · simp [hx]
    · have : ¬ (x == id) = true := by simpa using hx
      simp [hx]

theorem mpmc_pop_count {T : Type} (p : T → Bool) (pick : Nat) (q rest : List T) (item : T)
    (h : mpmc_pop pick q = some (item, rest)) :
    rest.countP p + (if p item then 1 else 0) = q.countP p := by
  unfold mpmc_pop at h
  split at h
  · cases h
  · rename_i x hx
    cases h
    exact countP_eraseIdx p q _ _ hx

theorem job_loop_pop_count (thread_id pick : Nat) (q q1 : queue_wrapper job) (item : job)
    (p : job → Bool) (h : job_loop_pop thread_id pick q = some (item, q1)) :
    q1.m_globalQueue.countP p + q1.m_mainQueue.countP p + (if p item then 1 else 0) =
      q.m_globalQueue.countP p + q.m_mainQueue.countP p := by
  unfold job_loop_pop at h
  by_cases ht : thread_id = 0
  · rw [if_pos ht] at h
    unfold queue_wrapper.pop_main at h
    split at h
    · rename_i it rest hp
      cases h
      have := mpmc_pop_count p pick _ _ _ hp
      simp only
      omega
    · split at h
      · rename_i it rest hp
        cases h
        have := mpmc_pop_count p pick _ _ _ hp
        simp only
        omega
      · cases h
  · rw [if_neg ht] at h
    unfold queue_wrapper.pop at h
    split at h
    · rename_i it rest hp
      cases h
      have := mpmc_pop_count p pick _ _ _ hp
      simp only
      omega
    · cases h

theorem Sched.inv_same_grow (s s1 : Sched) (id : Nat) (h : s.InvAt id)
    (hne : id ≠ s.world.tokens.length)
    (hlen : s1.world.tokens.length = s.world.tokens.length + 1)
    (htok : s1.world.tokens.getD id none = s.world.tokens.getD id none)
    (hfired : s1.world.fired id = s.world.fired id)
    (henv : s1.envelopes id = s.envelopes id)
    (hpend : s1.pending id = s.pending id)
    (hsub : s1.submitted.count id = s.submitted.count id)
    (hcomp : s1.completed.count id = s.completed.count id) : s1.InvAt id := by
  unfold Sched.InvAt InvNum at *
  rw [hlen, htok, hfired, henv, hpend, hsub, hcomp]
  obtain ⟨h1, h2, h3⟩ := h
  exact ⟨fun hle => h1 (by omega), fun hlt => h2 (by omega), h3⟩

theorem Sched.inv_acquire (s s1 : Sched) (id n : Nat) (h : s.InvAt id)
    (hpos : s.envelopes id + s.pending id ≠ 0)
    (hlen : s1.world.tokens.length = s.world.tokens.length)
    (htok : ∀ H st, s.world.tokens.getD id none = some (H, st) →
      s1.world.tokens.getD id none = some (H + n, st))
    (hfired : s1.world.fired id = s.world.fired id)
    (henv : s1.envelopes id = s.envelopes id + n)
    (hpend : s1.pending id = s.pending id)
    (hsub : s1.submitted.count id = s.submitted.count id + n)
    (hcomp : s1.completed.count id = s.completed.count id) : s1.InvAt id := by
  obtain ⟨hlt, hf0, st, hget, hst⟩ := s.live_of_holders id h hpos
  have hsubeq := h.2.2
  unfold Sched.InvAt InvNum
  rw [hlen, htok _ _ hget, hfired, henv, hpend, hsub, hcomp, hf0]
  refine ⟨fun hle => absurd hlt (Nat.not_lt.mpr hle), fun _ => ⟨fun hz => ?_, fun _ => ?_⟩, ?_⟩
  · omega
  · refine ⟨⟨st, ?_, hst⟩, rfl⟩
    congr 2
    omega
  · rw [hsubeq]; omega

theorem Sched.step_keeps_inv (s : Sched) (a : SchedAction) (h : ∀ id, s.InvAt id) :
    ∀ id, (s.step a).InvAt id := by
  intro id
  cases a with
  | push ToMain rs =>
    have hf := frame_push_independent ToMain rs s.world
    refine Sched.inv_same s _ id (h id) ?_ ?_ ?_ ?_ rfl rfl rfl
    · show (push_independent ToMain rs s.world).tokens.length = _
      rw [hf.1]
    · show (push_independent ToMain rs s.world).tokens.getD id none = _
      rw [hf.1]
    · exact hf.2.1 id
    · show (push_independent ToMain rs s.world).qcount id + s.itercount id = _
      rw [hf.2.2]; rfl
  | invoke i =>
    cases hi : s.iterations[i]? with
    | none => simp only [Sched.step, hi]; exact h id
    | some it =>
      by_cases hinv : it.invoked = true
      · simp only [Sched.step, hi, hinv, if_true]; exact h id
      · simp only [Sched.step, hi, hinv, if_false]
        have hf := frame_call_func it.j.m_runFunc it.j.m_runnable s.world
        have hc := countP_set (fun x : Iteration => x.j.holds id) s.iterations i
          { it with invoked := true } it hi
        refine Sched.inv_same s _ id (h id) ?_ ?_ ?_ ?_ rfl rfl rfl
        · show (it.j.invoke s.world).tokens.length = _
          simp only [job.invoke, hf.1]
        · show (it.j.invoke s.world).tokens.getD id none = _
          simp only [job.invoke, hf.1]
        · exact hf.2.1 id
        · show (it.j.invoke s.world).qcount id +
            (s.iterations.set i { it with invoked := true }).countP
              (fun x : Iteration => x.j.holds id) = _
          simp only [job.invoke, hf.2.2 id, Sched.envelopes, Sched.itercount]
          simp only at hc
          omega
  | pop thread_id pick =>
    cases hp : job_loop_pop thread_id pick s.world.queue with
    | none => simp only [Sched.step, hp]; exact h id
    | some r =>
      obtain ⟨item, q⟩ := r
      simp only [Sched.step, hp]
      have hc := job_loop_pop_count thread_id pick _ _ _ (job.holds id) hp
      refine Sched.inv_same s _ id (h id) rfl rfl rfl ?_ rfl rfl rfl
      show (q.m_globalQueue.countP (job.holds id) + q.m_mainQueue.countP (job.holds id)) +
        (s.iterations ++ [({ thread_id := thread_id, j := item, invoked := false } : Iteration)]).countP
          (fun x : Iteration => x.j.holds id) = _
      simp only [Sched.envelopes, Sched.itercount, World.qcount, List.countP_append,
        List.countP_cons, List.countP_nil]
      omega
  | finish i =>
    cases hi : s.iterations[i]? with
    | none => simp only [Sched.step, hi]; exact h id
    | some it =>
      by_cases hinv : it.invoked = true
      · simp only [Sched.step, hi, hinv, if_true]
        have hf := frame_call_func it.j.m_deleteFunc it.j.m_runnable s.world
        cases ht : it.j.m_callToken.m_token with
        | none =>
          have hc := countP_eraseIdx (fun x : Iteration => x.j.holds id) s.iterations i it hi
          have hh : it.j.holds id = false := by simp [job.holds, ht]
          simp only [hh, Bool.false_eq_true, if_false, Nat.add_zero] at hc
          refine Sched.inv_same s _ id (h id) ?_ ?_ ?_ ?_ rfl rfl ?_
          · show (it.j.destroy s.world).tokens.length = _
            simp only [job.destroy, drop_empty _ _ ht, hf.1]
          · show (it.j.destroy s.world).tokens.getD id none = _
            simp only [job.destroy, drop_empty _ _ ht, hf.1]
          · show (it.j.destroy s.world).fired id = _
            simp only [job.destroy, drop_empty _ _ ht, hf.2.1]
          · show (it.j.destroy s.world).qcount id +
              (s.iterations.eraseIdx i).countP (fun x : Iteration => x.j.holds id) = _
            simp only [job.destroy, drop_empty _ _ ht, hf.2.2 id, hc, Sched.envelopes,
              Sched.itercount]
          · show (s.completed ++ token_entries it.j.m_callToken 1).count id = _
            rw [count_token_entries]; simp [ht]
        | some id0 =>
          have ht1 := token_eq_of_m_token _ _ ht
          have hworld : (it.j.destroy s.world) = dependency_token.drop { m_token := some id0 }
              (call_func it.j.m_deleteFunc it.j.m_runnable s.world) := by
            simp only [job.destroy, ht1]
          by_cases hid : id = id0
          · subst hid
            have hc := countP_eraseIdx (fun x : Iteration => x.j.holds id) s.iterations i it hi
            have hh : it.j.holds id = true := by simp [job.holds, ht]
            simp only [hh, if_true] at hc
            refine Sched.inv_drop s _ id _ (h id) hf hworld ?_ rfl ?_
            · show (s.iterations.eraseIdx i).countP (fun x : Iteration => x.j.holds id) +
                s.pending id + 1 = s.itercount id + s.pending id
              simp only [Sched.itercount]; omega
            · show (s.completed ++ token_entries it.j.m_callToken 1).count id +
                (s.iterations.eraseIdx i).countP (fun x : Iteration => x.j.holds id) = _
              rw [count_token_entries]
              simp only [ht, if_true, Sched.itercount]; omega
          · have hc := countP_eraseIdx (fun x : Iteration => x.j.holds id) s.iterations i it hi
            have hh : it.j.holds id = false := by
              simp only [job.holds, ht, decide_eq_false_iff_not, Option.some.injEq]
              exact fun hh => hid hh.symm
            simp only [hh, Bool.false_eq_true, if_false, Nat.add_zero] at hc
            have hc0 := countP_eraseIdx (fun x : Iteration => x.j.holds id0) s.iterations i it hi
            have hh0 : it.j.holds id0 = true := by simp [job.holds, ht]
            simp only [hh0, if_true] at hc0
            have hpos : s.envelopes id0 + s.pending id0 ≠ 0 := by
              simp only [Sched.envelopes, Sched.itercount]; omega
            refine Sched.inv_drop_other s _ id0 id _ hid (h id0) hpos (h id) hf hworld ?_ rfl
              rfl ?_
            · show (s.iterations.eraseIdx i).countP (fun x : Iteration => x.j.holds id) = _
              rw [hc]; rfl
            · show (s.completed ++ token_entries it.j.m_callToken 1).count id = _
              rw [count_token_entries]
              have : ¬ (some id0 = some id) := fun hh => hid (Option.some.inj hh).symm
              simp [ht, this]
      · simp only [Sched.step, hi, hinv, if_false]; exact h id
  | open_call_token i =>
    cases hi : s.call_tokens[i]? with
    | none => simp only [Sched.step, hi]; exact h id
    | some dt =>
      simp only [Sched.step, hi, open_call_token, dependency_token.Open]
      have hn : ∀ x : Nat, decide ((none : Option Nat) = some x) = false := fun x => by simp
      have hc := countP_set (fun t : dependency_token => decide (t.m_token = some id))
        s.call_tokens i { m_token := none } dt hi
      simp only [hn, Bool.false_eq_true, if_false, Nat.add_zero] at hc
      cases ht : dt.m_token with
      | none =>
        simp only [ht, hn, Bool.false_eq_true, if_false, Nat.add_zero] at hc
        refine Sched.inv_same s _ id (h id) ?_ ?_ ?_ ?_ ?_ rfl rfl
        · show (dt.drop s.world).tokens.length = _
          rw [drop_empty _ _ ht]
        · show (dt.drop s.world).tokens.getD id none = _
          rw [drop_empty _ _ ht]
        · show (dt.drop s.world).fired id = _
          rw [drop_empty _ _ ht]
        · show (dt.drop s.world).qcount id + s.itercount id = _
          rw [drop_empty _ _ ht]; rfl
        · exact hc
      | some id0 =>
        have ht1 := token_eq_of_m_token _ _ ht
        have hworld : dt.drop s.world = dependency_token.drop { m_token := some id0 } s.world := by
          rw [ht1]
        by_cases hid : id = id0
        · subst hid
          simp only [ht, decide_True, if_true] at hc
          refine Sched.inv_drop s _ id s.world (h id) (Frame.refl _) hworld ?_ rfl rfl
          show s.itercount id + (s.call_tokens.set i { m_token := none }).countP
            (fun t : dependency_token => decide (t.m_token = some id)) + 1 = _
          simp only [Sched.pending]; omega
        · have hne : ¬ (some id0 = some id) := fun hh => hid (Option.some.inj hh).symm
          simp only [ht, hne, decide_False, Bool.false_eq_true, if_false, Nat.add_zero] at hc
          have hc0 := countP_set (fun t : dependency_token => decide (t.m_token = some id0))
            s.call_tokens i { m_token := none } dt hi
          simp only [ht, decide_True, if_true, hn, Bool.false_eq_true, if_false,
            Nat.add_zero] at hc0
          have hpos : s.envelopes id0 + s.pending id0 ≠ 0 := by
            simp only [Sched.pending]; omega
          exact Sched.inv_drop_other s _ id0 id s.world hid (h id0) hpos (h id) (Frame.refl _)
            hworld rfl hc rfl rfl
  | push_dependent i ToMain rs =>
    cases hi : s.iterations[i]? with
    | none => simp only [Sched.step, hi]; exact h id
    | some it =>
      simp only [Sched.step, hi]
      cases ht : it.j.m_callToken.m_token with
      | none =>
        have ht1 := token_eq_of_m_token _ _ ht
        have hf := push_dependent_none ToMain rs s.world
        rw [ht1]
        refine Sched.inv_same s _ id (h id) ?_ ?_ ?_ ?_ rfl ?_ rfl
        · show (push_dependent ToMain { m_token := none } rs s.world).tokens.length = _
          rw [hf.1]
        · show (push_dependent ToMain { m_token := none } rs s.world).tokens.getD id none = _
          rw [hf.1]
        · exact hf.2.1 id
        · show (push_dependent ToMain { m_token := none } rs s.world).qcount id +
            s.itercount id = _
          rw [hf.2.2]; rfl
        · show (s.submitted ++ token_entries { m_token := none } _).count id = _
          rw [count_token_entries]; simp
      | some id0 =>
        have ht1 := token_eq_of_m_token _ _ ht
        have hmem : it ∈ s.iterations := List.getElem?_mem hi
        have hiter : 0 < s.itercount id0 := by
          simp only [Sched.itercount]
          rw [List.countP_pos_iff]
          exact ⟨it, hmem, by simp [job.holds, ht]⟩
        have hpos : s.envelopes id0 + s.pending id0 ≠ 0 := by
          simp only [Sched.envelopes]; omega
        obtain ⟨hlt, hf0, st, hget, hst⟩ := s.live_of_holders id0 (h id0) hpos
        have hp := push_dependent_some ToMain id0 _ st rs s.world hget
        rw [ht1]
        by_cases hid : id = id0
        · subst hid
          refine Sched.inv_acquire s _ id (packed_count rs s.world) (h id) hpos hp.1 ?_
            (hp.2.2.2.1 id) ?_ rfl ?_ rfl
          · intro H st1 hg
            rw [hget] at hg
            simp only [Option.some.injEq, Prod.mk.injEq] at hg
            obtain ⟨rfl, rfl⟩ := hg
            exact hp.2.1
          · show (push_dependent ToMain { m_token := some id } rs s.world).qcount id +
              s.itercount id = _
            rw [hp.2.2.2.2, if_pos rfl]
            simp only [Sched.envelopes]; omega
          · show (s.submitted ++ token_entries { m_token := some id } _).count id = _
            rw [count_token_entries]; simp
        · refine Sched.inv_same s _ id (h id) hp.1 (hp.2.2.1 id hid) (hp.2.2.2.1 id) ?_ rfl ?_ rfl
          · show (push_dependent ToMain { m_token := some id0 } rs s.world).qcount id +
              s.itercount id = _
            rw [hp.2.2.2.2, if_neg hid]; rfl
          · show (s.submitted ++ token_entries { m_token := some id0 } _).count id = _
            rw [count_token_entries]
            have : ¬ (some id0 = some id) := fun hh => hid (Option.some.inj hh).symm
            simp [this]
  | call ToMain FromMain currentFiber params =>
    simp only [Sched.step]
    have hc := call_spec ToMain FromMain currentFiber params s.world
    obtain ⟨hdt, hlen, hnew, hother, hfired, hq⟩ := hc
    rw [hdt]
    by_cases hid : id = s.world.tokens.length
    · subst hid
      have hold := h s.world.tokens.length
      unfold Sched.InvAt InvNum at hold
      obtain ⟨h1, _, h3⟩ := hold
      obtain ⟨hz, hf0, _⟩ := h1 (Nat.le_refl _)
      have hpend0 : s.pending s.world.tokens.length = 0 := by omega
      have henv0 : s.envelopes s.world.tokens.length = 0 := by omega
      unfold Sched.InvAt InvNum
      have e1 : (Sched.envelopes { s with
          world := (call ToMain FromMain currentFiber (call_params params) s.world).1
          call_tokens := s.call_tokens ++ [{ m_token := some s.world.tokens.length }]
          submitted := s.submitted ++ token_entries { m_token := some s.world.tokens.length }
            (call_params_count params) } s.world.tokens.length) = call_params_count params := by
        show (call ToMain FromMain currentFiber (call_params params) s.world).1.qcount _ +
          s.itercount _ = _
        rw [hq, if_pos rfl]
        simp only [Sched.envelopes] at henv0
        omega
      have e2 : (Sched.pending { s with
          world := (call ToMain FromMain currentFiber (call_params params) s.world).1
          call_tokens := s.call_tokens ++ [{ m_token := some s.world.tokens.length }]
          submitted := s.submitted ++ token_entries { m_token := some s.world.tokens.length }
            (call_params_count params) } s.world.tokens.length) = 1 := by
        show (s.call_tokens ++ [({ m_token := some s.world.tokens.length } : dependency_token)]).countP
          (fun t : dependency_token => decide (t.m_token = some s.world.tokens.length)) = 1
        simp only [Sched.pending] at hpend0
        simp [List.countP_append, hpend0]
      have e3 : (s.submitted ++ token_entries { m_token := some s.world.tokens.length }
          (call_params_count params)).count s.world.tokens.length =
          s.submitted.count s.world.tokens.length + call_params_count params := by
        rw [count_token_entries]; simp
      simp only [e1, e2]
      show InvNum _ (call ToMain FromMain currentFiber (call_params params) s.world).1.tokens.length
        ((call ToMain FromMain currentFiber (call_params params) s.world).1.tokens.getD _ none)
        ((call ToMain FromMain currentFiber (call_params params) s.world).1.fired _) _ _
        ((s.submitted ++ token_entries { m_token := some s.world.tokens.length }
          (call_params_count params)).count s.world.tokens.length)
        (s.completed.count s.world.tokens.length)
      rw [hlen, hnew, hfired, hf0, e3]
      unfold InvNum
      refine ⟨fun hle => by omega, fun _ => ⟨fun hzz => by omega, fun _ => ?_⟩, by omega⟩
      refine ⟨⟨({ m_job := job.ctor_pointer s.world.heap.length } : shared_token), ?_, rfl⟩, rfl⟩
      congr 2
      omega
    · refine Sched.inv_same_grow s _ id (h id) hid hlen (hother id hid) (hfired id) ?_ ?_ ?_ rfl
      · show (call ToMain FromMain currentFiber (call_params params) s.world).1.qcount id +
          s.itercount id = _
        rw [hq, if_neg hid]; rfl
      · show (s.call_tokens ++ [({ m_token := some s.world.tokens.length } : dependency_token)]).countP
          (fun t : dependency_token => decide (t.m_token = some id)) = _
        have : ¬ (some s.world.tokens.length = some id) :=
          fun hh => hid (Option.some.inj hh).symm
        simp [List.countP_append, Sched.pending, this]
      · show (s.submitted ++ token_entries { m_token := some s.world.tokens.length } _).count id
          = _
        rw [count_token_entries]
        have : ¬ (some s.world.tokens.length = some id) :=
          fun hh => hid (Option.some.inj hh).symm
        simp [this]

end impl
end nova

namespace nova
namespace impl

theorem Sched.inv_init (id : Nat) : ({} : Sched).InvAt id := by
  unfold Sched.InvAt InvNum
  refine ⟨fun _ => ⟨rfl, rfl, rfl⟩, fun hlt => ?_, rfl⟩
  exact absurd hlt (Nat.not_lt_zero _)

theorem Sched.run_keeps_inv (acts : List SchedAction) :
    ∀ s : Sched, (∀ id, s.InvAt id) → ∀ id, (acts.foldl Sched.step s).InvAt id := by
  induction acts with
  | nil => intro s h; exact h
  | cons a as ih => intro s h; exact ih _ (Sched.step_keeps_inv s a h)

/-- C3 (call completion).  In every execution of the scheduler (calls, opening
of call tokens on the fiber switched to, pops, invocations, pushes, dependent
pushes and ends of loop iterations, in any interleaving) and for every call
token `id`: the continuation of the token, which is the only code that enqueues
the resume job of the call, is invoked at most once; and once it has been
invoked no envelope holding the token is left in a queue or in a loop
iteration, the arming handle of the caller has been opened, and every envelope
that ever received a copy of the token (from the call itself or through a
dependent push) has been destroyed at the end of a loop iteration, hence
after its invocation.  So the resume job is not enqueued before all of them
have been invoked and destroyed. -/
theorem call_resumes_after_all_envelopes (acts : List SchedAction) (id : Nat) :
    (Sched.run acts).world.fired id ≤ 1 ∧
    (1 ≤ (Sched.run acts).world.fired id →
      (Sched.run acts).world.qcount id = 0 ∧
      (Sched.run acts).itercount id = 0 ∧
      (Sched.run acts).pending id = 0 ∧
      (Sched.run acts).submitted.count id = (Sched.run acts).completed.count id) ∧
    ((Sched.run acts).world.qcount id + (Sched.run acts).itercount id +
        (Sched.run acts).pending id ≠ 0 →
      (Sched.run acts).world.fired id = 0) := by
  have hinv := Sched.run_keeps_inv acts {} Sched.inv_init id
  have hrun : acts.foldl Sched.step {} = Sched.run acts := rfl
  rw [hrun] at hinv
  unfold Sched.InvAt InvNum at hinv
  simp only [Sched.envelopes] at hinv
  obtain ⟨h1, h2, h3⟩ := hinv
  by_cases hlt : id < (Sched.run acts).world.tokens.length
  · obtain ⟨hz, hnz⟩ := h2 hlt
    by_cases hh : (Sched.run acts).world.qcount id + (Sched.run acts).itercount id +
        (Sched.run acts).pending id = 0
    · have := (hz hh).2
      refine ⟨by omega, fun _ => ⟨by omega, by omega, by omega, by omega⟩, fun hne => absurd hh hne⟩
    · have := (hnz hh).2
      exact ⟨by omega, fun h1 => by omega, fun _ => this⟩
  · have := h1 (Nat.le_of_not_lt hlt)
    exact ⟨by omega, fun hge => by omega, fun _ => this.2.1⟩

theorem call_resumes_after_all_envelopes_witness :
    1 ≤ (Sched.run
      [SchedAction.call false true 7
          (some ([(func.raw 1, func.no_op, none), (func.raw 2, func.no_op, none)], [])),
        SchedAction.pop 1 0, SchedAction.invoke 0,
        SchedAction.push_dependent 0 false [RunnableArg.plain ⟨Callable.user 5, []⟩],
        SchedAction.open_call_token 0, SchedAction.finish 0,
        SchedAction.pop 2 0, SchedAction.pop 3 0, SchedAction.invoke 0, SchedAction.invoke 1,
        SchedAction.finish 0, SchedAction.finish 0]).world.fired 0 ∧
    (Sched.run
      [SchedAction.call false true 7
          (some ([(func.raw 1, func.no_op, none), (func.raw 2, func.no_op, none)], [])),
        SchedAction.pop 1 0, SchedAction.invoke 0,
        SchedAction.push_dependent 0 false [RunnableArg.plain ⟨Callable.user 5, []⟩],
        SchedAction.open_call_token 0, SchedAction.finish 0,
        SchedAction.pop 2 0, SchedAction.pop 3 0, SchedAction.invoke 0, SchedAction.invoke 1,
        SchedAction.finish 0, SchedAction.finish 0]).submitted.count 0 =
    (Sched.run
      [SchedAction.call false true 7
          (some ([(func.raw 1, func.no_op, none), (func.raw 2, func.no_op, none)], [])),
        SchedAction.pop 1 0, SchedAction.invoke 0,
        SchedAction.push_dependent 0 false [RunnableArg.plain ⟨Callable.user 5, []⟩],
        SchedAction.open_call_token 0, SchedAction.finish 0,
        SchedAction.pop 2 0, SchedAction.pop 3 0, SchedAction.invoke 0, SchedAction.invoke 1,
        SchedAction.finish 0, SchedAction.finish 0]).completed.count 0 :=
  ⟨by decide, ((call_resumes_after_all_envelopes _ 0).2.1 (by decide)).2.2.2⟩

end impl
end nova

/-! ## get_fresh_fiber -/

namespace nova
namespace impl

/-- C20: on a non-empty stack `get_fresh_fiber` returns the fiber pushed last,
removes that entry only and creates nothing; on an empty stack it creates a
fiber whose start routine is `open_call_token_enter_job_loop` and leaves the
stack empty; the push of the current fiber by `finish_called_job` followed by
`get_fresh_fiber` on the same thread gives that fiber back and restores the
stack. -/
theorem get_fresh_fiber_lifo (available_fibers : List Nat) (fiber : Nat)
    (fibers : List FiberStart) :
    get_fresh_fiber (available_fibers ++ [fiber]) fibers = (fiber, available_fibers, fibers) ∧
    (get_fresh_fiber [] fibers).1 = fibers.length ∧
    (get_fresh_fiber [] fibers).2.1 = [] ∧
    (get_fresh_fiber [] fibers).2.2 = fibers ++ [FiberStart.open_call_token_enter_job_loop] ∧
    (get_fresh_fiber [] fibers).2.2.getD (get_fresh_fiber [] fibers).1
        FiberStart.converted_thread = FiberStart.open_call_token_enter_job_loop ∧
    get_fresh_fiber (finish_called_job_mark fiber available_fibers) fibers =
      (fiber, available_fibers, fibers) := by
  have h : get_fresh_fiber (available_fibers ++ [fiber]) fibers =
      (fiber, available_fibers, fibers) := by
    unfold get_fresh_fiber
    have hlen : (available_fibers ++ [fiber]).length > 0 := by simp
    rw [if_pos hlen]
    have h1 : (available_fibers ++ [fiber]).length - 1 = available_fibers.length := by simp
    rw [h1, getD_append_length, List.dropLast_concat]
  refine ⟨h, rfl, rfl, rfl, ?_, h⟩
  show (fibers ++ [FiberStart.open_call_token_enter_job_loop]).getD fibers.length _ = _
  rw [getD_append_length]

end impl
end nova

/-! ## pop_main and the account of the two queues -/

namespace nova
namespace impl

theorem perm_cons_eraseIdx {α : Type} :
    ∀ (q : List α) (i : Nat) (x : α), q[i]? = some x → List.Perm q (x :: q.eraseIdx i)
  | [], i, x, h => by simp at h
  | y :: q, 0, x, h => by
    simp only [List.getElem?_cons_zero, Option.some.injEq] at h
    subst h
    exact List.Perm.refl _
  | y :: q, i + 1, x, h => by
    simp only [List.getElem?_cons_succ] at h
    have ih := perm_cons_eraseIdx q i x h
    simp only [List.eraseIdx_cons_succ]
    exact (List.Perm.cons y ih).trans (List.Perm.swap x y _)

theorem mpmc_pop_spec {T : Type} (pick : Nat) (q : List T) :
    (q = [] → mpmc_pop pick q = none) ∧
    (q ≠ [] → ∃ item, q[pick % q.length]? = some item ∧
      mpmc_pop pick q = some (item, q.eraseIdx (pick % q.length))) := by
  constructor
  · intro h
    subst h
    rfl
  · intro h
    have hlen : 0 < q.length := List.length_pos.mpr h
    have hlt : pick % q.length < q.length := Nat.mod_lt _ hlen
    refine ⟨q[pick % q.length], List.getElem?_eq_getElem hlt, ?_⟩
    unfold mpmc_pop
    rw [List.getElem?_eq_getElem hlt]

theorem mpmc_pop_perm {T : Type} (pick : Nat) (q rest : List T) (item : T)
    (h : mpmc_pop pick q = some (item, rest)) : List.Perm q (item :: rest) := by
  unfold mpmc_pop at h
  split at h
  · cases h
  · rename_i x hx
    cases h
    exact perm_cons_eraseIdx q _ _ hx

theorem job_loop_pop_perm {T : Type} (thread_id pick : Nat) (q q1 : queue_wrapper T) (item : T)
    (h : job_loop_pop thread_id pick q = some (item, q1)) :
    List.Perm (q.m_globalQueue ++ q.m_mainQueue)
      (item :: (q1.m_globalQueue ++ q1.m_mainQueue)) := by
  have hglobal : ∀ rest, mpmc_pop pick q.m_globalQueue = some (item, rest) →
      List.Perm (q.m_globalQueue ++ q.m_mainQueue) (item :: (rest ++ q.m_mainQueue)) := by
    intro rest hp
    exact List.Perm.append_right _ (mpmc_pop_perm pick _ _ _ hp)
  unfold job_loop_pop at h
  by_cases ht : thread_id = 0
  · rw [if_pos ht] at h
    unfold queue_wrapper.pop_main at h
    split at h
    · rename_i it rest hp
      cases h
      exact hglobal rest hp
    · split at h
      · rename_i it rest hp
        cases h
        have := mpmc_pop_perm pick _ _ _ hp
        exact (List.Perm.append_left _ this).trans List.perm_middle
      · cases h
  · rw [if_neg ht] at h
    unfold queue_wrapper.pop at h
    split at h
    · rename_i it rest hp
      cases h
      exact hglobal rest hp
    · cases h

theorem QueueSys.step_account {T : Type} (s : QueueSys T) (a : QueueAction T)
    (before : List (Bool × T))
    (h : List.Perm before
      (s.queue.m_globalQueue ++ s.queue.m_mainQueue ++ s.dequeued.map Prod.snd)) :
    List.Perm (before ++ a.pushed)
      ((s.step a).queue.m_globalQueue ++ (s.step a).queue.m_mainQueue ++
        (s.step a).dequeued.map Prod.snd) := by
  cases a with
  | push ToMain items =>
    cases ToMain with
    | true =>
      simp only [QueueSys.step, queue_wrapper.push, mpmc_push, if_true, QueueAction.pushed]
      refine (List.Perm.append_right _ h).trans ?_
      simp only [List.append_assoc]
      refine List.Perm.append_left _ (List.Perm.append_left _ ?_)
      exact List.perm_append_comm
    | false =>
      simp only [QueueSys.step, queue_wrapper.push, mpmc_push, Bool.false_eq_true, if_false,
        QueueAction.pushed]
      refine (List.Perm.append_right _ h).trans ?_
      simp only [List.append_assoc]
      refine List.Perm.append_left _ ?_
      rw [← List.append_assoc]
      exact List.perm_append_comm
  | job_loop_pop thread_id pick =>
    simp only [QueueAction.pushed, List.append_nil, QueueSys.step]
    split
    · rename_i item q hp
      have hq := job_loop_pop_perm thread_id pick _ _ _ hp
      simp only [List.map_append, List.map_cons, List.map_nil]
      refine h.trans ?_
      refine (List.Perm.append_right _ hq).trans ?_
      simp only [List.cons_append, List.append_assoc]
      refine List.perm_middle.symm.trans ?_
      refine List.Perm.append_left _ ?_
      refine List.perm_middle.symm.trans ?_
      refine List.Perm.append_left _ ?_
      exact (List.perm_append_singleton item _).symm
    · exact h

theorem QueueSys.foldl_account {T : Type} (acts : List (QueueAction T)) :
    ∀ (s : QueueSys T) (before : List (Bool × T)),
      List.Perm before
        (s.queue.m_globalQueue ++ s.queue.m_mainQueue ++ s.dequeued.map Prod.snd) →
      List.Perm (before ++ QueueSys.pushed acts)
        ((acts.foldl QueueSys.step s).queue.m_globalQueue ++
          (acts.foldl QueueSys.step s).queue.m_mainQueue ++
          (acts.foldl QueueSys.step s).dequeued.map Prod.snd) := by
  induction acts with
  | nil =>
    intro s before h
    simpa [QueueSys.pushed] using h
  | cons a acts ih =>
    intro s before h
    have := ih (s.step a) (before ++ a.pushed) (QueueSys.step_account s a before h)
    simpa [QueueSys.pushed, List.append_assoc] using this

/-- C19: an attempt of `pop_main` takes from the global queue whenever that
queue is not empty, turns to the main queue only when the global queue is
empty, and fails only when both are; a successful attempt removes one
envelope from one queue and leaves the other queue as it was.  Over all
sequences of pushes and worker pops, the envelopes pushed are, with their
multiplicities, those in the global queue, those in the main queue and those
dequeued: none is in two places, dequeued twice or lost. -/
theorem pop_main_takes_one_envelope {T : Type} :
    (∀ (pick : Nat) (q : queue_wrapper T), q.m_globalQueue ≠ [] →
      ∃ item, q.m_globalQueue[pick % q.m_globalQueue.length]? = some item ∧
        q.pop_main pick = some (item, { q with
          m_globalQueue := q.m_globalQueue.eraseIdx (pick % q.m_globalQueue.length) }) ∧
        (q.m_globalQueue.eraseIdx (pick % q.m_globalQueue.length)).length + 1 =
          q.m_globalQueue.length) ∧
    (∀ (pick : Nat) (q : queue_wrapper T), q.m_globalQueue = [] → q.m_mainQueue ≠ [] →
      ∃ item, q.m_mainQueue[pick % q.m_mainQueue.length]? = some item ∧
        q.pop_main pick = some (item, { q with
          m_mainQueue := q.m_mainQueue.eraseIdx (pick % q.m_mainQueue.length) }) ∧
        (q.m_mainQueue.eraseIdx (pick % q.m_mainQueue.length)).length + 1 =
          q.m_mainQueue.length) ∧
    (∀ (pick : Nat) (q : queue_wrapper T),
      q.pop_main pick = none ↔ q.m_globalQueue = [] ∧ q.m_mainQueue = []) ∧
    (∀ acts : List (QueueAction T),
      List.Perm (QueueSys.pushed acts)
        ((QueueSys.run acts).queue.m_globalQueue ++ (QueueSys.run acts).queue.m_mainQueue ++
          (QueueSys.run acts).dequeued.map Prod.snd)) := by
  have hlen : ∀ (l : List T) (pick : Nat), l ≠ [] →
      (l.eraseIdx (pick % l.length)).length + 1 = l.length := by
    intro l pick hl
    have hpos : 0 < l.length := List.length_pos.mpr hl
    have hlt : pick % l.length < l.length := Nat.mod_lt _ hpos
    rw [List.length_eraseIdx, if_pos hlt]
    omega
  refine ⟨?_, ?_, ?_, ?_⟩
  · intro pick q hg
    obtain ⟨item, hitem, hpop⟩ := (mpmc_pop_spec pick q.m_globalQueue).2 hg
    refine ⟨item, hitem, ?_, hlen _ pick hg⟩
    unfold queue_wrapper.pop_main
    rw [hpop]
  · intro pick q hg hm
    obtain ⟨item, hitem, hpop⟩ := (mpmc_pop_spec pick q.m_mainQueue).2 hm
    refine ⟨item, hitem, ?_, hlen _ pick hm⟩
    unfold queue_wrapper.pop_main
    rw [(mpmc_pop_spec pick q.m_globalQueue).1 hg, hpop]
  · intro pick q
    constructor
    · intro h
      by_cases hg : q.m_globalQueue = []
      · refine ⟨hg, ?_⟩
        by_cases hm : q.m_mainQueue = []
        · exact hm
        · obtain ⟨item, _, hpop⟩ := (mpmc_pop_spec pick q.m_mainQueue).2 hm
          unfold queue_wrapper.pop_main at h
          rw [(mpmc_pop_spec pick q.m_globalQueue).1 hg, hpop] at h
          cases h
      · obtain ⟨item, _, hpop⟩ := (mpmc_pop_spec pick q.m_globalQueue).2 hg
        unfold queue_wrapper.pop_main at h
        rw [hpop] at h
        cases h
    · rintro ⟨hg, hm⟩
      unfold queue_wrapper.pop_main
      rw [(mpmc_pop_spec pick q.m_globalQueue).1 hg, (mpmc_pop_spec pick q.m_mainQueue).1 hm]
  · intro acts
    have := QueueSys.foldl_account acts ({} : QueueSys T) [] (by simp)
    simpa [QueueSys.run] using this

end impl
end nova

/-! ## set_dependency_token -/

namespace nova
namespace impl

theorem set_dependency_token_fields (j : job) (se : dependency_token) (w : World) :
    (j.set_dependency_token se w).2.m_callToken = se ∧
    (j.set_dependency_token se w).2.m_runFunc = j.m_runFunc ∧
    (j.set_dependency_token se w).2.m_deleteFunc = j.m_deleteFunc ∧
    (j.set_dependency_token se w).2.m_runnable = j.m_runnable :=
  ⟨rfl, rfl, rfl, rfl⟩

theorem set_dependency_token_world (j : job) (id n : Nat) (st : shared_token) (w : World)
    (hget : w.tokens.getD id none = some (n, st)) :
    (j.set_dependency_token { m_token := some id } w).1 =
      j.m_callToken.drop { w with tokens := w.tokens.set id (some (n + 1, st)) } := by
  simp only [job.set_dependency_token, acquire_spec w id n st hget]

/-- C18, the case that the claim misses: a job that already holds a handle on
the latch of `dt` gives that handle up when it takes the clone, so the
reference count of the latch is what it was, not one higher.  Here `dt` is
built from a runnable, a default job receives a clone (count 2), and the
same job receives a clone again (count 2, not 3). -/
theorem set_dependency_token_same_latch_count :
    ((job.set_dependency_token {}
        (dependency_token.ctor_runnable (Runnable.function ⟨Callable.user 1, []⟩) {}).2
        (dependency_token.ctor_runnable (Runnable.function ⟨Callable.user 1, []⟩) {}).1).1.tokens.map
      fun t => t.map Prod.fst) = [some 2] ∧
    (((job.set_dependency_token {}
        (dependency_token.ctor_runnable (Runnable.function ⟨Callable.user 1, []⟩) {}).2
        (dependency_token.ctor_runnable (Runnable.function ⟨Callable.user 1, []⟩) {}).1).2.set_dependency_token
      (dependency_token.ctor_runnable (Runnable.function ⟨Callable.user 1, []⟩) {}).2
      (job.set_dependency_token {}
        (dependency_token.ctor_runnable (Runnable.function ⟨Callable.user 1, []⟩) {}).2
        (dependency_token.ctor_runnable (Runnable.function ⟨Callable.user 1, []⟩) {}).1).1).1.tokens.map
      fun t => t.map Prod.fst) = [some 2] := by
  decide

/-- C18 as amended: `set_dependency_token(dt)`, for `dt` referring to a live
latch `id` with reference count `n + 1`, leaves the job with a handle on `id`
and with its run function, delete function and data pointer unchanged.  The
count of `id` afterwards is `n + 2` when the job held no handle or a handle on
another latch, and `n + 1`, as before, when the job already held a handle on
`id`.  A handle held on another latch `old` (whose continuation job holds no
token itself) is released: its count goes down by one, and its continuation
is invoked, once, exactly when that handle was the last one.  No other
continuation is invoked. -/
theorem set_dependency_token_replaces (j : job) (id n : Nat) (st : shared_token) (w : World)
    (hget : w.tokens.getD id none = some (n + 1, st)) :
    (j.set_dependency_token { m_token := some id } w).2.m_callToken = { m_token := some id } ∧
    (j.set_dependency_token { m_token := some id } w).2.m_runFunc = j.m_runFunc ∧
    (j.set_dependency_token { m_token := some id } w).2.m_deleteFunc = j.m_deleteFunc ∧
    (j.set_dependency_token { m_token := some id } w).2.m_runnable = j.m_runnable ∧
    (j.m_callToken.m_token = none →
      (j.set_dependency_token { m_token := some id } w).1.tokens.getD id none =
        some (n + 2, st) ∧
      (∀ x, x ≠ id → (j.set_dependency_token { m_token := some id } w).1.tokens.getD x none =
        w.tokens.getD x none) ∧
      ∀ x, (j.set_dependency_token { m_token := some id } w).1.fired x = w.fired x) ∧
    (j.m_callToken.m_token = some id →
      (j.set_dependency_token { m_token := some id } w).1.tokens.getD id none =
        some (n + 1, st) ∧
      (∀ x, x ≠ id → (j.set_dependency_token { m_token := some id } w).1.tokens.getD x none =
        w.tokens.getD x none) ∧
      ∀ x, (j.set_dependency_token { m_token := some id } w).1.fired x = w.fired x) ∧
    (∀ (old m : Nat) (st1 : shared_token), old ≠ id → j.m_callToken.m_token = some old →
      w.tokens.getD old none = some (m + 1, st1) → st1.m_job.m_callToken.m_token = none →
      (j.set_dependency_token { m_token := some id } w).1.tokens.getD id none =
        some (n + 2, st) ∧
      (j.set_dependency_token { m_token := some id } w).1.tokens.getD old none =
        (if m = 0 then none else some (m, st1)) ∧
      (j.set_dependency_token { m_token := some id } w).1.fired old =
        w.fired old + (if m = 0 then 1 else 0) ∧
      (∀ x, x ≠ old → x ≠ id →
        (j.set_dependency_token { m_token := some id } w).1.tokens.getD x none =
          w.tokens.getD x none) ∧
      ∀ x, x ≠ old → (j.set_dependency_token { m_token := some id } w).1.fired x = w.fired x) := by
  have hlt := lt_length_of_getD_some _ _ _ hget
  have hw := set_dependency_token_world j id (n + 1) st w hget
  refine ⟨rfl, rfl, rfl, rfl, ?_, ?_, ?_⟩
  · intro hnone
    rw [hw, drop_empty _ _ hnone]
    refine ⟨getD_set_self _ _ _ _ hlt, fun x hx => getD_set_of_ne _ _ _ _ _ (Ne.symm hx),
      fun x => rfl⟩
  · intro hsame
    have hj : j.m_callToken = { m_token := some id } := by
      cases hc : j.m_callToken with
      | mk t =>
        rw [hc] at hsame
        simp only at hsame
        rw [hsame]
    have hget1 : ({ w with tokens := w.tokens.set id (some (n + 1 + 1, st)) } : World).tokens.getD
        id none = some (n + 2, st) := getD_set_self _ _ _ _ hlt
    rw [hw, hj, drop_shared id (n + 2) _ st hget1 (by omega)]
    refine ⟨?_, fun x hx => ?_, fun x => rfl⟩
    · show ((w.tokens.set id _).set id _).getD id none = _
      rw [getD_set_self _ _ _ _ (by simpa using hlt)]
      rfl
    · show ((w.tokens.set id _).set id _).getD x none = _
      rw [getD_set_of_ne _ _ _ _ _ (Ne.symm hx), getD_set_of_ne _ _ _ _ _ (Ne.symm hx)]
  · intro old m st1 hne hold hgetold hst1
    have hj : j.m_callToken = { m_token := some old } := by
      cases hc : j.m_callToken with
      | mk t =>
        rw [hc] at hold
        simp only at hold
        rw [hold]
    have hget1 : ({ w with tokens := w.tokens.set id (some (n + 1 + 1, st)) } : World).tokens.getD
        old none = some (m + 1, st1) := by
      show (w.tokens.set id _).getD old none = _
      rw [getD_set_of_ne _ _ _ _ _ (Ne.symm hne)]
      exact hgetold
    obtain ⟨h1, h2, h3, _, _⟩ := drop_spec _ old m st1 hst1 hget1
    rw [hw, hj]
    refine ⟨?_, h1, h2, fun x hx hxid => ?_, fun x hx => ?_⟩
    · rw [(h3 id (Ne.symm hne)).1]
      exact getD_set_self _ _ _ _ hlt
    · rw [(h3 x hx).1]
      exact getD_set_of_ne _ _ _ _ _ (Ne.symm hxid)
    · rw [(h3 x hx).2]
      rfl

theorem set_dependency_token_replaces_witness :
    (((job.set_dependency_token {}
        (dependency_token.ctor_runnable (Runnable.function ⟨Callable.user 1, []⟩) {}).2
        (dependency_token.ctor_runnable (Runnable.function ⟨Callable.user 1, []⟩) {}).1).1.tokens.getD
      0 none) = some (2, ({ m_job :=
        { m_runFunc := func.run_runnable, m_deleteFunc := func.delete_runnable,
          m_runnable := some 0 } } : shared_token))) :=
  ((set_dependency_token_replaces {} 0 0
      { m_job := { m_runFunc := func.run_runnable, m_deleteFunc := func.delete_runnable,
                   m_runnable := some 0 } }
      (dependency_token.ctor_runnable (Runnable.function ⟨Callable.user 1, []⟩) {}).1
      (by decide)).2.2.2.2.1 (by decide)).1

end impl
end nova

/-! ## nova::call without runnables -/

namespace nova
namespace impl

theorem pack_runnable_false_from_spec (b : List job) (w : World) :
    ∀ (rs : List Nat) (r : Nat) (pre : List job),
      pack_runnable_false_from
          { jobs := pre ++ List.replicate (r :: rs).length ({} : job), index := pre.length,
            batchJobs := b } w (r :: rs) =
        some (w, { jobs := pre ++ (r :: rs).map job.ctor_pointer,
                   index := pre.length + (r :: rs).length, batchJobs := b }) := by
  have hone : ∀ (r : Nat) (pre rest : List job),
      pack_runnable_false_one
          { jobs := pre ++ ({} : job) :: rest, index := pre.length, batchJobs := b } w r =
        (w, { jobs := pre ++ job.ctor_pointer r :: rest, index := pre.length + 1,
              batchJobs := b }) := by
    intro r pre rest
    unfold pack_runnable_false_one
    have hlt : pre.length < (pre ++ ({} : job) :: rest).length := by simp
    simp only [hlt, if_true, List.set_append_right _ _ (Nat.le_refl pre.length), Nat.sub_self,
      List.set_cons_zero]
  intro rs
  induction rs with
  | nil =>
    intro r pre
    simp only [List.length_singleton, List.replicate_one, List.map_cons, List.map_nil,
      pack_runnable_false_from, hone]
  | cons r1 rs ih =>
    intro r pre
    have hrep : List.replicate (r :: r1 :: rs).length ({} : job) =
        ({} : job) :: List.replicate (r1 :: rs).length ({} : job) := rfl
    rw [hrep]
    simp only [pack_runnable_false_from, hone]
    have := ih r1 (pre ++ [job.ctor_pointer r])
    simp only [List.length_append, List.length_singleton, List.append_assoc,
      List.singleton_append] at this
    rw [this]
    simp only [List.map_cons, List.length_cons, Nat.add_assoc, Nat.add_comm 1]

end impl
end nova

/-! ## Destruction of a job: closure first, token second -/

namespace nova
namespace impl

theorem job_loop_body_world (j : job) (t : Worker) (w : World) :
    (job_loop_body j t w).2 = j.destroy (j.invoke w) := rfl

theorem effect_dependent_token (events : List Event) :
    ∀ t : Worker, (events.foldl Worker.effect t).dependent_token = t.dependent_token := by
  induction events with
  | nil => intro t; rfl
  | cons e events ih =>
    intro t
    rw [List.foldl_cons, ih]
    unfold Worker.effect
    split <;> rfl

theorem invoke_owning_job (addr : Nat) (tok : dependency_token) (f : function) (w : World)
    (hcell : w.cell addr = some (Runnable.function f)) :
    (owning_job addr tok).invoke w =
      w.emit (Event.applied f.m_callable f.m_tuple) := by
  simp only [job.invoke, owning_job, call_func, Option.bind, hcell]

theorem delete_owning_job (addr : Nat) (f : function) (w : World)
    (hcell : w.cell addr = some (Runnable.function f)) :
    call_func func.delete_runnable (some addr) w =
      ({ w with heap := w.heap.set addr none }).emit (Event.deleted addr) := by
  simp only [call_func, hcell]

/-- C17: `~job` runs the delete function on the data pointer and then
releases the token, so the world after destroying `j` is the release applied
to the world after the delete call.  For a job that owns its closure at `addr`
and holds the last handle on latch `id`, the log records the release of the
closure, then the continuation of `id`, then what the continuation job does.
In the body of the loop of `job_loop` both come after `j()` has returned and
after `rp` has reset `dependent_token`: at that point the closure is still in
place and the continuation has not run; after the delete call the closure is
gone and the continuation has still not run; at the end it has run once. -/
theorem job_destroy_deletes_then_drops (addr id : Nat) (f : function) (st : shared_token)
    (t : Worker) (w : World)
    (hcell : w.cell addr = some (Runnable.function f))
    (htok : w.tokens.getD id none = some (1, st))
    (hst : st.m_job.m_callToken.m_token = none)
    (hfired : w.fired id = 0) :
    (∀ (j : job) (w1 : World),
      j.destroy w1 = j.m_callToken.drop (call_func j.m_deleteFunc j.m_runnable w1)) ∧
    (∀ (j : job) (t1 : Worker) (w1 : World),
      (job_loop_returned j t1 w1).1.dependent_token = some j.m_callToken ∧
      (job_loop_returned j t1 w1).2 = j.invoke w1 ∧
      (job_loop_cleared j t1 w1).1.dependent_token = none ∧
      (job_loop_cleared j t1 w1).2 = j.invoke w1 ∧
      (job_loop_deleted j t1 w1).1.dependent_token = none ∧
      (job_loop_deleted j t1 w1).2 = call_func j.m_deleteFunc j.m_runnable (j.invoke w1) ∧
      (job_loop_body j t1 w1).1.dependent_token = none ∧
      (job_loop_body j t1 w1).2 = j.destroy (j.invoke w1)) ∧
    (owning_job addr { m_token := some id }).destroy w =
      call_func st.m_job.m_deleteFunc st.m_job.m_runnable
        (call_func st.m_job.m_runFunc st.m_job.m_runnable
          { w with heap := w.heap.set addr none
                   tokens := w.tokens.set id none
                   log := w.log ++ [Event.deleted addr, Event.continuation id] }) ∧
    ((job_loop_cleared (owning_job addr { m_token := some id }) t w).2.cell
        addr = some (Runnable.function f) ∧
      (job_loop_cleared (owning_job addr { m_token := some id }) t w).2.fired
        id = 0) ∧
    ((job_loop_deleted (owning_job addr { m_token := some id }) t w).2.cell
        addr = none ∧
      (job_loop_deleted (owning_job addr { m_token := some id }) t w).2.fired
        id = 0 ∧
      (job_loop_deleted (owning_job addr { m_token := some id }) t w).2.tokens.getD id none = some (1, st)) ∧
    ((job_loop_body (owning_job addr { m_token := some id }) t w).2.fired
        id = 1 ∧
      (job_loop_body (owning_job addr { m_token := some id }) t w).2.tokens.getD id none = none) := by
  have hlt : addr < w.heap.length := lt_length_of_getD_some _ _ _ hcell
  have hinv : (owning_job addr { m_token := some id }).invoke w =
      w.emit (Event.applied f.m_callable f.m_tuple) := invoke_owning_job addr _ f w hcell
  have hdestroy : ∀ w1 : World, w1.cell addr = some (Runnable.function f) →
      w1.tokens.getD id none = some (1, st) →
      (owning_job addr { m_token := some id }).destroy w1 =
        call_func st.m_job.m_deleteFunc st.m_job.m_runnable
          (call_func st.m_job.m_runFunc st.m_job.m_runnable
            { w1 with heap := w1.heap.set addr none
                      tokens := w1.tokens.set id none
                      log := w1.log ++ [Event.deleted addr, Event.continuation id] }) := by
    intro w1 hc ht
    have hd : (owning_job addr { m_token := some id }).destroy w1 =
        dependency_token.drop { m_token := some id }
          (({ w1 with heap := w1.heap.set addr none }).emit (Event.deleted addr)) := by
      simp only [job.destroy, owning_job, delete_owning_job addr f w1 hc]
    have ht1 : (({ w1 with heap := w1.heap.set addr none }).emit
        (Event.deleted addr)).tokens.getD id none = some (1, st) := ht
    rw [hd, drop_last id _ st ht1 hst]
    simp only [World.emit, List.append_assoc, List.singleton_append]
  have hdel : (job_loop_deleted (owning_job addr { m_token := some id })
      t w).2 = ({ (w.emit (Event.applied f.m_callable f.m_tuple)) with
        heap := w.heap.set addr none }).emit (Event.deleted addr) := by
    show call_func func.delete_runnable (some addr)
      ((owning_job addr { m_token := some id }).invoke w) = _
    rw [hinv]
    exact delete_owning_job addr f _ hcell
  have hfd : (job_loop_deleted (owning_job addr { m_token := some id })
      t w).2.fired id = 0 := by
    rw [hdel]
    simp only [World.fired, World.emit, List.append_assoc, List.count_append] at hfired ⊢
    simp [hfired]
  refine ⟨fun _ _ => rfl, fun j t1 w1 => ?_, hdestroy w hcell htok, ?_, ?_, ?_⟩
  · have h1 : (job_loop_returned j t1 w1).1.dependent_token = some j.m_callToken :=
      effect_dependent_token _ _
    exact ⟨h1, rfl, rfl, rfl, rfl, rfl, rfl, rfl⟩
  · show ((owning_job addr { m_token := some id }).invoke w).cell
        addr = _ ∧
      ((owning_job addr { m_token := some id }).invoke w).fired
        id = 0
    rw [hinv]
    refine ⟨hcell, ?_⟩
    simp only [World.fired, World.emit, List.count_append] at hfired ⊢
    simp [hfired]
  · refine ⟨?_, hfd, ?_⟩
    · rw [hdel]
      exact getD_set_self _ _ _ _ hlt
    · rw [hdel]
      exact htok
  · have hget : (job_loop_deleted (owning_job addr { m_token := some id })
        t w).2.tokens.getD id none = some (0 + 1, st) := by
      rw [hdel]
      exact htok
    obtain ⟨h1, h2, _⟩ := drop_spec _ id 0 st hst hget
    refine ⟨?_, ?_⟩
    · show (dependency_token.drop { m_token := some id } _).fired id = 1
      rw [h2, hfd]
      rfl
    · show (dependency_token.drop { m_token := some id } _).tokens.getD id none = none
      rw [h1]
      rfl

end impl
end nova

namespace nova
namespace impl

theorem job_destroy_deletes_then_drops_witness :
    (job_loop_body (owning_job 0 { m_token := some 0 }) {}
      { heap := [some (Runnable.function ⟨Callable.user 1, []⟩)]
        tokens := [some (1, { m_job := job.ctor_raw (func.raw 5) func.no_op none })] }).2.log =
      [Event.applied (Callable.user 1) [], Event.deleted 0, Event.continuation 0,
        Event.raw_call 5 none] ∧
    (job_loop_body (owning_job 0 { m_token := some 0 }) {}
      { heap := [some (Runnable.function ⟨Callable.user 1, []⟩)]
        tokens := [some (1, { m_job := job.ctor_raw (func.raw 5) func.no_op none })] }).2.fired
      0 = 1 :=
  ⟨by decide,
    (job_destroy_deletes_then_drops 0 0 ⟨Callable.user 1, []⟩
      { m_job := job.ctor_raw (func.raw 5) func.no_op none } {}
      { heap := [some (Runnable.function ⟨Callable.user 1, []⟩)]
        tokens := [some (1, { m_job := job.ctor_raw (func.raw 5) func.no_op none })] }
      (by decide) (by decide) (by decide) (by decide)).2.2.2.2.2.1⟩

end impl
end nova

/-! ## Dependent and independent pushes inside a job -/

namespace nova
namespace impl

end impl
end nova

namespace nova
namespace impl

end impl
end nova

namespace nova
namespace impl

end impl
end nova

/-! ## How many fibers are made -/

namespace nova
namespace impl

theorem sum_map_set {α : Type} (f : α → Nat) :
    ∀ (l : List α) (i : Nat) (a x : α), l[i]? = some a →
      ((l.set i x).map f).sum + f a = (l.map f).sum + f x
  | [], i, a, x, h => by simp at h
  | y :: l, 0, a, x, h => by
    simp only [List.getElem?_cons_zero, Option.some.injEq] at h
    subst h
    simp only [List.set_cons_zero, List.map_cons, List.sum_cons]
    omega
  | y :: l, i + 1, a, x, h => by
    simp only [List.getElem?_cons_succ] at h
    have ih := sum_map_set f l i a x h
    simp only [List.set_cons_succ, List.map_cons, List.sum_cons]
    omega

theorem get_fresh_fiber_count (available_fibers : List Nat) (fibers : List FiberStart) :
    (get_fresh_fiber available_fibers fibers).2.2.length + available_fibers.length =
      fibers.length + (get_fresh_fiber available_fibers fibers).2.1.length + 1 ∧
    (get_fresh_fiber available_fibers fibers).2.2.length =
      fibers.length + (if available_fibers = [] then 1 else 0) := by
  unfold get_fresh_fiber
  cases available_fibers with
  | nil => simp
  | cons a l =>
    have hpos : (a :: l).length > 0 := by simp
    simp only [hpos, if_true, List.length_dropLast, List.length_cons]
    simp
    omega

theorem FiberSys.step_conserved (s : FiberSys) (a : FiberAction) (h : s.Conserved) :
    (s.step a).Conserved := by
  unfold FiberSys.Conserved at h ⊢
  cases a with
  | call thread =>
    simp only [FiberSys.step]
    cases hth : s.threads[thread]? with
    | none => exact h
    | some th =>
      have hsum := sum_map_set (fun th : FiberThread => th.available_fibers.length) s.threads
        thread th
        { current_fiber := (get_fresh_fiber th.available_fibers s.fibers).1
          available_fibers := (get_fresh_fiber th.available_fibers s.fibers).2.1 } hth
      have hg := (get_fresh_fiber_count th.available_fibers s.fibers).1
      simp only [FiberSys.recycled, List.length_set, List.length_append, List.length_singleton]
        at h hsum ⊢
      omega
  | resume thread k =>
    simp only [FiberSys.step]
    cases hth : s.threads[thread]? with
    | none => exact h
    | some th =>
      cases hk : s.suspended[k]? with
      | none => exact h
      | some oldFiber =>
        have hsum := sum_map_set (fun th : FiberThread => th.available_fibers.length) s.threads
          thread th
          { current_fiber := oldFiber
            available_fibers := finish_called_job_mark th.current_fiber th.available_fibers } hth
        have hlt : k < s.suspended.length := by
          rcases List.getElem?_eq_some_iff.mp hk with ⟨hlt, _⟩
          exact hlt
        simp only [FiberSys.recycled, List.length_set, finish_called_job_mark,
          List.length_append, List.length_singleton, List.length_eraseIdx, hlt, if_true]
          at h hsum ⊢
        omega

end impl
end nova

namespace nova
namespace impl

theorem sum_map_eq_zero {α : Type} (f : α → Nat) (l : List α) (h : ∀ x ∈ l, f x = 0) :
    (l.map f).sum = 0 := by
  induction l with
  | nil => rfl
  | cons y l ih =>
    simp only [List.map_cons, List.sum_cons, h y (List.mem_cons_self _ _),
      ih (fun x hx => h x (List.mem_cons_of_mem _ hx))]

theorem FiberSys.init_conserved (worker_count : Nat) :
    (FiberSys.init worker_count).Conserved ∧
    (FiberSys.init worker_count).threads.length = worker_count ∧
    ∀ thread, (FiberSys.init worker_count).OnlyThread thread := by
  have hempty : ∀ th ∈ (FiberSys.init worker_count).threads, th.available_fibers = [] := by
    intro th hth
    simp only [FiberSys.init, List.mem_map] at hth
    obtain ⟨t, _, rfl⟩ := hth
    rfl
  refine ⟨?_, by simp [FiberSys.init], fun thread t th hth _ => hempty th (List.getElem?_mem hth)⟩
  unfold FiberSys.Conserved FiberSys.recycled
  rw [sum_map_eq_zero _ _ (fun th hth => by rw [hempty th hth]; rfl)]
  simp [FiberSys.init]

theorem FiberSys.step_threads_length (s : FiberSys) (a : FiberAction) :
    (s.step a).threads.length = s.threads.length := by
  cases a with
  | call thread =>
    simp only [FiberSys.step]
    split
    · simp only [List.length_set]
    · rfl
  | resume thread k =>
    simp only [FiberSys.step]
    split
    · simp only [List.length_set]
    · rfl

theorem FiberSys.step_outstanding (s : FiberSys) (a : FiberAction)
    (h : s.suspended.length ≤ s.max_outstanding) :
    (s.step a).suspended.length ≤ (s.step a).max_outstanding ∧
    s.max_outstanding ≤ (s.step a).max_outstanding := by
  cases a with
  | call thread =>
    simp only [FiberSys.step]
    split
    · simp only [List.length_append, List.length_singleton]
      omega
    · exact ⟨h, Nat.le_refl _⟩
  | resume thread k =>
    simp only [FiberSys.step]
    split
    · refine ⟨?_, Nat.le_refl _⟩
      simp only [List.length_eraseIdx]
      split <;> omega
    · exact ⟨h, Nat.le_refl _⟩

theorem FiberSys.step_created (s : FiberSys) (thread : Nat) (th : FiberThread)
    (hth : s.threads[thread]? = some th) :
    (s.step (FiberAction.call thread)).fibers.length =
      s.fibers.length + (if th.available_fibers = [] then 1 else 0) ∧
    ∀ k, (s.step (FiberAction.resume thread k)).fibers = s.fibers := by
  constructor
  · simp only [FiberSys.step, hth]
    exact (get_fresh_fiber_count _ _).2
  · intro k
    simp only [FiberSys.step, hth]
    split <;> rfl

theorem FiberSys.step_only_thread (s : FiberSys) (a : FiberAction) (h : s.OnlyThread a.thread) :
    (s.step a).OnlyThread a.thread := by
  intro t th hth hne
  cases a with
  | call thread =>
    have hne1 : t ≠ thread := hne
    simp only [FiberSys.step] at hth
    split at hth
    · simp only [List.getElem?_set_ne (Ne.symm hne1)] at hth
      exact h t th hth hne
    · exact h t th hth hne
  | resume thread k =>
    have hne1 : t ≠ thread := hne
    simp only [FiberSys.step] at hth
    split at hth
    · simp only [List.getElem?_set_ne (Ne.symm hne1)] at hth
      exact h t th hth hne
    · exact h t th hth hne

theorem FiberSys.recycled_of_only_thread (s : FiberSys) (thread : Nat) (th : FiberThread)
    (h : s.OnlyThread thread) (hth : s.threads[thread]? = some th)
    (hempty : th.available_fibers = []) : s.recycled = 0 := by
  unfold FiberSys.recycled
  refine sum_map_eq_zero _ _ (fun x hx => ?_)
  obtain ⟨t, ht⟩ := List.mem_iff_getElem?.mp hx
  by_cases heq : t = thread
  · subst heq
    rw [hth] at ht
    cases ht
    rw [hempty]
    rfl
  · rw [h t x ht heq]
    rfl

theorem FiberSys.step_bound (s : FiberSys) (a : FiberAction) (hc : s.Conserved)
    (ho : s.OnlyThread a.thread) (hs : s.suspended.length ≤ s.max_outstanding)
    (hb : s.fibers.length ≤ s.threads.length + s.max_outstanding) :
    (s.step a).fibers.length ≤ (s.step a).threads.length + (s.step a).max_outstanding := by
  have hlen := FiberSys.step_threads_length s a
  have hmax := FiberSys.step_outstanding s a hs
  cases a with
  | call thread =>
    cases hth : s.threads[thread]? with
    | none =>
      simp only [FiberSys.step, hth]
      exact hb
    | some th =>
      have hnew := (FiberSys.step_created s thread th hth).1
      by_cases hempty : th.available_fibers = []
      · have hrec := FiberSys.recycled_of_only_thread s thread th ho hth hempty
        unfold FiberSys.Conserved at hc
        have hm : s.suspended.length + 1 ≤ (s.step (FiberAction.call thread)).max_outstanding := by
          simp only [FiberSys.step, hth]
          omega
        rw [if_pos hempty] at hnew
        omega
      · rw [if_neg hempty] at hnew
        omega
  | resume thread k =>
    cases hth : s.threads[thread]? with
    | none =>
      simp only [FiberSys.step, hth]
      exact hb
    | some th =>
      have hnew := (FiberSys.step_created s thread th hth).2 k
      rw [hnew, hlen]
      omega

theorem FiberSys.foldl_conserved (acts : List FiberAction) :
    ∀ s : FiberSys, s.Conserved → s.suspended.length ≤ s.max_outstanding →
      (acts.foldl FiberSys.step s).Conserved ∧
      (acts.foldl FiberSys.step s).threads.length = s.threads.length ∧
      (acts.foldl FiberSys.step s).suspended.length ≤
        (acts.foldl FiberSys.step s).max_outstanding := by
  induction acts with
  | nil => intro s hc hs; exact ⟨hc, rfl, hs⟩
  | cons a acts ih =>
    intro s hc hs
    have := ih (s.step a) (FiberSys.step_conserved s a hc) (FiberSys.step_outstanding s a hs).1
    rw [FiberSys.step_threads_length] at this
    exact this

theorem FiberSys.foldl_bound (thread : Nat) (acts : List FiberAction) :
    ∀ s : FiberSys, (∀ a ∈ acts, a.thread = thread) → s.Conserved → s.OnlyThread thread →
      s.suspended.length ≤ s.max_outstanding →
      s.fibers.length ≤ s.threads.length + s.max_outstanding →
      (acts.foldl FiberSys.step s).fibers.length ≤
        s.threads.length + (acts.foldl FiberSys.step s).max_outstanding := by
  induction acts with
  | nil => intro s _ _ _ _ hb; exact hb
  | cons a acts ih =>
    intro s hall hc ho hs hb
    have ha : a.thread = thread := hall a (List.mem_cons_self _ _)
    rw [← ha] at ho
    have h1 := FiberSys.step_bound s a hc ho hs hb
    have h2 := FiberSys.step_only_thread s a ho
    rw [ha] at h2
    have := ih (s.step a) (fun x hx => hall x (List.mem_cons_of_mem _ hx))
      (FiberSys.step_conserved s a hc) h2 (FiberSys.step_outstanding s a hs).1 h1
    rw [FiberSys.step_threads_length] at this
    exact this

/-- C14, where the claim fails: two workers, thread 0 makes a call (fiber 2 is
made), thread 1 dequeues the resume job (its fiber 1 goes to the vector of
thread 1), then thread 0 makes a call again: its own vector is empty, so
fiber 3 is made.  Four fibers exist although never more than one call was
outstanding: more than `worker_count + 1`. -/
theorem fiber_count_exceeds_bound :
    (FiberSys.run 2
      [FiberAction.call 0, FiberAction.resume 1 0, FiberAction.call 0]).fibers.length = 4 ∧
    (FiberSys.run 2
      [FiberAction.call 0, FiberAction.resume 1 0, FiberAction.call 0]).max_outstanding = 1 ∧
    ¬ (FiberSys.run 2
      [FiberAction.call 0, FiberAction.resume 1 0, FiberAction.call 0]).fibers.length ≤
      2 + (FiberSys.run 2
        [FiberAction.call 0, FiberAction.resume 1 0, FiberAction.call 0]).max_outstanding := by
  decide

/-- C14 as amended: in every run the fibers made are the `worker_count`
fibers that the threads run, the fibers suspended in outstanding calls and
the fibers in the vectors of recycled fibers; a call makes a fiber exactly
when the vector of the calling thread is empty, whatever the other vectors
hold, and a resumption makes none.  When one thread issues every call and
dequeues every resume job, the number of fibers made is at most
`worker_count` plus the largest number of calls outstanding at a time. -/
theorem fiber_count_conserved (worker_count thread : Nat) (acts : List FiberAction)
    (hthread : ∀ a ∈ acts, a.thread = thread) :
    (∀ acts1 : List FiberAction,
      (FiberSys.run worker_count acts1).fibers.length =
        worker_count + (FiberSys.run worker_count acts1).suspended.length +
          (FiberSys.run worker_count acts1).recycled ∧
      (FiberSys.run worker_count acts1).threads.length = worker_count ∧
      (FiberSys.run worker_count acts1).suspended.length ≤
        (FiberSys.run worker_count acts1).max_outstanding) ∧
    (∀ (s : FiberSys) (t : Nat) (th : FiberThread), s.threads[t]? = some th →
      (s.step (FiberAction.call t)).fibers.length =
        s.fibers.length + (if th.available_fibers = [] then 1 else 0) ∧
      ∀ k, (s.step (FiberAction.resume t k)).fibers = s.fibers) ∧
    (FiberSys.run worker_count acts).fibers.length ≤
      worker_count + (FiberSys.run worker_count acts).max_outstanding := by
  have hinit := FiberSys.init_conserved worker_count
  have hs0 : (FiberSys.init worker_count).suspended.length ≤
      (FiberSys.init worker_count).max_outstanding := Nat.le_refl _
  refine ⟨fun acts1 => ?_, fun s t th hth => FiberSys.step_created s t th hth, ?_⟩
  · have h : (FiberSys.run worker_count acts1).Conserved ∧
        (FiberSys.run worker_count acts1).threads.length =
          (FiberSys.init worker_count).threads.length ∧
        (FiberSys.run worker_count acts1).suspended.length ≤
          (FiberSys.run worker_count acts1).max_outstanding :=
      FiberSys.foldl_conserved acts1 _ hinit.1 hs0
    unfold FiberSys.Conserved at h
    rw [hinit.2.1] at h
    obtain ⟨h1, h2, h3⟩ := h
    exact ⟨by omega, h2, h3⟩
  · have hb0 : (FiberSys.init worker_count).fibers.length ≤
        (FiberSys.init worker_count).threads.length +
          (FiberSys.init worker_count).max_outstanding := by
      simp [FiberSys.init]
    have h := FiberSys.foldl_bound thread acts _ hthread hinit.1 (hinit.2.2 thread) hs0 hb0
    rw [hinit.2.1] at h
    exact h

theorem fiber_count_conserved_witness :
    (∀ a ∈ [FiberAction.call 0, FiberAction.resume 0 0, FiberAction.call 0],
      a.thread = 0) ∧
    (FiberSys.run 2
      [FiberAction.call 0, FiberAction.resume 0 0, FiberAction.call 0]).fibers.length ≤
      2 + (FiberSys.run 2
        [FiberAction.call 0, FiberAction.resume 0 0, FiberAction.call 0]).max_outstanding :=
  ⟨by decide, (fiber_count_conserved 2 0 _ (by decide)).2.2⟩

end impl
end nova

/-! ## The arming reference of a call -/

namespace nova
namespace impl

theorem Sched.inv_push_with_token (s : Sched) (ToMain : Bool) (id0 : Nat) (jobs : List RawJob)
    (h : ∀ id, s.InvAt id) (hpend : 0 < s.pending id0) :
    ∀ id, (s.push_with_token ToMain { m_token := some id0 } jobs).InvAt id := by
  intro id
  have hpos : s.envelopes id0 + s.pending id0 ≠ 0 := by omega
  obtain ⟨hlt, hf0, st, hget, hst⟩ := s.live_of_holders id0 (h id0) hpos
  have hp := push_with_token_some ToMain id0 _ st (jobs.map RawJob.job) s.world
    (tokenFree_rawJobs jobs) hget
  rw [List.length_map] at hp
  have hlen : (impl.push_with_token ToMain { m_token := some id0 } (jobs.map RawJob.job)
      s.world).tokens.length = s.world.tokens.length := by
    rw [hp.1, List.length_set]
  by_cases hid : id = id0
  · subst hid
    refine Sched.inv_acquire s _ id jobs.length (h id) hpos hlen ?_ (hp.2.1 id) ?_ rfl ?_ rfl
    · intro H st1 hg
      rw [hget] at hg
      simp only [Option.some.injEq, Prod.mk.injEq] at hg
      obtain ⟨rfl, rfl⟩ := hg
      show (impl.push_with_token ToMain { m_token := some id } (jobs.map RawJob.job)
        s.world).tokens.getD id none = _
      rw [hp.1]
      exact getD_set_self _ _ _ _ hlt
    · show (impl.push_with_token ToMain { m_token := some id } (jobs.map RawJob.job)
        s.world).qcount id + s.itercount id = _
      rw [hp.2.2, if_pos rfl]
      simp only [Sched.envelopes]; omega
    · show (s.submitted ++ token_entries { m_token := some id } _).count id = _
      rw [count_token_entries]; simp
  · refine Sched.inv_same s _ id (h id) hlen ?_ (hp.2.1 id) ?_ rfl ?_ rfl
    · show (impl.push_with_token ToMain { m_token := some id0 } (jobs.map RawJob.job)
        s.world).tokens.getD id none = _
      rw [hp.1]
      exact getD_set_of_ne _ _ _ _ _ (Ne.symm hid)
    · show (impl.push_with_token ToMain { m_token := some id0 } (jobs.map RawJob.job)
        s.world).qcount id + s.itercount id = _
      rw [hp.2.2, if_neg hid]; rfl
    · show (s.submitted ++ token_entries { m_token := some id0 } _).count id = _
      rw [count_token_entries]
      have : ¬ (some id0 = some id) := fun hh => hid (Option.some.inj hh).symm
      simp [this]

theorem Sched.pending_pos_of_mem (s : Sched) (c id : Nat)
    (h : s.call_tokens[c]? = some { m_token := some id }) : 0 < s.pending id := by
  simp only [Sched.pending]
  rw [List.countP_pos_iff]
  exact ⟨_, List.getElem?_mem h, by simp⟩

theorem Sched.step_worker_call_tokens (s : Sched) (a : SchedAction)
    (hcall : ∀ T F f p, a ≠ SchedAction.call T F f p)
    (hopen : ∀ i, a ≠ SchedAction.open_call_token i) :
    (s.step a).call_tokens = s.call_tokens := by
  cases a with
  | call T F f p => exact absurd rfl (hcall T F f p)
  | open_call_token i => exact absurd rfl (hopen i)
  | pop thread_id pick =>
    simp only [Sched.step]
    split <;> rfl
  | invoke i =>
    simp only [Sched.step]
    split
    · split <;> rfl
    · rfl
  | push ToMain rs => rfl
  | push_dependent i ToMain rs =>
    simp only [Sched.step]
    split <;> rfl
  | finish i =>
    simp only [Sched.step]
    split
    · split <;> rfl
    · rfl

theorem CallFrame.next_inv (fr : CallFrame) (c id0 : Nat) (s : Sched)
    (h : ∀ id, s.InvAt id) (hdt : s.call_tokens[c]? = some { m_token := some id0 }) :
    (∀ id, (fr.next c { m_token := some id0 } s).1.InvAt id) ∧
    (fr.next c { m_token := some id0 } s).1.call_tokens.length = s.call_tokens.length ∧
    (∀ c1, c1 ≠ c →
      (fr.next c { m_token := some id0 } s).1.call_tokens[c1]? = s.call_tokens[c1]?) ∧
    ((fr.next c { m_token := some id0 } s).2.pc < 4 →
      (fr.next c { m_token := some id0 } s).1.call_tokens[c]? = s.call_tokens[c]?) := by
  have hpend := Sched.pending_pos_of_mem s c id0 hdt
  unfold CallFrame.next
  by_cases h0 : fr.pc = 0
  · rw [if_pos h0]
    cases hp : fr.params with
    | none => exact ⟨h, rfl, fun _ _ => rfl, fun _ => rfl⟩
    | some p =>
      exact ⟨Sched.inv_push_with_token s _ _ _ h hpend, rfl, fun _ _ => rfl, fun _ => rfl⟩
  · rw [if_neg h0]
    by_cases h1 : fr.pc = 1
    · rw [if_pos h1]
      cases hp : fr.params with
      | none => exact ⟨h, rfl, fun _ _ => rfl, fun _ => rfl⟩
      | some p =>
        exact ⟨Sched.inv_push_with_token s _ _ _ h hpend, rfl, fun _ _ => rfl, fun _ => rfl⟩
    · rw [if_neg h1]
      by_cases h2 : fr.pc = 2
      · rw [if_pos h2]
        exact ⟨h, rfl, fun _ _ => rfl, fun _ => rfl⟩
      · rw [if_neg h2]
        by_cases h3 : fr.pc = 3
        · rw [if_pos h3]
          refine ⟨Sched.step_keeps_inv s _ h, ?_, fun c1 hc1 => ?_, fun hlt => ?_⟩
          · simp only [Sched.step, hdt, List.length_set]
          · simp only [Sched.step, hdt]
            exact List.getElem?_set_ne (Ne.symm hc1)
          · exact absurd hlt (Nat.lt_irrefl 4)
        · rw [if_neg h3]
          exact ⟨h, rfl, fun _ _ => rfl, fun _ => rfl⟩

end impl
end nova

namespace nova
namespace impl

theorem set_eq_of_getElem? {α : Type} :
    ∀ (l : List α) (i : Nat) (x : α), l[i]? = some x → l.set i x = l
  | [], _, _, h => by simp at h
  | y :: l, 0, x, h => by
    simp only [List.getElem?_cons_zero, Option.some.injEq] at h
    subst h
    rfl
  | y :: l, i + 1, x, h => by
    simp only [List.getElem?_cons_succ] at h
    simp only [List.set_cons_succ, set_eq_of_getElem? l i x h]

theorem CallSys.step_keeps_call_inv (s : CallSys) (a : CallAction) (h : s.Inv) : (s.step a).Inv := by
  obtain ⟨hinv, hlen, hfr⟩ := h
  cases a with
  | call ToMain FromMain currentFiber params =>
    have hdt := (call_spec ToMain FromMain currentFiber none s.sched.world).1
    refine ⟨Sched.step_keeps_inv _ _ hinv, ?_, ?_⟩
    · simp only [CallSys.step, Sched.step, List.length_append, List.length_singleton, hlen]
    · intro c fr hc hpc
      simp only [CallSys.step, Sched.step] at hc ⊢
      by_cases hlt : c < s.frames.length
      · rw [List.getElem?_append_left hlt] at hc
        obtain ⟨id, hid⟩ := hfr c fr hc hpc
        exact ⟨id, by rw [List.getElem?_append_left (by omega)]; exact hid⟩
      · have hge : s.frames.length ≤ c := Nat.le_of_not_lt hlt
        rw [List.getElem?_append_right hge] at hc
        have hc0 : c - s.frames.length = 0 := by
          by_contra hne
          obtain ⟨k, hk⟩ : ∃ k, c - s.frames.length = k + 1 := ⟨c - s.frames.length - 1, by omega⟩
          rw [hk] at hc
          simp at hc
        have hceq : c = s.sched.call_tokens.length := by omega
        refine ⟨s.sched.world.tokens.length, ?_⟩
        rw [hceq, List.getElem?_append_right (Nat.le_refl _), Nat.sub_self]
        simp only [List.getElem?_cons_zero, Option.some.injEq]
        exact hdt
  | next c =>
    simp only [CallSys.step]
    cases hc : s.frames[c]? with
    | none => exact ⟨hinv, hlen, hfr⟩
    | some fr =>
      cases hd : s.sched.call_tokens[c]? with
      | none => exact ⟨hinv, hlen, hfr⟩
      | some dt =>
        by_cases hpc : fr.pc < 4
        · obtain ⟨id0, hid0⟩ := hfr c fr hc hpc
          rw [hd] at hid0
          cases hid0
          obtain ⟨h1, h2, h3, h4⟩ := CallFrame.next_inv fr c id0 s.sched hinv hd
          refine ⟨h1, ?_, ?_⟩
          · simp only [List.length_set, hlen, h2]
          · intro c1 fr1 hc1 hpc1
            by_cases heq : c1 = c
            · subst heq
              have hltc : c1 < s.frames.length := by
                rcases List.getElem?_eq_some_iff.mp hc with ⟨hl, _⟩
                exact hl
              simp only [List.getElem?_set_self hltc, Option.some.injEq] at hc1
              subst hc1
              exact ⟨id0, by rw [h4 hpc1]; exact hd⟩
            · simp only [List.getElem?_set_ne (Ne.symm heq)] at hc1
              obtain ⟨id, hid⟩ := hfr c1 fr1 hc1 hpc1
              exact ⟨id, by rw [h3 c1 heq]; exact hid⟩
        · have hnext : fr.next c dt s.sched = (s.sched, fr) := by
            unfold CallFrame.next
            rw [if_neg (by omega), if_neg (by omega), if_neg (by omega), if_neg (by omega)]
          simp only [hnext, set_eq_of_getElem? _ _ _ hc]
          exact ⟨hinv, hlen, hfr⟩
  | worker a =>
    cases a with
    | call T F f p => exact ⟨hinv, hlen, hfr⟩
    | open_call_token i => exact ⟨hinv, hlen, hfr⟩
    | pop thread_id pick =>
      have hk := Sched.step_worker_call_tokens s.sched (SchedAction.pop thread_id pick)
        (fun _ _ _ _ hh => by cases hh) (fun _ hh => by cases hh)
      refine ⟨Sched.step_keeps_inv _ _ hinv, ?_, ?_⟩
      · show s.frames.length = (s.sched.step _).call_tokens.length
        rw [hk]; exact hlen
      · intro c fr hc hpc
        show ∃ id, (s.sched.step _).call_tokens[c]? = _
        rw [hk]; exact hfr c fr hc hpc
    | invoke i =>
      have hk := Sched.step_worker_call_tokens s.sched (SchedAction.invoke i)
        (fun _ _ _ _ hh => by cases hh) (fun _ hh => by cases hh)
      refine ⟨Sched.step_keeps_inv _ _ hinv, ?_, ?_⟩
      · show s.frames.length = (s.sched.step _).call_tokens.length
        rw [hk]; exact hlen
      · intro c fr hc hpc
        show ∃ id, (s.sched.step _).call_tokens[c]? = _
        rw [hk]; exact hfr c fr hc hpc
    | push ToMain rs =>
      have hk := Sched.step_worker_call_tokens s.sched (SchedAction.push ToMain rs)
        (fun _ _ _ _ hh => by cases hh) (fun _ hh => by cases hh)
      refine ⟨Sched.step_keeps_inv _ _ hinv, ?_, ?_⟩
      · show s.frames.length = (s.sched.step _).call_tokens.length
        rw [hk]; exact hlen
      · intro c fr hc hpc
        show ∃ id, (s.sched.step _).call_tokens[c]? = _
        rw [hk]; exact hfr c fr hc hpc
    | push_dependent i ToMain rs =>
      have hk := Sched.step_worker_call_tokens s.sched (SchedAction.push_dependent i ToMain rs)
        (fun _ _ _ _ hh => by cases hh) (fun _ hh => by cases hh)
      refine ⟨Sched.step_keeps_inv _ _ hinv, ?_, ?_⟩
      · show s.frames.length = (s.sched.step _).call_tokens.length
        rw [hk]; exact hlen
      · intro c fr hc hpc
        show ∃ id, (s.sched.step _).call_tokens[c]? = _
        rw [hk]; exact hfr c fr hc hpc
    | finish i =>
      have hk := Sched.step_worker_call_tokens s.sched (SchedAction.finish i)
        (fun _ _ _ _ hh => by cases hh) (fun _ hh => by cases hh)
      refine ⟨Sched.step_keeps_inv _ _ hinv, ?_, ?_⟩
      · show s.frames.length = (s.sched.step _).call_tokens.length
        rw [hk]; exact hlen
      · intro c fr hc hpc
        show ∃ id, (s.sched.step _).call_tokens[c]? = _
        rw [hk]; exact hfr c fr hc hpc

theorem CallSys.run_keeps_call_inv (acts : List CallAction) :
    ∀ s : CallSys, s.Inv → (acts.foldl CallSys.step s).Inv := by
  induction acts with
  | nil => intro s h; exact h
  | cons a acts ih => intro s h; exact ih _ (CallSys.step_keeps_call_inv s a h)

theorem CallSys.call_inv_init : ({} : CallSys).Inv :=
  ⟨fun id => Sched.inv_init id, rfl, fun c fr hc _ => by simp at hc⟩

end impl
end nova

namespace nova
namespace impl

/-- C13: in every interleaving of the steps of calls with the steps of the
workers, the token of a call that has not yet taken its step 4 (the `Open` on
the fiber switched to) refers to a latch with a reference count of at least 1
whose continuation has not run, so its resume job has not been enqueued; this
holds in particular before step 3, the fiber switch, however many of the
envelopes already enqueued have been run and destroyed by other workers.
Step 4 is taken only by a call that has taken steps 1 to 3 (both pushes of
`call_push` and the switch to the fresh fiber), and no earlier step of a call
changes a call token. -/
theorem call_token_armed_until_open (acts : List CallAction) (c : Nat) (fr : CallFrame)
    (hfr : (CallSys.run acts).frames[c]? = some fr) (hpc : fr.pc < 4) :
    (∃ (id n : Nat) (st : shared_token),
      (CallSys.run acts).sched.call_tokens[c]? = some { m_token := some id } ∧
      (CallSys.run acts).sched.world.tokens.getD id none = some (n + 1, st) ∧
      (CallSys.run acts).sched.world.fired id = 0) ∧
    (∀ (fr1 : CallFrame) (c1 : Nat) (dt : dependency_token) (s : Sched),
      ((fr1.next c1 dt s).2.pc = 4 → fr1.pc = 3 ∨ fr1.pc = 4) ∧
      (fr1.pc < 3 → (fr1.next c1 dt s).1.call_tokens = s.call_tokens ∧
        (fr1.next c1 dt s).2.pc = fr1.pc + 1)) := by
  have hinv : (CallSys.run acts).Inv := CallSys.run_keeps_call_inv acts {} CallSys.call_inv_init
  constructor
  · obtain ⟨id, hid⟩ := hinv.2.2 c fr hfr hpc
    have hpend := Sched.pending_pos_of_mem _ c id hid
    obtain ⟨_, hf0, st, hget, _⟩ := Sched.live_of_holders _ id (hinv.1 id) (by omega)
    refine ⟨id, (CallSys.run acts).sched.envelopes id + (CallSys.run acts).sched.pending id - 1,
      st, hid, ?_, hf0⟩
    rw [hget]
    congr 2
    omega
  · intro fr1 c1 dt s
    unfold CallFrame.next
    by_cases h0 : fr1.pc = 0
    · rw [if_pos h0]
      refine ⟨fun h => (by cases h), fun _ => ⟨?_, by simp only [h0]⟩⟩
      cases fr1.params <;> rfl
    · rw [if_neg h0]
      by_cases h1 : fr1.pc = 1
      · rw [if_pos h1]
        refine ⟨fun h => (by cases h), fun _ => ⟨?_, by simp only [h1]⟩⟩
        cases fr1.params <;> rfl
      · rw [if_neg h1]
        by_cases h2 : fr1.pc = 2
        · rw [if_pos h2]
          exact ⟨fun h => (by cases h), fun _ => ⟨rfl, by simp only [h2]⟩⟩
        · rw [if_neg h2]
          by_cases h3 : fr1.pc = 3
          · rw [if_pos h3]
            exact ⟨fun _ => Or.inl h3, fun hlt => by omega⟩
          · rw [if_neg h3]
            exact ⟨fun h => Or.inr h, fun hlt => by omega⟩

theorem call_token_armed_until_open_witness :
    ∃ (id n : Nat) (st : shared_token),
      (CallSys.run
        [CallAction.call false false 7 (some ([(func.raw 1, func.no_op, none)], [])),
          CallAction.next 0, CallAction.worker (SchedAction.pop 1 0),
          CallAction.worker (SchedAction.invoke 0),
          CallAction.worker (SchedAction.finish 0)]).sched.call_tokens[0]? =
        some { m_token := some id } ∧
      (CallSys.run
        [CallAction.call false false 7 (some ([(func.raw 1, func.no_op, none)], [])),
          CallAction.next 0, CallAction.worker (SchedAction.pop 1 0),
          CallAction.worker (SchedAction.invoke 0),
          CallAction.worker (SchedAction.finish 0)]).sched.world.tokens.getD id none =
        some (n + 1, st) ∧
      (CallSys.run
        [CallAction.call false false 7 (some ([(func.raw 1, func.no_op, none)], [])),
          CallAction.next 0, CallAction.worker (SchedAction.pop 1 0),
          CallAction.worker (SchedAction.invoke 0),
          CallAction.worker (SchedAction.finish 0)]).sched.world.fired id = 0 :=
  (call_token_armed_until_open
    [CallAction.call false false 7 (some ([(func.raw 1, func.no_op, none)], [])),
      CallAction.next 0, CallAction.worker (SchedAction.pop 1 0),
      CallAction.worker (SchedAction.invoke 0),
      CallAction.worker (SchedAction.finish 0)] 0
    { ToMain := false, params := some ([(func.raw 1, func.no_op, none)], []), pc := 1 }
    (by decide) (by decide)).1

end impl
end nova

/-! ## Kill jobs stop the workers one by one -/

namespace nova
namespace impl

theorem perm_filterMap_set {α β : Type} (f : α → Option β) :
    ∀ (l : List α) (i : Nat) (a x : α), l[i]? = some a →
      List.Perm ((f x).toList ++ l.filterMap f) ((f a).toList ++ (l.set i x).filterMap f)
  | [], i, a, x, h => by simp at h
  | y :: l, 0, a, x, h => by
    simp only [List.getElem?_cons_zero, Option.some.injEq] at h
    subst h
    simp only [List.set_cons_zero, List.filterMap_cons]
    cases hy : f y <;> cases hx : f x <;> simp [List.Perm.swap]
  | y :: l, i + 1, a, x, h => by
    simp only [List.getElem?_cons_succ] at h
    have ih := perm_filterMap_set f l i a x h
    simp only [List.set_cons_succ, List.filterMap_cons]
    cases hy : f y with
    | none => exact ih
    | some b =>
      simp only
      refine List.perm_middle.trans ?_
      exact (List.Perm.cons b ih).trans List.perm_middle.symm

theorem job_loop_body_resume_job (addr : Nat) (f : function) (tl : Worker) (w : World)
    (hcell : w.cell addr = some (Runnable.function f)) :
    job_loop_body (resume_job addr) tl w =
      ({ running := if f.m_callable = Callable.kill_worker then false else tl.running
         dependent_token := none },
       ({ w with heap := w.heap.set addr none
                 log := w.log ++ [Event.applied f.m_callable f.m_tuple] }).emit
          (Event.deleted addr)) := by
  have hinv : (resume_job addr).invoke w = w.emit (Event.applied f.m_callable f.m_tuple) :=
    invoke_owning_job addr {} f w hcell
  have hret : job_loop_returned (resume_job addr) tl w =
      ({ running := if f.m_callable = Callable.kill_worker then false else tl.running
         dependent_token := some {} },
       w.emit (Event.applied f.m_callable f.m_tuple)) := by
    have hdrop : ((resume_job addr).invoke w).log.drop w.log.length =
        [Event.applied f.m_callable f.m_tuple] := by
      rw [hinv]
      exact List.drop_left _ _
    show (List.foldl Worker.effect (raii_ptr.ctor (resume_job addr).m_callToken tl)
        (((resume_job addr).invoke w).log.drop w.log.length), (resume_job addr).invoke w) = _
    rw [hdrop, hinv]
    simp only [List.foldl_cons, List.foldl_nil, raii_ptr.ctor]
    cases hf : f.m_callable <;> simp [Worker.effect, worker_thread.kill_worker, resume_job]
  have hdel : call_func func.delete_runnable (some addr)
      (w.emit (Event.applied f.m_callable f.m_tuple)) =
      ({ (w.emit (Event.applied f.m_callable f.m_tuple)) with
        heap := w.heap.set addr none }).emit (Event.deleted addr) :=
    delete_owning_job addr f _ hcell
  have hd : (resume_job addr).m_deleteFunc = func.delete_runnable := rfl
  have hr : (resume_job addr).m_runnable = some addr := rfl
  have ht : (resume_job addr).m_callToken = { m_token := none } := rfl
  simp only [job_loop_body, job_loop_deleted, job_loop_cleared, hret, raii_ptr.dtor, hd, hr, ht,
    hdel]
  rfl

end impl
end nova

namespace nova
namespace impl

theorem runs_kill_worker_resume_job (w : World) (addr : Nat) (f : function)
    (h : w.cell addr = some (Runnable.function f)) :
    (resume_job addr).runs_kill_worker w = decide (f.m_callable = Callable.kill_worker) := by
  simp only [job.runs_kill_worker, resume_job, Option.bind, h]

theorem runs_kill_worker_congr (w w1 : World) (addr : Nat) (h : w1.cell addr = w.cell addr) :
    (resume_job addr).runs_kill_worker w1 = (resume_job addr).runs_kill_worker w := by
  simp only [job.runs_kill_worker, resume_job, Option.bind, h]

theorem countP_congr_mem {α : Type} (p q : α → Bool) (l : List α) (h : ∀ x ∈ l, p x = q x) :
    l.countP p = l.countP q := by
  induction l with
  | nil => rfl
  | cons y l ih =>
    simp only [List.countP_cons, h y (List.mem_cons_self _ _),
      ih (fun x hx => h x (List.mem_cons_of_mem _ hx))]

theorem WorkerSys.step_push (s : WorkerSys) (ToMain : Bool) (f : function) :
    s.step (WorkerAction.push ToMain f) =
      { s with world := { s.world with
          heap := s.world.heap ++ [some (Runnable.function f)]
          queue := s.world.queue.push ToMain [resume_job s.world.heap.length] } } := by
  simp only [WorkerSys.step, push_independent_single]

theorem WorkerSys.push_inv (s : WorkerSys) (kills : Nat) (ToMain : Bool) (f : function)
    (h : s.Inv kills) :
    (s.step (WorkerAction.push ToMain f)).Inv
      (kills + (if f.m_callable = Callable.kill_worker then 1 else 0)) := by
  obtain ⟨hA, hB, hD, hC⟩ := h
  rw [WorkerSys.step_push]
  have hperm : List.Perm
      (WorkerSys.jobs { s with world := { s.world with
          heap := s.world.heap ++ [some (Runnable.function f)]
          queue := s.world.queue.push ToMain [resume_job s.world.heap.length] } })
      (resume_job s.world.heap.length :: s.jobs) := by
    cases ToMain
    · simp only [WorkerSys.jobs, queue_wrapper.push, mpmc_push, Bool.false_eq_true, if_false,
        List.append_assoc, List.singleton_append]
      exact List.perm_middle
    · simp only [WorkerSys.jobs, queue_wrapper.push, mpmc_push, if_true,
        List.append_assoc, List.singleton_append]
      rw [← List.append_assoc]
      refine List.perm_middle.trans ?_
      rw [List.append_assoc]
  have hold : ∀ j ∈ s.jobs, ∃ (addr : Nat) (f0 : function), j = resume_job addr ∧
      addr < s.world.heap.length ∧ s.world.cell addr = some (Runnable.function f0) ∧
      (s.world.heap ++ [some (Runnable.function f)]).getD addr none = s.world.cell addr := by
    intro j hj
    obtain ⟨addr, f0, rfl, hcell⟩ := hA j hj
    have hlt : addr < s.world.heap.length := lt_length_of_getD_some _ _ _ hcell
    exact ⟨addr, f0, rfl, hlt, hcell, getD_append_of_lt _ _ _ _ hlt⟩
  have hnew : (s.world.heap ++ [some (Runnable.function f)]).getD s.world.heap.length none =
      some (Runnable.function f) := getD_append_length _ _ _
  refine ⟨?_, ?_, hD, ?_⟩
  · intro j hj
    rcases List.mem_cons.mp (hperm.mem_iff.mp hj) with rfl | hj
    · exact ⟨_, f, rfl, hnew⟩
    · obtain ⟨addr, f0, rfl, _, hcell, hkeep⟩ := hold j hj
      exact ⟨addr, f0, rfl, hkeep.trans hcell⟩
  · refine (List.Perm.nodup_iff (hperm.map _)).mpr ?_
    rw [List.map_cons, List.nodup_cons]
    refine ⟨?_, hB⟩
    intro hmem
    obtain ⟨j, hj, heq⟩ := List.mem_map.mp hmem
    obtain ⟨addr, f0, rfl, hlt, _, _⟩ := hold j hj
    simp only [resume_job, Option.some.injEq] at heq
    omega
  · show s.stopped + List.countP _ _ = _
    have hnewc : ({ s.world with
        heap := s.world.heap ++ [some (Runnable.function f)]
        queue := s.world.queue.push ToMain [resume_job s.world.heap.length] } : World).cell
          s.world.heap.length = some (Runnable.function f) := hnew
    rw [hperm.countP_eq, List.countP_cons,
      runs_kill_worker_resume_job _ _ f hnewc,
      countP_congr_mem _ (job.runs_kill_worker s.world) s.jobs]
    · have : s.stopped + s.jobs.countP (job.runs_kill_worker s.world) = kills := hC
      by_cases hk : f.m_callable = Callable.kill_worker
      · simp only [hk, decide_True, if_true]; omega
      · simp only [hk, decide_False, Bool.false_eq_true, if_false]; omega
    · intro j hj
      obtain ⟨addr, f0, rfl, _, _, hkeep⟩ := hold j hj
      exact runs_kill_worker_congr _ _ _ hkeep

end impl
end nova

namespace nova
namespace impl

theorem WorkerSys.loop_test_inv (s : WorkerSys) (kills thread pick : Nat) (h : s.Inv kills) :
    (s.step (WorkerAction.loop_test thread pick)).Inv kills := by
  cases hth : s.threads[thread]? with
  | none => simp only [WorkerSys.step, hth]; exact h
  | some th =>
    cases hj : th.j with
    | some j => simp only [WorkerSys.step, hth, hj]; exact h
    | none =>
      by_cases hr : th.tl.running = true
      · cases hp : job_loop_pop thread pick s.world.queue with
        | none => simp only [WorkerSys.step, hth, hj, hr, if_true, hp]; exact h
        | some r =>
          obtain ⟨item, q⟩ := r
          obtain ⟨hA, hB, hD, hC⟩ := h
          simp only [WorkerSys.step, hth, hj, hr, if_true, hp]
          show WorkerSys.Inv kills
            { world := { s.world with queue := q }
              threads := s.threads.set thread { th with j := some item } }
          have hq := job_loop_pop_perm thread pick _ _ _ hp
          have hf := perm_filterMap_set (fun th : LoopThread => th.j) s.threads thread th
            { th with j := some item } hth
          simp only [hj, Option.toList, List.nil_append, List.singleton_append] at hf
          have hperm : List.Perm
              (WorkerSys.jobs { world := { s.world with queue := q }
                                threads := s.threads.set thread { th with j := some item } })
              s.jobs := by
            show List.Perm (q.m_globalQueue ++ q.m_mainQueue ++
                (s.threads.set thread { th with j := some item }).filterMap fun th => th.j)
              (s.world.queue.m_globalQueue ++ s.world.queue.m_mainQueue ++
                s.threads.filterMap fun th => th.j)
            refine (List.Perm.append_left _ hf.symm).trans ?_
            refine List.perm_middle.trans ?_
            exact List.Perm.append_right _ hq.symm
          have hstop := countP_set (fun th : LoopThread => !th.tl.running) s.threads thread
            { th with j := some item } th hth
          refine ⟨fun j hj1 => hA j (hperm.mem_iff.mp hj1), ?_, ?_, ?_⟩
          · exact (List.Perm.nodup_iff (hperm.map _)).mpr hB
          · intro th1 hth1 hne
            rcases List.mem_or_eq_of_mem_set hth1 with hmem | rfl
            · exact hD th1 hmem hne
            · exact hr
          · show List.countP (fun th : LoopThread => !th.tl.running)
                (s.threads.set thread { th with j := some item }) +
              List.countP (job.runs_kill_worker s.world) _ = kills
            rw [hperm.countP_eq]
            have : s.stopped + s.jobs.countP (job.runs_kill_worker s.world) = kills := hC
            simp only [WorkerSys.stopped] at this
            simp only at hstop
            omega
      · simp only [WorkerSys.step, hth, hj, hr, Bool.false_eq_true, if_false]
        exact h

end impl
end nova

namespace nova
namespace impl

theorem WorkerSys.run_spec (s : WorkerSys) (kills thread : Nat) (th : LoopThread) (j : job)
    (h : s.Inv kills) (hth : s.threads[thread]? = some th) (hj : th.j = some j) :
    ∃ (addr : Nat) (f : function), j = resume_job addr ∧
      s.world.cell addr = some (Runnable.function f) ∧ th.tl.running = true ∧
      s.step (WorkerAction.run thread) =
        { world := ({ s.world with
            heap := s.world.heap.set addr none
            log := s.world.log ++ [Event.applied f.m_callable f.m_tuple] }).emit
              (Event.deleted addr)
          threads := s.threads.set thread
            { tl := { running := if f.m_callable = Callable.kill_worker then false else true
                      dependent_token := none }
              j := none } } := by
  obtain ⟨hA, _, hD, _⟩ := h
  have hthm : th ∈ s.threads := List.getElem?_mem hth
  have hmem : j ∈ s.jobs := by
    simp only [WorkerSys.jobs, List.mem_append, List.mem_filterMap]
    exact Or.inr ⟨th, hthm, hj⟩
  obtain ⟨addr, f, rfl, hcell⟩ := hA j hmem
  have hrun : th.tl.running = true := hD th hthm (by rw [hj]; exact fun hh => by cases hh)
  refine ⟨addr, f, rfl, hcell, hrun, ?_⟩
  simp only [WorkerSys.step, hth, hj, job_loop_body_resume_job addr f th.tl s.world hcell, hrun]

theorem WorkerSys.run_inv (s : WorkerSys) (kills thread : Nat) (h : s.Inv kills) :
    (s.step (WorkerAction.run thread)).Inv kills := by
  cases hth : s.threads[thread]? with
  | none => simp only [WorkerSys.step, hth]; exact h
  | some th =>
    cases hj : th.j with
    | none => simp only [WorkerSys.step, hth, hj]; exact h
    | some j =>
      obtain ⟨addr, f, rfl, hcell, hrun, hstep⟩ := WorkerSys.run_spec s kills thread th j h hth hj
      obtain ⟨hA, hB, hD, hC⟩ := h
      rw [hstep]
      have hf := perm_filterMap_set (fun th : LoopThread => th.j) s.threads thread th
        { tl := { running := if f.m_callable = Callable.kill_worker then false else true
                  dependent_token := none }
          j := none } hth
      simp only [hj, Option.toList, List.nil_append, List.singleton_append] at hf
      have hperm : List.Perm s.jobs
          (resume_job addr :: (s.world.queue.m_globalQueue ++ s.world.queue.m_mainQueue ++
            (s.threads.set thread
              { tl := { running := if f.m_callable = Callable.kill_worker then false else true
                        dependent_token := none }
                j := none }).filterMap fun th => th.j)) := by
        show List.Perm (s.world.queue.m_globalQueue ++ s.world.queue.m_mainQueue ++
          s.threads.filterMap fun th => th.j) _
        exact (List.Perm.append_left _ hf).trans List.perm_middle
      have hnd := (List.Perm.nodup_iff (hperm.map fun j => j.m_runnable)).mp hB
      rw [List.map_cons, List.nodup_cons] at hnd
      have hkeep : ∀ j1 ∈ (s.world.queue.m_globalQueue ++ s.world.queue.m_mainQueue ++
          (s.threads.set thread
            { tl := { running := if f.m_callable = Callable.kill_worker then false else true
                      dependent_token := none }
              j := none }).filterMap fun th => th.j),
          ∃ (addr1 : Nat) (f1 : function), j1 = resume_job addr1 ∧
            s.world.cell addr1 = some (Runnable.function f1) ∧
            (s.world.heap.set addr none).getD addr1 none = s.world.cell addr1 := by
        intro j1 hj1
        obtain ⟨addr1, f1, rfl, hcell1⟩ := hA _ (hperm.mem_iff.mpr (List.mem_cons_of_mem _ hj1))
        refine ⟨addr1, f1, rfl, hcell1, getD_set_of_ne _ _ _ _ _ ?_⟩
        intro heq
        subst heq
        exact hnd.1 (List.mem_map.mpr ⟨_, hj1, rfl⟩)
      have hstop := countP_set (fun th : LoopThread => !th.tl.running) s.threads thread
        { tl := { running := if f.m_callable = Callable.kill_worker then false else true
                  dependent_token := none }
          j := none } th hth
      refine ⟨?_, hnd.2, ?_, ?_⟩
      · intro j1 hj1
        obtain ⟨addr1, f1, rfl, hcell1, hk⟩ := hkeep j1 hj1
        exact ⟨addr1, f1, rfl, hk.trans hcell1⟩
      · intro th1 hth1 hne
        rcases List.mem_or_eq_of_mem_set hth1 with hmem | rfl
        · exact hD th1 hmem hne
        · exact absurd rfl hne
      · have hc : s.stopped + s.jobs.countP (job.runs_kill_worker s.world) = kills := hC
        rw [hperm.countP_eq, List.countP_cons, runs_kill_worker_resume_job _ _ f hcell] at hc
        show List.countP (fun th : LoopThread => !th.tl.running) (s.threads.set thread _) +
          List.countP (job.runs_kill_worker _)
            (s.world.queue.m_globalQueue ++ s.world.queue.m_mainQueue ++
              (s.threads.set thread _).filterMap fun th => th.j) = kills
        rw [countP_congr_mem _ (job.runs_kill_worker s.world) _ (fun j1 hj1 => by
          obtain ⟨addr1, f1, rfl, _, hk⟩ := hkeep j1 hj1
          exact runs_kill_worker_congr _ _ _ hk)]
        simp only [WorkerSys.stopped] at hc
        simp only [hrun] at hstop
        by_cases hk : f.m_callable = Callable.kill_worker
        · simp only [hk, decide_True, if_true, Bool.not_false, Bool.not_true,
            Bool.false_eq_true, if_false] at hc hstop ⊢
          omega
        · simp only [hk, decide_False, if_false, Bool.not_true, Bool.false_eq_true] at hc hstop ⊢
          omega

end impl
end nova

namespace nova
namespace impl

theorem WorkerSys.step_keeps_worker_inv (s : WorkerSys) (a : WorkerAction) (kills : Nat) (h : s.Inv kills) :
    (s.step a).Inv (kills + (if a.pushes_kill then 1 else 0)) := by
  cases a with
  | loop_test thread pick => exact WorkerSys.loop_test_inv s kills thread pick h
  | run thread => exact WorkerSys.run_inv s kills thread h
  | push ToMain f =>
    have := WorkerSys.push_inv s kills ToMain f h
    simpa [WorkerAction.pushes_kill] using this

theorem WorkerSys.run_keeps_worker_inv (acts : List WorkerAction) :
    ∀ (s : WorkerSys) (kills : Nat), s.Inv kills →
      (acts.foldl WorkerSys.step s).Inv (kills + acts.countP WorkerAction.pushes_kill) := by
  induction acts with
  | nil => intro s kills h; exact h
  | cons a acts ih =>
    intro s kills h
    have := ih (s.step a) _ (WorkerSys.step_keeps_worker_inv s a kills h)
    rw [List.foldl_cons, List.countP_cons]
    have heq : kills + (acts.countP WorkerAction.pushes_kill +
        (if a.pushes_kill = true then 1 else 0)) =
        kills + (if a.pushes_kill = true then 1 else 0) +
          acts.countP WorkerAction.pushes_kill := by omega
    rw [heq]
    exact this

theorem WorkerSys.worker_inv_init (worker_count : Nat) : (WorkerSys.init worker_count).Inv 0 := by
  have hth : ∀ th ∈ (WorkerSys.init worker_count).threads, th = ({} : LoopThread) :=
    fun th hth => List.eq_of_mem_replicate hth
  have hjobs : (WorkerSys.init worker_count).jobs = [] := by
    simp only [WorkerSys.jobs, WorkerSys.init, List.nil_append, List.filterMap_eq_nil_iff]
    intro th hth
    rw [List.eq_of_mem_replicate hth]
  refine ⟨?_, ?_, ?_, ?_⟩
  · intro j hj
    rw [hjobs] at hj
    cases hj
  · rw [hjobs]
    exact List.nodup_nil
  · intro th hmem _
    rw [hth th hmem]
  · simp only [WorkerSys.kill_jobs, hjobs, List.countP_nil, Nat.add_zero, WorkerSys.stopped,
      List.countP_eq_zero]
    intro th hmem
    rw [hth th hmem]
    decide

theorem kill_all_workers_loop_spec (thread_count : Nat) (hN : thread_count < UINT_MOD) :
    ∀ (fuel c : Nat) (w : World), c ≤ thread_count → thread_count - c < fuel →
      kill_all_workers_loop thread_count fuel c w =
        (push_independent false [RunnableArg.plain ⟨Callable.kill_worker, []⟩])^[thread_count - c]
          w := by
  intro fuel
  induction fuel with
  | zero => intro c w _ h; omega
  | succ fuel ih =>
    intro c w hc hf
    simp only [kill_all_workers_loop]
    by_cases hlt : c < thread_count
    · rw [if_pos hlt, Nat.mod_eq_of_lt (by omega), ih (c + 1) _ (by omega) (by omega)]
      have : thread_count - c = (thread_count - (c + 1)) + 1 := by omega
      rw [this, Function.iterate_succ_apply]
    · rw [if_neg hlt]
      have : thread_count - c = 0 := by omega
      rw [this]
      rfl

theorem WorkerSys.foldl_push_kill (n : Nat) :
    ∀ s : WorkerSys,
      ((List.replicate n (WorkerAction.push false ⟨Callable.kill_worker, []⟩)).foldl
        WorkerSys.step s).world =
      (push_independent false [RunnableArg.plain ⟨Callable.kill_worker, []⟩])^[n] s.world := by
  induction n with
  | zero => intro s; rfl
  | succ n ih =>
    intro s
    rw [List.replicate_succ, List.foldl_cons, ih, Function.iterate_succ_apply]
    rfl

end impl
end nova

namespace nova
namespace impl

/-- C12: in every state that the workers reach, a worker that runs a kill job
had found its flag true, ends the body with the kill job destroyed and its own
flag false, and leaves the flags and loop states of all other workers as they
were, so exactly one more worker is stopped; every later loop test of that
worker finds the flag false and pops nothing.  At any time the workers stopped
and the kill jobs still queued or being run add up to the kill jobs pushed.
`kill_all_workers` with a thread count `N` pushes `N` kill jobs on the global
queue, one push each: once they have all been run, `N` workers are stopped. -/
theorem kill_job_stops_one_worker :
    (∀ (worker_count : Nat) (acts : List WorkerAction) (thread : Nat) (th : LoopThread)
      (j : job),
      (WorkerSys.run worker_count acts).threads[thread]? = some th → th.j = some j →
      j.runs_kill_worker (WorkerSys.run worker_count acts).world = true →
      th.tl.running = true ∧
      ((WorkerSys.run worker_count acts).step (WorkerAction.run thread)).threads[thread]? =
        some { tl := { running := false, dependent_token := none }, j := none } ∧
      (∀ t, t ≠ thread →
        ((WorkerSys.run worker_count acts).step (WorkerAction.run thread)).threads[t]? =
          (WorkerSys.run worker_count acts).threads[t]?) ∧
      ((WorkerSys.run worker_count acts).step (WorkerAction.run thread)).stopped =
        (WorkerSys.run worker_count acts).stopped + 1 ∧
      ((WorkerSys.run worker_count acts).step (WorkerAction.run thread)).kill_jobs + 1 =
        (WorkerSys.run worker_count acts).kill_jobs) ∧
    (∀ (s : WorkerSys) (thread pick : Nat) (th : LoopThread),
      s.threads[thread]? = some th → th.tl.running = false →
      s.step (WorkerAction.loop_test thread pick) = s) ∧
    (∀ (worker_count : Nat) (acts : List WorkerAction),
      (WorkerSys.run worker_count acts).stopped + (WorkerSys.run worker_count acts).kill_jobs =
        acts.countP WorkerAction.pushes_kill) ∧
    (∀ (s : WorkerSys) (thread_count : Nat), thread_count < UINT_MOD →
      nova.kill_all_workers thread_count s.world =
        ((List.replicate thread_count
          (WorkerAction.push false ⟨Callable.kill_worker, []⟩)).foldl WorkerSys.step s).world ∧
      (List.replicate thread_count
        (WorkerAction.push false ⟨Callable.kill_worker, []⟩)).countP WorkerAction.pushes_kill =
        thread_count) := by
  have hreach : ∀ (worker_count : Nat) (acts : List WorkerAction),
      (WorkerSys.run worker_count acts).Inv (acts.countP WorkerAction.pushes_kill) := by
    intro worker_count acts
    have := WorkerSys.run_keeps_worker_inv acts _ 0 (WorkerSys.worker_inv_init worker_count)
    rw [Nat.zero_add] at this
    exact this
  refine ⟨?_, ?_, fun worker_count acts => (hreach worker_count acts).2.2.2, ?_⟩
  · intro worker_count acts thread th j hth hj hkill
    have hinv := hreach worker_count acts
    obtain ⟨addr, f, rfl, hcell, hrun, hstep⟩ :=
      WorkerSys.run_spec _ _ thread th j hinv hth hj
    have hk : f.m_callable = Callable.kill_worker := by
      rw [runs_kill_worker_resume_job _ _ f hcell] at hkill
      exact of_decide_eq_true hkill
    have hlt : thread < (WorkerSys.run worker_count acts).threads.length := by
      rcases List.getElem?_eq_some_iff.mp hth with ⟨hl, _⟩
      exact hl
    have hnext := WorkerSys.run_inv _ _ thread hinv
    have hsum1 := hnext.2.2.2
    have hsum0 := hinv.2.2.2
    have hstop := countP_set (fun th : LoopThread => !th.tl.running)
      (WorkerSys.run worker_count acts).threads thread
      { tl := { running := false, dependent_token := none }, j := none } th hth
    simp only [hrun, Bool.not_true, Bool.false_eq_true, if_false, Bool.not_false, if_true,
      Nat.add_zero] at hstop
    have hstopped : ((WorkerSys.run worker_count acts).step (WorkerAction.run thread)).stopped =
        (WorkerSys.run worker_count acts).stopped + 1 := by
      rw [hstep]
      simp only [hk, if_true]
      exact hstop
    refine ⟨hrun, ?_, ?_, hstopped, by omega⟩
    · rw [hstep]
      simp only [hk, if_true, List.getElem?_set_self hlt]
    · intro t ht
      rw [hstep]
      exact List.getElem?_set_ne (Ne.symm ht)
  · intro s thread pick th hth hrun
    simp only [WorkerSys.step, hth, hrun, Bool.false_eq_true, if_false]
    cases th.j <;> rfl
  · intro s thread_count hN
    refine ⟨?_, ?_⟩
    · rw [WorkerSys.foldl_push_kill]
      have := kill_all_workers_loop_spec thread_count hN (thread_count + 1) 0 s.world
        (Nat.zero_le _) (by omega)
      rw [Nat.sub_zero] at this
      exact this
    · rw [List.countP_replicate]
      simp [WorkerAction.pushes_kill]

theorem kill_job_stops_one_worker_witness :
    (WorkerSys.run 2
      [WorkerAction.push false ⟨Callable.kill_worker, []⟩,
        WorkerAction.push false ⟨Callable.kill_worker, []⟩,
        WorkerAction.loop_test 0 0, WorkerAction.run 0,
        WorkerAction.loop_test 1 0, WorkerAction.run 1]).kill_jobs = 0 ∧
    (WorkerSys.run 2
      [WorkerAction.push false ⟨Callable.kill_worker, []⟩,
        WorkerAction.push false ⟨Callable.kill_worker, []⟩,
        WorkerAction.loop_test 0 0, WorkerAction.run 0,
        WorkerAction.loop_test 1 0, WorkerAction.run 1]).stopped +
      (WorkerSys.run 2
        [WorkerAction.push false ⟨Callable.kill_worker, []⟩,
          WorkerAction.push false ⟨Callable.kill_worker, []⟩,
          WorkerAction.loop_test 0 0, WorkerAction.run 0,
          WorkerAction.loop_test 1 0, WorkerAction.run 1]).kill_jobs = 2 :=
  ⟨by decide, kill_job_stops_one_worker.2.2.1 2 _⟩

end impl
end nova

/-! ## A push between the failed try-pop and the sleep -/

namespace nova
namespace impl

theorem job_loop_pop_empty {T : Type} (thread_id pick : Nat) (q : queue_wrapper T)
    (hg : q.m_globalQueue = []) (hm : q.m_mainQueue = []) :
    job_loop_pop thread_id pick q = none := by
  unfold job_loop_pop queue_wrapper.pop_main queue_wrapper.pop
  rw [hg, hm]
  split <;> rfl

theorem PopState.spin {T : Type} (pick : Nat) :
    ∀ (k : Nat) (s : PopState T), s.queue.m_globalQueue = [] → s.queue.m_mainQueue = [] →
      s.phase = PopPhase.test → s.counter + k ≤ SPIN_COUNT + 1 →
      s.run (List.replicate (2 * k) (PopAction.consumer pick)) =
        { s with counter := s.counter + k } := by
  intro k
  induction k with
  | zero => intro s _ _ _ _; rfl
  | succ k ih =>
    intro s hg hm hp hc
    have hrep : List.replicate (2 * (k + 1)) (PopAction.consumer pick : PopAction T) =
        PopAction.consumer pick :: PopAction.consumer pick ::
          List.replicate (2 * k) (PopAction.consumer pick) := by
      have : 2 * (k + 1) = 2 * k + 1 + 1 := by omega
      rw [this, List.replicate_succ, List.replicate_succ]
    have h1 : s.step (PopAction.consumer pick) = { s with phase := PopPhase.body } := by
      simp only [PopState.step, hp, job_loop_pop_empty s.thread_id pick s.queue hg hm]
    have hle : ¬ s.counter > SPIN_COUNT := by omega
    have hmod : (s.counter + 1) % UINT_MOD = s.counter + 1 := by
      apply Nat.mod_eq_of_lt
      rw [uint_mod_eq]
      simp only [SPIN_COUNT] at hc
      omega
    have h2 : ({ s with phase := PopPhase.body } : PopState T).step (PopAction.consumer pick) =
        { s with counter := s.counter + 1 } := by
      simp only [PopState.step, hle, if_false, hmod, hp]
    rw [hrep]
    simp only [PopState.run, List.foldl_cons, h1, h2]
    have := ih { s with counter := s.counter + 1 } hg hm hp (by simp only; omega)
    simp only [PopState.run] at this
    rw [this]
    simp only [Nat.add_assoc, Nat.add_comm 1 k]

theorem PopState.asleep {T : Type} (s : PopState T) (hp : s.phase = PopPhase.sleeping) :
    ∀ picks : List Nat, s.run (picks.map PopAction.consumer) = s := by
  intro picks
  induction picks with
  | nil => rfl
  | cons p picks ih =>
    have h1 : s.step (PopAction.consumer p) = s := by
      simp only [PopState.step, hp]
    simp only [PopState.run, List.map_cons, List.foldl_cons, h1]
    exact ih

/-- C15, the interleaving in which the wakeup is lost: a consumer (in `pop`,
or in `pop_main` when `thread_id` is 0) has spun until its counter exceeds
`SPIN_COUNT` and its try-pop fails once more; a push then enqueues `item` on
the global queue and calls `WakeConditionVariable` while nobody is blocked;
the consumer then enters `SleepConditionVariableCS(.., INFINITE)`.  The global
queue holds `item`, the consumer is blocked without an item, and whatever
number of steps it is given afterwards, with no further push, it stays
blocked and the item stays queued. -/
theorem pop_sleeps_on_nonempty_queue {T : Type} (thread_id pick : Nat) (item : T) :
    (PopState.run { thread_id := thread_id } (PopAction.late_push pick item)).phase =
      PopPhase.sleeping ∧
    (PopState.run { thread_id := thread_id }
      (PopAction.late_push pick item)).queue.m_globalQueue = [item] ∧
    (PopState.run { thread_id := thread_id } (PopAction.late_push pick item)).item = none ∧
    ∀ picks : List Nat,
      (PopState.run { thread_id := thread_id } (PopAction.late_push pick item)).run
        (picks.map PopAction.consumer) =
      PopState.run { thread_id := thread_id } (PopAction.late_push pick item) := by
  have hspin := PopState.spin pick (SPIN_COUNT + 1) ({ thread_id := thread_id } : PopState T)
    rfl rfl rfl (by simp)
  have hrun : PopState.run ({ thread_id := thread_id } : PopState T)
      (PopAction.late_push pick item) =
      { queue := { m_globalQueue := [item], m_mainQueue := [] }, thread_id := thread_id,
        counter := 0, phase := PopPhase.sleeping, item := none } := by
    unfold PopAction.late_push
    simp only [PopState.run, List.foldl_append] at hspin ⊢
    rw [hspin]
    simp [PopState.step, job_loop_pop_empty, SPIN_COUNT, queue_wrapper.push, mpmc_push]
  refine ⟨by rw [hrun], by rw [hrun], by rw [hrun], ?_⟩
  exact PopState.asleep _ (by rw [hrun])

end impl
end nova

/-! ## Open on an empty or opened handle -/

namespace nova
namespace impl

/-- C28: `Open` on a default constructed handle changes nothing; `Open`
leaves the handle empty, so a second `Open`, or the destruction of the handle,
after it changes nothing more, and `Open` itself does to the memory what
dropping the handle once does.  For a handle on a live latch `id` with
reference count `h + 1` (whose continuation job holds no token itself), after
`Open` followed by `Open` the count is `h`, or the latch is gone when `h` is 0,
and the continuation has run once more exactly when `h` is 0. -/
theorem open_is_idempotent (t : dependency_token) (w : World) :
    ({} : dependency_token).Open w = (w, {}) ∧
    (t.Open w).2 = { m_token := none } ∧
    (t.Open w).2.Open (t.Open w).1 = t.Open w ∧
    (t.Open w).2.drop (t.Open w).1 = (t.Open w).1 ∧
    (t.Open w).1 = t.drop w ∧
    (∀ w1 : World, (t.Open w).2.Open w1 = (w1, { m_token := none })) ∧
    (∀ (id h : Nat) (st : shared_token), t.m_token = some id →
      w.tokens.getD id none = some (h + 1, st) → st.m_job.m_callToken.m_token = none →
      ((t.Open w).2.Open (t.Open w).1).1.tokens.getD id none =
        (if h = 0 then none else some (h, st)) ∧
      ((t.Open w).2.Open (t.Open w).1).1.fired id = w.fired id + (if h = 0 then 1 else 0) ∧
      (∀ x, x ≠ id →
        ((t.Open w).2.Open (t.Open w).1).1.tokens.getD x none = w.tokens.getD x none ∧
        ((t.Open w).2.Open (t.Open w).1).1.fired x = w.fired x)) := by
  refine ⟨rfl, rfl, rfl, rfl, rfl, fun _ => rfl, ?_⟩
  intro id h st ht hget hst
  have hteq := token_eq_of_m_token t _ ht
  obtain ⟨h1, h2, h3, _, _⟩ := drop_spec w id h st hst hget
  have hw : ((t.Open w).2.Open (t.Open w).1).1 =
      dependency_token.drop { m_token := some id } w := by
    rw [hteq]
    rfl
  rw [hw]
  exact ⟨h1, h2, h3⟩

theorem open_is_idempotent_witness :
    ((((dependency_token.ctor_runnable (Runnable.function ⟨Callable.user 1, []⟩) {}).2.Open
        (dependency_token.ctor_runnable (Runnable.function ⟨Callable.user 1, []⟩) {}).1).2.Open
      ((dependency_token.ctor_runnable (Runnable.function ⟨Callable.user 1, []⟩) {}).2.Open
        (dependency_token.ctor_runnable (Runnable.function ⟨Callable.user 1, []⟩) {}).1).1).1.fired
      0) = 0 + 1 :=
  ((open_is_idempotent
      (dependency_token.ctor_runnable (Runnable.function ⟨Callable.user 1, []⟩) {}).2
      (dependency_token.ctor_runnable (Runnable.function ⟨Callable.user 1, []⟩) {}).1).2.2.2.2.2.2
    0 0 { m_job := { m_runFunc := func.run_runnable, m_deleteFunc := func.delete_runnable,
                     m_runnable := some 0 } }
    (by decide) (by decide) (by decide)).2.1

end impl
end nova

/-! ## Thread ids -/

namespace nova
namespace impl

theorem worker_thread.spawn_spec :
    ∀ (n c : Nat), c + n < SIZE_MOD →
      worker_thread.spawn n c = (List.range' c n, c + n) := by
  intro n
  induction n with
  | zero => intro c _; rfl
  | succ n ih =>
    intro c hc
    have hmod : (c + 1) % SIZE_MOD = c + 1 := Nat.mod_eq_of_lt (by omega)
    simp only [worker_thread.spawn, worker_thread.init_thread, hmod, ih (c + 1) (by omega),
      List.range'_succ]
    have : c + 1 + n = c + (n + 1) := by omega
    rw [this]

/-- C22: when `n` workers pass the locked block of `init_thread` one after the
other, starting from the initial count 1, the `k`-th of them (counting from 1)
receives thread id `k` and leaves the count at `k + 1`; the ids are 1 to `n`,
pairwise distinct and none 0; after a start with `N >= 1` threads has spawned
its `N - 1` workers the count is `N`.  The legacy `InitThread` assigns the
count as id and increments it in the same way. -/
theorem init_thread_assigns_ids (n : Nat) (hn : n + 1 < SIZE_MOD) :
    (worker_thread.spawn n 1).1 = List.range' 1 n ∧
    (worker_thread.spawn n 1).2 = n + 1 ∧
    (∀ k, 1 ≤ k → k ≤ n →
      (worker_thread.spawn n 1).1.getD (k - 1) 0 = k ∧
      worker_thread.init_thread (worker_thread.spawn (k - 1) 1).2 = (k, k + 1)) ∧
    (worker_thread.spawn n 1).1.Nodup ∧
    0 ∉ (worker_thread.spawn n 1).1 ∧
    worker_thread.thread_count_after n = (worker_thread.spawn n 1).2 ∧
    (∀ N, 1 ≤ N → N < UINT_MOD →
      start_worker_count N = N - 1 ∧ (worker_thread.spawn (start_worker_count N) 1).2 = N) ∧
    (∀ c, c + 1 < UINT_MOD → Nova.WorkerThread.InitThread c = (c, c + 1)) := by
  have hspawn := worker_thread.spawn_spec n 1 (by omega)
  have hcount : ∀ m, m + 1 < SIZE_MOD → worker_thread.thread_count_after m = m + 1 := by
    intro m
    induction m with
    | zero => intro _; rfl
    | succ m ih =>
      intro hm
      simp only [worker_thread.thread_count_after, worker_thread.init_thread, ih (by omega)]
      exact Nat.mod_eq_of_lt hm
  refine ⟨by rw [hspawn], by rw [hspawn]; omega, ?_, ?_, ?_, ?_, ?_, ?_⟩
  · intro k hk1 hkn
    constructor
    · rw [hspawn]
      simp only [List.getD_eq_getElem?_getD]
      rw [List.getElem?_range' 1 1 (show k - 1 < n by omega)]
      simp only [Option.getD_some]
      omega
    · rw [worker_thread.spawn_spec (k - 1) 1 (by omega)]
      simp only [worker_thread.init_thread]
      have h1 : 1 + (k - 1) = k := by omega
      rw [h1, Nat.mod_eq_of_lt (by omega)]
  · rw [hspawn]
    exact List.nodup_range' 1 n
  · rw [hspawn, List.mem_range'_1]
    omega
  · rw [hcount n hn, hspawn]
    omega
  · intro N hN1 hN
    have hsize : UINT_MOD < SIZE_MOD := by rw [uint_mod_eq, size_mod_eq]; decide
    have hw : start_worker_count N = N - 1 := by
      unfold start_worker_count
      have : N + UINT_MOD - 1 = (N - 1) + UINT_MOD := by omega
      rw [this, Nat.add_mod_right]
      exact Nat.mod_eq_of_lt (by omega)
    refine ⟨hw, ?_⟩
    rw [hw, worker_thread.spawn_spec (N - 1) 1 (by omega)]
    show 1 + (N - 1) = N
    omega
  · intro c hc
    simp only [Nova.WorkerThread.InitThread, Nat.mod_eq_of_lt hc]

theorem init_thread_assigns_ids_witness :
    3 + 1 < SIZE_MOD ∧ (worker_thread.spawn 3 1).1 = [1, 2, 3] ∧
      (worker_thread.spawn 3 1).2 = 4 :=
  ⟨by rw [size_mod_eq]; decide,
    (init_thread_assigns_ids 3 (by rw [size_mod_eq]; decide)).1,
    (init_thread_assigns_ids 3 (by rw [size_mod_eq]; decide)).2.1⟩

end impl
end nova

/-! ## Subranges of almost equal size -/

namespace nova
namespace impl

end impl
end nova

/-! ## Invocations past the last section -/

namespace nova
namespace impl

end impl
end nova

namespace nova
namespace impl

end impl
end nova

/-! ## The legacy SplitBatchJob returns twice the envelopes -/

namespace Nova

theorem Queue.split_loop_legacy_spec (sections : Nat) (gj : Envelope)
    (hs : sections + 1 < nova.UINT_MOD) :
    ∀ (m fuel section_ : Nat) (jobs : List Envelope),
      section_ + m = sections + 1 → 1 ≤ section_ → m + 1 ≤ fuel →
      Queue.split_loop sections gj fuel section_ jobs = some (jobs ++ List.replicate m gj) := by
  intro m
  induction m with
  | zero =>
    intro fuel section_ jobs hsum _ hf
    obtain ⟨f, rfl⟩ : ∃ f, fuel = f + 1 := ⟨fuel - 1, by omega⟩
    simp only [Queue.split_loop]
    rw [if_neg (by omega)]
    simp
  | succ m ih =>
    intro fuel section_ jobs hsum h1 hf
    obtain ⟨f, rfl⟩ : ∃ f, fuel = f + 1 := ⟨fuel - 1, by omega⟩
    simp only [Queue.split_loop]
    rw [if_pos (by omega), Nat.mod_eq_of_lt (by omega),
      ih f (section_ + 1) _ (by omega) (by omega) (by omega)]
    simp [List.replicate_succ]

/-- C24: for every section count below the largest `unsigned`, the legacy
`SplitBatchJob` and `SplitBatchJobNoAlloc` return: their vector holds
`GetSections()` default constructed envelopes followed by the `GetSections()`
envelopes pushed by the loop, `2 * GetSections()` in all and not
`GetSections()`. -/
theorem SplitBatchJob_double_length (sections basePtr : Nat)
    (AddSealedEnvelopes : Envelope → Envelope) (hs : sections + 1 < nova.UINT_MOD) :
    Queue.SplitBatchJob sections basePtr AddSealedEnvelopes =
      some (List.replicate sections ({} : Envelope) ++
        List.replicate sections (AddSealedEnvelopes (Envelope.ctor_pointer basePtr))) ∧
    Queue.SplitBatchJobNoAlloc sections basePtr =
      some (List.replicate sections ({} : Envelope) ++
        List.replicate sections (Envelope.ctor_pointer basePtr)) ∧
    (∀ jobs, Queue.SplitBatchJob sections basePtr AddSealedEnvelopes = some jobs →
      jobs.length = 2 * sections ∧ jobs.take sections = List.replicate sections ({} : Envelope) ∧
      (0 < sections → jobs.length ≠ sections)) ∧
    (∀ jobs, Queue.SplitBatchJobNoAlloc sections basePtr = some jobs →
      jobs.length = 2 * sections ∧ jobs.take sections = List.replicate sections ({} : Envelope) ∧
      (0 < sections → jobs.length ≠ sections)) := by
  have h1 := Queue.split_loop_legacy_spec sections
    (AddSealedEnvelopes (Envelope.ctor_pointer basePtr)) hs sections (sections + 1) 1
    (List.replicate sections ({} : Envelope)) (by omega) (Nat.le_refl _) (Nat.le_refl _)
  have h2 := Queue.split_loop_legacy_spec sections (Envelope.ctor_pointer basePtr) hs sections
    (sections + 1) 1 (List.replicate sections ({} : Envelope)) (by omega) (Nat.le_refl _) (Nat.le_refl _)
  have hshape : ∀ (gj : Envelope) (jobs : List Envelope),
      some (List.replicate sections ({} : Envelope) ++ List.replicate sections gj) = some jobs →
      jobs.length = 2 * sections ∧ jobs.take sections = List.replicate sections ({} : Envelope) ∧
      (0 < sections → jobs.length ≠ sections) := by
    intro gj jobs h
    cases h
    refine ⟨by simp; omega, ?_, fun hpos => by simp; omega⟩
    rw [List.take_append_of_le_length (by simp)]
    simp
  refine ⟨h1, h2, fun jobs h => ?_, fun jobs h => ?_⟩
  · unfold Queue.SplitBatchJob at h
    rw [h1] at h
    exact hshape _ jobs h
  · unfold Queue.SplitBatchJobNoAlloc at h
    rw [h2] at h
    exact hshape _ jobs h

theorem SplitBatchJob_double_length_witness :
    3 + 1 < nova.UINT_MOD ∧
    Queue.SplitBatchJobNoAlloc 3 7 =
      some ([({} : Envelope), {}, {}, Envelope.ctor_pointer 7, Envelope.ctor_pointer 7,
        Envelope.ctor_pointer 7]) :=
  ⟨by rw [nova.impl.uint_mod_eq]; decide,
    (SplitBatchJob_double_length 3 7 id (by rw [nova.impl.uint_mod_eq]; decide)).2.1⟩

end Nova

/-! ## Every fiber is in one place -/

namespace nova
namespace impl

theorem count_eraseIdx_add {α : Type} [DecidableEq α] (x : α) :
    ∀ (l : List α) (k : Nat) (a : α), l[k]? = some a →
      (l.eraseIdx k).count x + (if a = x then 1 else 0) = l.count x
  | [], _, _, h => by simp at h
  | y :: l, 0, a, h => by
    simp only [List.getElem?_cons_zero, Option.some.injEq] at h
    subst h
    simp only [List.eraseIdx_cons_zero, List.count_cons, beq_iff_eq]
  | y :: l, k + 1, a, h => by
    simp only [List.getElem?_cons_succ] at h
    have ih := count_eraseIdx_add x l k a h
    simp only [List.eraseIdx_cons_succ, List.count_cons]
    omega

theorem get_fresh_fiber_append (l : List Nat) (g : Nat) (fibers : List FiberStart) :
    get_fresh_fiber (l ++ [g]) fibers = (g, l, fibers) := by
  unfold get_fresh_fiber
  have hlen : (l ++ [g]).length > 0 := by simp
  rw [if_pos hlen]
  have h1 : (l ++ [g]).length - 1 = l.length := by simp
  rw [h1, getD_append_length, List.dropLast_concat]

theorem FiberSys.count_places (s : FiberSys) (x : Nat) :
    s.places.count x = s.occurrences x := by
  have h : ∀ threads : List FiberThread,
      (threads.map fun th => th.current_fiber).count x +
        ((threads.map fun th => th.available_fibers).flatten).count x =
      (threads.map (FiberThread.occurrences x)).sum := by
    intro threads
    induction threads with
    | nil => rfl
    | cons th threads ih =>
      simp only [List.map_cons, List.count_cons, List.flatten_cons, List.count_append,
        List.sum_cons, FiberThread.occurrences, beq_iff_eq]
      omega
  simp only [FiberSys.places, FiberSys.occurrences, List.count_append]
  have := h s.threads
  omega

theorem FiberSys.step_occurrences (s : FiberSys) (a : FiberAction)
    (h : ∀ x, s.occurrences x = if x < s.fibers.length then 1 else 0) :
    ∀ x, (s.step a).occurrences x = if x < (s.step a).fibers.length then 1 else 0 := by
  intro x
  have hx := h x
  cases a with
  | call thread =>
    cases hth : s.threads[thread]? with
    | none => simp only [FiberSys.step, hth]; exact hx
    | some th =>
      have hsum := sum_map_set (FiberThread.occurrences x) s.threads thread th
        { current_fiber := (get_fresh_fiber th.available_fibers s.fibers).1
          available_fibers := (get_fresh_fiber th.available_fibers s.fibers).2.1 } hth
      simp only [FiberSys.step, hth, FiberSys.occurrences, List.count_append]
      simp only [FiberSys.occurrences] at hx
      rcases List.eq_nil_or_concat th.available_fibers with hnil | ⟨l, g, hl⟩
      · rw [hnil] at hsum ⊢
        simp only [get_fresh_fiber, List.length_nil, gt_iff_lt, Nat.lt_irrefl, if_false,
          FiberThread.occurrences, List.count_nil, List.length_append, List.length_singleton,
          List.count_cons, List.count_nil, beq_iff_eq, hnil] at hsum ⊢
        by_cases h1 : th.current_fiber = x <;> by_cases h2 : s.fibers.length = x <;>
          simp only [h1, h2, if_true, if_false] at hsum hx ⊢ <;>
          split at hx <;> split <;> omega
      · have hfresh : get_fresh_fiber th.available_fibers s.fibers = (g, l, s.fibers) := by
          rw [hl, List.concat_eq_append]
          exact get_fresh_fiber_append l g s.fibers
        rw [hfresh] at hsum ⊢
        simp only [FiberThread.occurrences, hl, List.concat_eq_append, List.count_append,
          List.count_cons, List.count_nil, beq_iff_eq] at hsum ⊢
        by_cases h1 : th.current_fiber = x <;> by_cases h2 : g = x <;>
          simp only [h1, h2, if_true, if_false] at hsum hx ⊢ <;>
          by_cases hlt : x < s.fibers.length <;>
          simp only [hlt, if_true, if_false] at hx ⊢ <;> omega
  | resume thread k =>
    cases hth : s.threads[thread]? with
    | none => simp only [FiberSys.step, hth]; exact hx
    | some th =>
      cases hk : s.suspended[k]? with
      | none => simp only [FiberSys.step, hth, hk]; exact hx
      | some oldFiber =>
        have hsum := sum_map_set (FiberThread.occurrences x) s.threads thread th
          { current_fiber := oldFiber
            available_fibers := finish_called_job_mark th.current_fiber th.available_fibers } hth
        have hcount := count_eraseIdx_add x s.suspended k oldFiber hk
        simp only [FiberSys.step, hth, hk, FiberSys.occurrences]
        simp only [FiberSys.occurrences] at hx
        generalize ((s.threads.set thread _).map (FiberThread.occurrences x)).sum = total1
          at hsum ⊢
        generalize (s.threads.map (FiberThread.occurrences x)).sum = total at hsum hx
        simp only [FiberThread.occurrences, finish_called_job_mark, List.count_append,
          List.count_cons, List.count_nil, beq_iff_eq] at hsum
        by_cases h1 : th.current_fiber = x <;> by_cases h2 : oldFiber = x <;>
          simp only [h1, h2, if_true, if_false] at hsum hx hcount ⊢ <;>
          by_cases hlt : x < s.fibers.length <;>
          simp only [hlt, if_true, if_false] at hx ⊢ <;> omega

end impl
end nova

namespace nova
namespace impl

theorem count_range_eq (n x : Nat) : (List.range n).count x = if x < n then 1 else 0 := by
  by_cases h : x < n
  · rw [if_pos h]
    exact List.count_eq_one_of_mem (List.nodup_range n) (List.mem_range.mpr h)
  · rw [if_neg h]
    exact List.count_eq_zero_of_not_mem (fun hm => h (List.mem_range.mp hm))

theorem FiberSys.places_init (worker_count : Nat) :
    (FiberSys.init worker_count).places = List.range worker_count ∧
    (FiberSys.init worker_count).fibers.length = worker_count := by
  have hflat : ∀ l : List Nat,
      ((l.map fun t => ({ current_fiber := t } : FiberThread)).map
        fun th => th.available_fibers).flatten = [] := by
    intro l
    induction l with
    | nil => rfl
    | cons t l ih => simp
  constructor
  · show ((List.range worker_count).map fun t => ({ current_fiber := t } : FiberThread)).map
        (fun th => th.current_fiber) ++ [] ++
      (((List.range worker_count).map fun t => ({ current_fiber := t } : FiberThread)).map
        fun th => th.available_fibers).flatten = _
    rw [hflat, List.append_nil, List.append_nil, List.map_map]
    have hid : ((fun th : FiberThread => th.current_fiber) ∘
        fun t => ({ current_fiber := t } : FiberThread)) = id := rfl
    rw [hid, List.map_id]
  · simp [FiberSys.init]

theorem le_sum_map_of_getElem? {α : Type} (f : α → Nat) :
    ∀ (l : List α) (i : Nat) (a : α), l[i]? = some a → f a ≤ (l.map f).sum
  | [], _, _, h => by simp at h
  | y :: l, 0, a, h => by
    simp only [List.getElem?_cons_zero, Option.some.injEq] at h
    subst h
    simp only [List.map_cons, List.sum_cons]
    omega
  | y :: l, i + 1, a, h => by
    simp only [List.getElem?_cons_succ] at h
    have ih := le_sum_map_of_getElem? f l i a h
    simp only [List.map_cons, List.sum_cons]
    omega

theorem occurrences_two_threads (x : Nat) (l : List FiberThread) (t t1 : Nat)
    (th th1 : FiberThread) (hth : l[t]? = some th) (hth1 : l[t1]? = some th1) (hne : t ≠ t1) :
    FiberThread.occurrences x th + FiberThread.occurrences x th1 ≤
      (l.map (FiberThread.occurrences x)).sum := by
  have hset := sum_map_set (FiberThread.occurrences x) l t th
    { current_fiber := x + 1, available_fibers := [] } hth
  have hz : FiberThread.occurrences x { current_fiber := x + 1, available_fibers := [] } = 0 := by
    simp [FiberThread.occurrences]
  have hth1' : (l.set t { current_fiber := x + 1, available_fibers := [] })[t1]? = some th1 := by
    rw [List.getElem?_set_ne hne]
    exact hth1
  have hle := le_sum_map_of_getElem? (FiberThread.occurrences x) _ t1 th1 hth1'
  omega

theorem FiberSys.foldl_occurrences (acts : List FiberAction) :
    ∀ s : FiberSys, (∀ x, s.occurrences x = if x < s.fibers.length then 1 else 0) →
      ∀ x, (acts.foldl FiberSys.step s).occurrences x =
        if x < (acts.foldl FiberSys.step s).fibers.length then 1 else 0 := by
  induction acts with
  | nil => intro s h; exact h
  | cons a acts ih => intro s h; exact ih _ (FiberSys.step_occurrences s a h)

/-- C21: in every state reached by calls and resumptions on any threads, the
places that hold a fiber (the fiber run by each thread, the fibers suspended
in a call, the slots of the vectors of recycled fibers) hold every fiber made
so far exactly once: no fiber is in two places, none is in a vector twice, and
the fiber that a thread runs is in no vector and is not suspended. -/
theorem fiber_in_exactly_one_place (worker_count : Nat) (acts : List FiberAction) :
    List.Perm (FiberSys.run worker_count acts).places
      (List.range (FiberSys.run worker_count acts).fibers.length) ∧
    (FiberSys.run worker_count acts).places.Nodup ∧
    (∀ x, x < (FiberSys.run worker_count acts).fibers.length →
      (FiberSys.run worker_count acts).occurrences x = 1) ∧
    (∀ (t t1 : Nat) (th th1 : FiberThread),
      (FiberSys.run worker_count acts).threads[t]? = some th →
      (FiberSys.run worker_count acts).threads[t1]? = some th1 →
      th.current_fiber ∉ th1.available_fibers ∧
      th.current_fiber ∉ (FiberSys.run worker_count acts).suspended ∧
      th1.available_fibers.Nodup ∧
      (t ≠ t1 → th.current_fiber ≠ th1.current_fiber ∧
        ∀ x ∈ th.available_fibers, x ∉ th1.available_fibers)) := by
  have hinit : ∀ x, (FiberSys.init worker_count).occurrences x =
      if x < (FiberSys.init worker_count).fibers.length then 1 else 0 := by
    intro x
    rw [← FiberSys.count_places, (FiberSys.places_init worker_count).1,
      (FiberSys.places_init worker_count).2]
    exact count_range_eq _ _
  have hocc : ∀ x, (FiberSys.run worker_count acts).occurrences x =
      if x < (FiberSys.run worker_count acts).fibers.length then 1 else 0 :=
    FiberSys.foldl_occurrences acts _ hinit
  have hperm : List.Perm (FiberSys.run worker_count acts).places
      (List.range (FiberSys.run worker_count acts).fibers.length) := by
    rw [List.perm_iff_count]
    intro x
    rw [FiberSys.count_places, hocc, count_range_eq]
  have hnodup : (FiberSys.run worker_count acts).places.Nodup :=
    (List.Perm.nodup_iff hperm).mpr (List.nodup_range _)
  refine ⟨hperm, hnodup, fun x hx => by rw [hocc, if_pos hx], ?_⟩
  intro t t1 th th1 hth hth1
  have hle : ∀ x, (FiberSys.run worker_count acts).occurrences x ≤ 1 := by
    intro x
    rw [hocc]
    split <;> omega
  have hone : ∀ (x : Nat) (t2 : Nat) (th2 : FiberThread),
      (FiberSys.run worker_count acts).threads[t2]? = some th2 →
      FiberThread.occurrences x th2 + (FiberSys.run worker_count acts).suspended.count x ≤ 1 := by
    intro x t2 th2 h2
    have h1 := hle x
    have h3 := le_sum_map_of_getElem? (FiberThread.occurrences x) _ t2 th2 h2
    simp only [FiberSys.occurrences] at h1
    omega
  have htwo : ∀ x, t ≠ t1 →
      FiberThread.occurrences x th + FiberThread.occurrences x th1 ≤ 1 := by
    intro x hne
    have h1 := hle x
    have h3 := occurrences_two_threads x _ t t1 th th1 hth hth1 hne
    simp only [FiberSys.occurrences] at h1
    omega
  have hcur : FiberThread.occurrences th.current_fiber th =
      1 + th.available_fibers.count th.current_fiber := by
    simp [FiberThread.occurrences]
  refine ⟨?_, ?_, ?_, ?_⟩
  · intro hmem
    have hpos : 0 < th1.available_fibers.count th.current_fiber := List.count_pos_iff.mpr hmem
    by_cases heq : t = t1
    · subst heq
      rw [hth] at hth1
      cases hth1
      have := hone th.current_fiber t th hth
      omega
    · have := htwo th.current_fiber heq
      simp only [FiberThread.occurrences] at this hcur
      omega
  · intro hmem
    have hpos : 0 < (FiberSys.run worker_count acts).suspended.count th.current_fiber :=
      List.count_pos_iff.mpr hmem
    have := hone th.current_fiber t th hth
    omega
  · rw [List.nodup_iff_count_le_one]
    intro x
    have := hone x t1 th1 hth1
    simp only [FiberThread.occurrences] at this
    omega
  · intro hne
    constructor
    · intro heq
      have := htwo th.current_fiber hne
      have h1 : FiberThread.occurrences th.current_fiber th1 =
          1 + th1.available_fibers.count th.current_fiber := by
        simp [FiberThread.occurrences, heq]
      omega
    · intro x hx hx1
      have hp : 0 < th.available_fibers.count x := List.count_pos_iff.mpr hx
      have hp1 : 0 < th1.available_fibers.count x := List.count_pos_iff.mpr hx1
      have := htwo x hne
      simp only [FiberThread.occurrences] at this
      omega

end impl
end nova

/-! ## Packing the runnables of a push or a call -/

namespace nova
namespace impl

theorem split_batch_function_log_ub (w : World) (bf : batch_function)
    (hn : bf.get_sections < UINT_MOD) :
    (split_batch_function w bf).1.log.count Event.undefined_behaviour =
      w.log.count Event.undefined_behaviour := by
  rw [split_batch_function_spec w bf hn]
  by_cases h0 : bf.get_sections = 0
  · rw [h0, batch_release_last _ _ bf (getD_append_length _ _ _)]
    simp [World.emit, List.count_append]
  · rw [batch_release_more _ _ (1 + bf.get_sections) bf (getD_append_length _ _ _) (by omega)]

theorem pack_runnable_one_plain (p : Packed) (w : World) (f : function)
    (h : p.index < p.jobs.length) :
    pack_runnable_one p w (RunnableArg.plain f) =
      ({ w with heap := w.heap ++ [some (Runnable.function f)] },
       { p with jobs := p.jobs.set p.index (resume_job w.heap.length), index := p.index + 1 }) := by
  simp only [pack_runnable_one, job.ctor_runnable, World.alloc, h, if_true, Runnable.is_shared]
  rfl

theorem pack_runnable_one_batch (p : Packed) (w : World) (bf : batch_function) :
    pack_runnable_one p w (RunnableArg.batch bf) =
      ((split_batch_function w bf).1,
       { p with batchJobs := p.batchJobs ++ (split_batch_function w bf).2 }) := rfl

theorem cell_append_of_lt (w : World) (r : List (Option Runnable)) (a : Nat)
    (h : a < w.heap.length) :
    ({ w with heap := w.heap ++ r } : World).cell a = w.cell a :=
  getD_append_of_lt _ _ _ _ h

/-- What `pack_runnable<true>` leaves, started anywhere in the array. -/
theorem pack_runnable_from_spec :
    ∀ (rs : List RunnableArg) (p : Packed) (w : World),
      (∀ bf ∈ batch_runnables rs, bf.get_sections < UINT_MOD) →
      p.index + (plain_runnables rs).length ≤ p.jobs.length →
      (pack_runnable_from p w rs).2.index = p.index + (plain_runnables rs).length ∧
      (pack_runnable_from p w rs).2.jobs.length = p.jobs.length ∧
      (∀ i, i < p.index → (pack_runnable_from p w rs).2.jobs[i]? = p.jobs[i]?) ∧
      (∀ i f, (plain_runnables rs)[i]? = some f →
        ∃ addr, w.heap.length ≤ addr ∧
          (pack_runnable_from p w rs).2.jobs[p.index + i]? = some (resume_job addr) ∧
          (pack_runnable_from p w rs).1.cell addr = some (Runnable.function f)) ∧
      (pack_runnable_from p w rs).2.batchJobs.length =
        p.batchJobs.length + ((batch_runnables rs).map batch_function.get_sections).sum ∧
      (pack_runnable_from p w rs).1.log.count Event.undefined_behaviour =
        w.log.count Event.undefined_behaviour ∧
      w.heap.length ≤ (pack_runnable_from p w rs).1.heap.length ∧
      (∀ a, a < w.heap.length → (pack_runnable_from p w rs).1.cell a = w.cell a) := by
  intro rs
  induction rs with
  | nil =>
    intro p w _ _
    refine ⟨rfl, rfl, fun _ _ => rfl, ?_, ?_, rfl, Nat.le_refl _, fun _ _ => rfl⟩
    · intro i f hf
      simp [plain_runnables] at hf
    · simp [pack_runnable_from, batch_runnables]
  | cons r rest ih =>
    intro p w hb hlen
    cases r with
    | plain f =>
      have hlt : p.index < p.jobs.length := by
        simp only [plain_runnables, List.length_cons] at hlen
        omega
      have hstep : pack_runnable_from p w (RunnableArg.plain f :: rest) =
          pack_runnable_from
            { p with jobs := p.jobs.set p.index (resume_job w.heap.length), index := p.index + 1 }
            { w with heap := w.heap ++ [some (Runnable.function f)] } rest := by
        simp only [pack_runnable_from, pack_runnable_one_plain p w f hlt]
      rw [hstep]
      obtain ⟨h1, h2, h3, h4, h5, h6, h7, h8⟩ := ih
        { p with jobs := p.jobs.set p.index (resume_job w.heap.length), index := p.index + 1 }
        { w with heap := w.heap ++ [some (Runnable.function f)] }
        (fun bf hbf => hb bf (by simpa [batch_runnables] using hbf))
        (by
          simp only [plain_runnables, List.length_cons] at hlen
          simp only [List.length_set]
          omega)
      simp only [List.length_set, List.length_append, List.length_singleton] at h1 h2 h3 h4 h5 h7 h8
      refine ⟨?_, h2, ?_, ?_, ?_, h6, by omega, ?_⟩
      · rw [h1]
        simp only [plain_runnables, List.length_cons]
        omega
      · intro i hi
        rw [h3 i (by omega), List.getElem?_set_ne (by omega)]
      · intro i g hg
        cases i with
        | zero =>
          simp only [plain_runnables, List.getElem?_cons_zero, Option.some.injEq] at hg
          subst hg
          refine ⟨w.heap.length, Nat.le_refl _, ?_, ?_⟩
          · have h := h3 p.index (by omega)
            rw [List.getElem?_set_self hlt] at h
            exact h
          · rw [h8 w.heap.length (by omega)]
            exact getD_append_length _ _ _
        | succ k =>
          simp only [plain_runnables, List.getElem?_cons_succ] at hg
          obtain ⟨addr, ha, hj, hc⟩ := h4 k g hg
          refine ⟨addr, by omega, ?_, hc⟩
          rw [← hj]
          congr 1
          omega
      · rw [h5]
        simp [batch_runnables]
      · intro a ha
        rw [h8 a (by omega)]
        exact cell_append_of_lt w _ a ha
    | batch bf =>
      have hn : bf.get_sections < UINT_MOD := hb bf (by simp [batch_runnables])
      obtain ⟨hjobs, hheap, _, _⟩ := split_batch_function_world w bf hn
      have hstep : pack_runnable_from p w (RunnableArg.batch bf :: rest) =
          pack_runnable_from
            { p with batchJobs := p.batchJobs ++ (split_batch_function w bf).2 }
            (split_batch_function w bf).1 rest := by
        simp only [pack_runnable_from, pack_runnable_one_batch]
      rw [hstep]
      obtain ⟨h1, h2, h3, h4, h5, h6, h7, h8⟩ := ih
        { p with batchJobs := p.batchJobs ++ (split_batch_function w bf).2 }
        (split_batch_function w bf).1
        (fun b hbf => hb b (by simp [batch_runnables, hbf]))
        (by simpa [plain_runnables] using hlen)
      have hheaplen : w.heap.length ≤ (split_batch_function w bf).1.heap.length := by
        rw [hheap]
        simp
      refine ⟨?_, h2, h3, ?_, ?_, ?_, by omega, ?_⟩
      · rw [h1]
        rfl
      · intro i g hg
        obtain ⟨addr, ha, hj, hc⟩ := h4 i g (by simpa [plain_runnables] using hg)
        exact ⟨addr, by omega, hj, hc⟩
      · rw [h5]
        simp only [List.length_append, hjobs, List.length_map, List.length_range',
          batch_runnables, List.map_cons, List.sum_cons]
        omega
      · rw [h6]
        exact split_batch_function_log_ub w bf hn
      · intro a ha
        rw [h8 a (by omega)]
        show (split_batch_function w bf).1.heap.getD a none = w.heap.getD a none
        rw [hheap]
        exact getD_append_of_lt _ _ _ _ ha

theorem plain_runnables_length (rs : List RunnableArg) :
    rs.length - batch_count rs = (plain_runnables rs).length ∧ batch_count rs ≤ rs.length ∧
    batch_count rs = (batch_runnables rs).length := by
  induction rs with
  | nil => simp [plain_runnables, batch_count, batch_runnables]
  | cons r rest ih =>
    cases r with
    | plain f =>
      simp only [plain_runnables, batch_count, batch_runnables, List.length_cons]
      omega
    | batch bf =>
      simp only [plain_runnables, batch_count, batch_runnables, List.length_cons]
      omega

theorem split_no_alloc_loop_spec (bf sections : Nat) (hs : sections < UINT_MOD) :
    ∀ (m fuel section_ : Nat) (jobs : List job),
      section_ + m = sections → m < fuel →
      split_no_alloc_loop bf sections fuel section_ jobs =
        some (jobs ++ List.replicate m (job.ctor_pointer bf)) := by
  intro m
  induction m with
  | zero =>
    intro fuel section_ jobs h hf
    cases fuel with
    | zero => omega
    | succ fuel =>
      have : ¬ section_ < sections := by omega
      simp [split_no_alloc_loop, this]
  | succ m ih =>
    intro fuel section_ jobs h hf
    cases fuel with
    | zero => omega
    | succ fuel =>
      have hlt : section_ < sections := by omega
      have hmod : (section_ + 1) % UINT_MOD = section_ + 1 := Nat.mod_eq_of_lt (by omega)
      simp only [split_no_alloc_loop, hlt, if_true, hmod]
      rw [ih fuel (section_ + 1) _ (by omega) (by omega)]
      simp [List.replicate_succ]

end impl
end nova

namespace nova
namespace impl

theorem plain_runnables_take (rs : List RunnableArg) :
    ∀ k, (plain_runnables (rs.take k)).length ≤ (plain_runnables rs).length ∧
      ∀ bf ∈ batch_runnables (rs.take k), bf ∈ batch_runnables rs := by
  induction rs with
  | nil =>
    intro k
    simp
  | cons r rest ih =>
    intro k
    cases k with
    | zero => simp [plain_runnables, batch_runnables]
    | succ k =>
      obtain ⟨h1, h2⟩ := ih k
      cases r with
      | plain f =>
        simp only [List.take_succ_cons, plain_runnables, batch_runnables, List.length_cons]
        exact ⟨by omega, h2⟩
      | batch bf =>
        simp only [List.take_succ_cons, plain_runnables, batch_runnables, List.mem_cons]
        exact ⟨h1, fun b hb => hb.elim Or.inl (fun h => Or.inr (h2 b h))⟩

/-- C23 (packing the runnables of a push or a call).  For `push`
(`pack_runnable<true>` on an array of `sizeof...(Runnables) - batch_count`
default jobs and an empty vector), for every list of runnables whose batch
functions have a section count in the range of `unsigned`: the array length is
the number of runnables that are not batch functions; the running index never
exceeds it after any number of runnables packed, no slot past the end is
written, and the index ends equal to it; slot `i` of the array holds the job
that owns the heap copy of the `i`-th runnable that is not a batch function;
every batch function appends exactly its `get_sections()` jobs to the vector,
so the vector ends with the sum of the section counts and the number of
envelopes submitted is the number of plain runnables plus that sum.  For
`call` (`pack_runnable<false>`): a list of runnables that are not batch
functions fills the array in argument order with jobs that borrow them, the
index ends at the length; for a batch function the overload calls
`split_batch_function_no_alloc`, whose loop test names `j`, declared nowhere
in `nova.h`, so the pack is rejected when it is compiled and appends nothing
(had `j` named a batch function `b`, `b.get_sections()` borrowed jobs would be
appended). -/
theorem pack_runnable_fills_slots :
    (∀ (rs : List RunnableArg) (w : World),
      (∀ bf ∈ batch_runnables rs, bf.get_sections < UINT_MOD) →
      rs.length - batch_count rs = (plain_runnables rs).length ∧
      (packed rs w).jobs.length = (plain_runnables rs).length ∧
      (∀ k, (pack_runnable (List.replicate (rs.length - batch_count rs) ({} : job)) [] w
          (rs.take k)).2.index ≤ (plain_runnables rs).length) ∧
      (packed rs w).index = (plain_runnables rs).length ∧
      (∀ (i : Nat) (f : function), (plain_runnables rs)[i]? = some f →
        ∃ addr, (packed rs w).jobs[i]? = some (resume_job addr) ∧
          (pack_runnable (List.replicate (rs.length - batch_count rs) ({} : job)) [] w
            rs).1.cell addr = some (Runnable.function f)) ∧
      (packed rs w).batchJobs.length =
        ((batch_runnables rs).map batch_function.get_sections).sum ∧
      (pack_runnable (List.replicate (rs.length - batch_count rs) ({} : job)) [] w
          rs).1.log.count Event.undefined_behaviour = w.log.count Event.undefined_behaviour ∧
      packed_count rs w =
        (plain_runnables rs).length +
          ((batch_runnables rs).map batch_function.get_sections).sum) ∧
    (∀ (p : Packed) (w : World) (bf : batch_function), bf.get_sections < UINT_MOD →
      (pack_runnable_one p w (RunnableArg.batch bf)).2 =
        { p with batchJobs := p.batchJobs ++ (split_batch_function w bf).2 } ∧
      (split_batch_function w bf).2.length = bf.get_sections) ∧
    (∀ (r : Nat) (rs : List Nat) (w : World),
      pack_runnable_false (List.replicate (r :: rs).length ({} : job)) [] w (r :: rs) =
        some (w, { jobs := (r :: rs).map job.ctor_pointer, index := (r :: rs).length,
                   batchJobs := [] })) ∧
    (∀ (p : Packed) (bf : Nat), pack_runnable_false_batch none p bf = none) ∧
    (∀ (b : batch_function) (p : Packed) (bf : Nat), b.get_sections < UINT_MOD →
      pack_runnable_false_batch (some b) p bf =
        some { p with batchJobs :=
                 p.batchJobs ++ List.replicate b.get_sections (job.ctor_pointer bf) }) := by
  refine ⟨?_, ?_, ?_, fun _ _ => rfl, ?_⟩
  · intro rs w hb
    obtain ⟨hlen, _, _⟩ := plain_runnables_length rs
    obtain ⟨h1, h2, _, h4, h5, h6, _, _⟩ := pack_runnable_from_spec rs
      { jobs := List.replicate (rs.length - batch_count rs) ({} : job), index := 0,
        batchJobs := [] } w hb
      (by simp only [List.length_replicate]; omega)
    simp only [List.length_replicate, List.length_nil, Nat.zero_add] at h1 h2 h4 h5
    refine ⟨hlen, ?_, ?_, h1, ?_, h5, h6, ?_⟩
    · show (pack_runnable _ [] w rs).2.jobs.length = _
      rw [← hlen]
      exact h2
    · intro k
      obtain ⟨ht1, ht2⟩ := plain_runnables_take rs k
      obtain ⟨hk, _⟩ := pack_runnable_from_spec (rs.take k)
        { jobs := List.replicate (rs.length - batch_count rs) ({} : job), index := 0,
          batchJobs := [] } w (fun bf hbf => hb bf (ht2 bf hbf))
        (by simp only [List.length_replicate]; omega)
      simp only [Nat.zero_add] at hk
      show (pack_runnable_from _ w (rs.take k)).2.index ≤ _
      rw [hk]
      exact ht1
    · intro i f hf
      obtain ⟨addr, _, hj, hc⟩ := h4 i f hf
      exact ⟨addr, hj, hc⟩
    · show (pack_runnable _ [] w rs).2.jobs.length + (pack_runnable _ [] w rs).2.batchJobs.length = _
      show (pack_runnable_from _ w rs).2.jobs.length +
        (pack_runnable_from _ w rs).2.batchJobs.length = _
      rw [h2, h5]
      omega
  · intro p w bf hn
    exact ⟨rfl, by rw [(split_batch_function_world w bf hn).1]; simp⟩
  · intro r rs w
    have h := pack_runnable_false_from_spec [] w rs r []
    simpa [pack_runnable_false] using h
  · intro b p bf hn
    simp only [pack_runnable_false_batch, split_batch_function_no_alloc,
      split_no_alloc_loop_spec bf b.get_sections hn b.get_sections (b.get_sections + 1) 0 []
        (by omega) (by omega), List.nil_append]

end impl
end nova

/-! ## Every closure is released exactly once -/

namespace nova
namespace impl

theorem holder_owning (addr a : Nat) :
    JobSys.holder addr (some (owning_job a {})) = decide (a = addr) := by
  simp [JobSys.holder, owning_job]

theorem holder_default (addr : Nat) : JobSys.holder addr (some ({} : job)) = false := rfl

theorem two_le_countP (p : Option job → Bool) (xs : List (Option job)) (i n : Nat)
    (y z : Option job) (hi : xs[i]? = some y) (hn : xs[n]? = some z) (hne : i ≠ n)
    (hy : p y = true) (hz : p z = true) (hnone : p none = false) : 2 ≤ xs.countP p := by
  have h := countP_set p xs i none y hi
  simp only [hy, hnone, if_true] at h
  have hn1 : (xs.set i none)[n]? = some z := by
    rw [List.getElem?_set_ne hne]
    exact hn
  have hpos : 0 < (xs.set i none).countP p :=
    List.countP_pos_iff.mpr ⟨z, List.getElem?_mem hn1, hz⟩
  simp only [Bool.false_eq_true, if_false] at h
  omega

theorem JobSys.holder_unique (s : JobSys) (hinv : s.Inv) (i n a : Nat)
    (hi : s.jobs[i]? = some (some (owning_job a {})))
    (hn : s.jobs[n]? = some (some (owning_job a {}))) : i = n := by
  by_contra hne
  have h2 := two_le_countP (JobSys.holder a) s.jobs i n _ _ hi hn hne
    (by simp [holder_owning]) (by simp [holder_owning]) rfl
  have h := hinv.2.1 a
  simp only [JobSys.holders] at h
  split at h <;> omega

/-- What the call `m_deleteFunc(m_runnable)` does for a default job and for
the owner of a closure in memory. -/
theorem release_spec (j : job) (w : World)
    (hj : j = {} ∨ ∃ addr f, j = owning_job addr {} ∧ w.cell addr = some (Runnable.function f)) :
    (call_func j.m_deleteFunc j.m_runnable w).heap.length = w.heap.length ∧
    (call_func j.m_deleteFunc j.m_runnable w).log.count Event.undefined_behaviour =
      w.log.count Event.undefined_behaviour ∧
    (∀ addr, (call_func j.m_deleteFunc j.m_runnable w).log.count (Event.deleted addr) =
      w.log.count (Event.deleted addr) + (if JobSys.holder addr (some j) then 1 else 0)) ∧
    (∀ addr r, w.cell addr = some r → JobSys.holder addr (some j) = false →
      (call_func j.m_deleteFunc j.m_runnable w).cell addr = some r) ∧
    j.m_callToken = {} := by
  rcases hj with hj | ⟨a, f, hj, hcell⟩
  · subst hj
    exact ⟨rfl, rfl, fun _ => rfl, fun _ _ h _ => h, rfl⟩
  · subst hj
    have hd : call_func (owning_job a {}).m_deleteFunc (owning_job a {}).m_runnable w =
        ({ w with heap := w.heap.set a none }).emit (Event.deleted a) :=
      delete_owning_job a f w hcell
    rw [hd]
    refine ⟨?_, ?_, ?_, ?_, rfl⟩
    · simp [World.emit]
    · simp [World.emit, List.count_append]
    · intro addr
      rw [holder_owning]
      by_cases h : a = addr
      · subst h
        simp [World.emit, List.count_append]
      · have h1 : ¬ addr = a := fun e => h e.symm
        simp [World.emit, List.count_append, h, h1]
    · intro addr r hr hh
      rw [holder_owning] at hh
      have hne : a ≠ addr := by simpa using hh
      show (w.heap.set a none).getD addr none = some r
      rw [getD_set_of_ne _ _ _ _ _ hne]
      exact hr

end impl
end nova

namespace nova
namespace impl

theorem JobSys.job_inv_init : JobSys.Inv {} := by
  refine ⟨fun k j h => ?_, fun addr => ?_, rfl⟩
  · simp at h
  · simp [JobSys.deleted, JobSys.holders]

theorem JobSys.step_create (s : JobSys) (f : function) :
    s.step (JobAction.create f) =
      { world := { s.world with heap := s.world.heap ++ [some (Runnable.function f)] }
        jobs := s.jobs ++ [some (owning_job s.world.heap.length {})] } := rfl

theorem JobSys.step_move_ctor (s : JobSys) (k : Nat) (e : job)
    (hk : s.jobs[k]? = some (some e)) :
    s.step (JobAction.move_ctor k) =
      { world := s.world, jobs := s.jobs.set k (some ({} : job)) ++ [some e] } := by
  simp only [JobSys.step, hk]
  rfl

theorem JobSys.step_move_assign (s : JobSys) (i k : Nat) (self e : job) (hne : i ≠ k)
    (hi : s.jobs[i]? = some (some self)) (hk : s.jobs[k]? = some (some e))
    (htok : self.m_callToken = {}) :
    s.step (JobAction.move_assign i k) =
      { world := call_func self.m_deleteFunc self.m_runnable s.world
        jobs := (s.jobs.set i (some e)).set k (some ({} : job)) } := by
  simp only [JobSys.step, hne, if_false, hi, hk, job.move_assign, job.move, htok,
    dependency_token.drop]

theorem JobSys.step_destroy (s : JobSys) (i : Nat) (j : job)
    (hi : s.jobs[i]? = some (some j)) (htok : j.m_callToken = {}) :
    s.step (JobAction.destroy i) =
      { world := call_func j.m_deleteFunc j.m_runnable s.world, jobs := s.jobs.set i none } := by
  simp only [JobSys.step, hi, job.destroy, htok, dependency_token.drop]

theorem JobSys.step_invoke (s : JobSys) (i : Nat) (j : job)
    (hi : s.jobs[i]? = some (some j)) :
    s.step (JobAction.invoke i) = { s with world := j.invoke s.world } := by
  simp only [JobSys.step, hi]

theorem JobSys.job_inv_create (s : JobSys) (hinv : s.Inv) (f : function) :
    (s.step (JobAction.create f)).Inv := by
  obtain ⟨h1, h2, h3⟩ := hinv
  rw [JobSys.step_create]
  refine ⟨fun k j hk => ?_, fun addr => ?_, h3⟩
  · by_cases hlt : k < s.jobs.length
    · rw [show (s.jobs ++ [some (owning_job s.world.heap.length {})])[k]? = s.jobs[k]? from
        List.getElem?_append_left hlt] at hk
      rcases h1 k j hk with hj | ⟨a, g, hj, hc⟩
      · exact Or.inl hj
      · exact Or.inr ⟨a, g, hj, by
          rw [cell_append_of_lt _ _ _ (lt_length_of_getD_some _ _ _ hc)]
          exact hc⟩
    · rw [show (s.jobs ++ [some (owning_job s.world.heap.length {})])[k]? =
          [some (owning_job s.world.heap.length {})][k - s.jobs.length]? from
        List.getElem?_append_right (Nat.le_of_not_lt hlt)] at hk
      cases hx : k - s.jobs.length with
      | zero =>
        rw [hx] at hk
        simp only [List.getElem?_cons_zero, Option.some.injEq] at hk
        subst hk
        exact Or.inr ⟨s.world.heap.length, f, rfl, getD_append_length _ _ _⟩
      | succ m =>
        rw [hx] at hk
        simp at hk
  · have h := h2 addr
    simp only [JobSys.deleted, JobSys.holders, List.countP_append, List.countP_cons,
      List.countP_nil, holder_owning, List.length_append, List.length_singleton,
      decide_eq_true_eq] at h ⊢
    split_ifs at h ⊢ <;> omega

theorem JobSys.inv_default_ctor (s : JobSys) (hinv : s.Inv) :
    (s.step JobAction.default_ctor).Inv := by
  obtain ⟨h1, h2, h3⟩ := hinv
  refine ⟨fun k j hk => ?_, fun addr => ?_, h3⟩
  · change (s.jobs ++ [some ({} : job)])[k]? = some (some j) at hk
    by_cases hlt : k < s.jobs.length
    · rw [List.getElem?_append_left hlt] at hk
      exact h1 k j hk
    · rw [List.getElem?_append_right (Nat.le_of_not_lt hlt)] at hk
      cases hx : k - s.jobs.length with
      | zero =>
        rw [hx] at hk
        simp only [List.getElem?_cons_zero, Option.some.injEq] at hk
        exact Or.inl hk.symm
      | succ m =>
        rw [hx] at hk
        simp at hk
  · have h := h2 addr
    show s.deleted addr + (s.jobs ++ [some ({} : job)]).countP (JobSys.holder addr) = _
    simp only [JobSys.holders] at h
    rw [List.countP_append]
    simp only [List.countP_cons, List.countP_nil, holder_default, Bool.false_eq_true, if_false]
    exact h

end impl
end nova

namespace nova
namespace impl

theorem JobSys.holder_false_of_ne (s : JobSys) (hinv : s.Inv) (i n a : Nat) (j : job)
    (hi : s.jobs[i]? = some (some j)) (hn : s.jobs[n]? = some (some (owning_job a {})))
    (hne : i ≠ n) : JobSys.holder a (some j) = false := by
  rcases hinv.1 i j hi with hj | ⟨b, f, hj, _⟩
  · subst hj
    rfl
  · subst hj
    rw [holder_owning]
    by_contra hb
    have hba : b = a := by simpa using hb
    subst hba
    exact hne (JobSys.holder_unique s hinv i n b hi hn)

theorem JobSys.inv_move_ctor (s : JobSys) (hinv : s.Inv) (k : Nat) :
    (s.step (JobAction.move_ctor k)).Inv := by
  cases hk : s.jobs[k]? with
  | none =>
    have : s.step (JobAction.move_ctor k) = s := by simp only [JobSys.step, hk]
    rw [this]
    exact hinv
  | some o =>
    cases o with
    | none =>
      have : s.step (JobAction.move_ctor k) = s := by simp only [JobSys.step, hk]
      rw [this]
      exact hinv
    | some e =>
      rw [JobSys.step_move_ctor s k e hk]
      obtain ⟨h1, h2, h3⟩ := hinv
      have hklt : k < s.jobs.length := by
        by_contra hlt
        rw [List.getElem?_eq_none (Nat.le_of_not_lt hlt)] at hk
        cases hk
      refine ⟨fun n j hn => ?_, fun addr => ?_, h3⟩
      · change (s.jobs.set k (some ({} : job)) ++ [some e])[n]? = some (some j) at hn
        by_cases hlt : n < (s.jobs.set k (some ({} : job))).length
        · rw [List.getElem?_append_left hlt] at hn
          by_cases hnk : k = n
          · subst hnk
            rw [List.getElem?_set_self hklt] at hn
            simp only [Option.some.injEq] at hn
            exact Or.inl hn.symm
          · rw [List.getElem?_set_ne hnk] at hn
            exact h1 n j hn
        · rw [List.getElem?_append_right (Nat.le_of_not_lt hlt)] at hn
          cases hx : n - (s.jobs.set k (some ({} : job))).length with
          | zero =>
            rw [hx] at hn
            simp only [List.getElem?_cons_zero, Option.some.injEq] at hn
            subst hn
            exact h1 k e hk
          | succ m =>
            rw [hx] at hn
            simp at hn
      · have h := h2 addr
        have hset := countP_set (JobSys.holder addr) s.jobs k (some ({} : job)) (some e) hk
        show s.deleted addr +
          (s.jobs.set k (some ({} : job)) ++ [some e]).countP (JobSys.holder addr) = _
        simp only [JobSys.holders] at h
        rw [List.countP_append]
        simp only [List.countP_cons, List.countP_nil, holder_default, Bool.false_eq_true,
          if_false, Nat.zero_add] at hset ⊢
        omega

theorem JobSys.inv_destroy (s : JobSys) (hinv : s.Inv) (i : Nat) :
    (s.step (JobAction.destroy i)).Inv := by
  cases hi : s.jobs[i]? with
  | none =>
    have : s.step (JobAction.destroy i) = s := by simp only [JobSys.step, hi]
    rw [this]
    exact hinv
  | some o =>
    cases o with
    | none =>
      have : s.step (JobAction.destroy i) = s := by simp only [JobSys.step, hi]
      rw [this]
      exact hinv
    | some j =>
      obtain ⟨r1, r2, r3, r4, r5⟩ := release_spec j s.world (hinv.1 i j hi)
      rw [JobSys.step_destroy s i j hi r5]
      refine ⟨fun n j1 hn => ?_, fun addr => ?_, ?_⟩
      · change (s.jobs.set i none)[n]? = some (some j1) at hn
        have hne : i ≠ n := by
          intro h
          subst h
          rw [List.getElem?_set] at hn
          simp only [if_true] at hn
          split at hn <;> cases hn
        rw [List.getElem?_set_ne hne] at hn
        rcases hinv.1 n j1 hn with hj | ⟨a, f, hj, hc⟩
        · exact Or.inl hj
        · subst hj
          exact Or.inr ⟨a, f, rfl,
            r4 a _ hc (JobSys.holder_false_of_ne s hinv i n a j hi hn hne)⟩
      · have h := hinv.2.1 addr
        have hset := countP_set (JobSys.holder addr) s.jobs i none (some j) hi
        show (call_func j.m_deleteFunc j.m_runnable s.world).log.count (Event.deleted addr) +
          (s.jobs.set i none).countP (JobSys.holder addr) =
          if addr < (call_func j.m_deleteFunc j.m_runnable s.world).heap.length then 1 else 0
        rw [r1, r3 addr]
        simp only [JobSys.holders, JobSys.deleted] at h
        have hnone : JobSys.holder addr none = false := rfl
        simp only [hnone, Bool.false_eq_true, if_false] at hset
        omega
      · show (call_func j.m_deleteFunc j.m_runnable s.world).log.count
          Event.undefined_behaviour = 0
        rw [r2]
        exact hinv.2.2

theorem JobSys.inv_invoke (s : JobSys) (hinv : s.Inv) (i : Nat) :
    (s.step (JobAction.invoke i)).Inv := by
  cases hi : s.jobs[i]? with
  | none =>
    have : s.step (JobAction.invoke i) = s := by simp only [JobSys.step, hi]
    rw [this]
    exact hinv
  | some o =>
    cases o with
    | none =>
      have : s.step (JobAction.invoke i) = s := by simp only [JobSys.step, hi]
      rw [this]
      exact hinv
    | some j =>
      rw [JobSys.step_invoke s i j hi]
      rcases hinv.1 i j hi with hj | ⟨a, f, hj, hc⟩
      · subst hj
        exact hinv
      · subst hj
        rw [invoke_owning_job a {} f s.world hc]
        obtain ⟨h1, h2, h3⟩ := hinv
        refine ⟨h1, fun addr => ?_, ?_⟩
        · have h := h2 addr
          simp only [JobSys.deleted, JobSys.holders, World.emit, List.count_append] at h ⊢
          simpa using h
        · simp only [World.emit, List.count_append]
          simpa using h3

end impl
end nova

namespace nova
namespace impl

theorem JobSys.inv_move_assign (s : JobSys) (hinv : s.Inv) (i k : Nat) :
    (s.step (JobAction.move_assign i k)).Inv := by
  by_cases hik : i = k
  · have : s.step (JobAction.move_assign i k) = s := by simp only [JobSys.step, hik, if_true]
    rw [this]
    exact hinv
  · have hskip : ∀ o, (s.jobs[i]? = none ∨ s.jobs[i]? = some none ∨
        s.jobs[k]? = none ∨ s.jobs[k]? = some none) → o = s.step (JobAction.move_assign i k) →
        o.Inv := by
      intro o h ho
      have : s.step (JobAction.move_assign i k) = s := by
        simp only [JobSys.step, hik, if_false]
        rcases h with h | h | h | h
        · rw [h]
        · rw [h]
        · rw [h]
          cases s.jobs[i]? with
          | none => rfl
          | some x => cases x <;> rfl
        · rw [h]
          cases s.jobs[i]? with
          | none => rfl
          | some x => cases x <;> rfl
      rw [ho, this]
      exact hinv
    cases hi : s.jobs[i]? with
    | none => exact hskip _ (Or.inl hi) rfl
    | some oi =>
      cases oi with
      | none => exact hskip _ (Or.inr (Or.inl hi)) rfl
      | some self =>
        cases hk : s.jobs[k]? with
        | none => exact hskip _ (Or.inr (Or.inr (Or.inl hk))) rfl
        | some ok =>
          cases ok with
          | none => exact hskip _ (Or.inr (Or.inr (Or.inr hk))) rfl
          | some e =>
            obtain ⟨r1, r2, r3, r4, r5⟩ := release_spec self s.world (hinv.1 i self hi)
            rw [JobSys.step_move_assign s i k self e hik hi hk r5]
            have hilt : i < s.jobs.length := by
              by_contra hlt
              rw [List.getElem?_eq_none (Nat.le_of_not_lt hlt)] at hi
              cases hi
            have hklt : k < (s.jobs.set i (some e)).length := by
              rw [List.length_set]
              by_contra hlt
              rw [List.getElem?_eq_none (Nat.le_of_not_lt hlt)] at hk
              cases hk
            have hk1 : (s.jobs.set i (some e))[k]? = some (some e) := by
              rw [List.getElem?_set_ne hik]
              exact hk
            refine ⟨fun n j1 hn => ?_, fun addr => ?_, ?_⟩
            · change ((s.jobs.set i (some e)).set k (some ({} : job)))[n]? = some (some j1) at hn
              by_cases hkn : k = n
              · subst hkn
                rw [List.getElem?_set_self hklt] at hn
                simp only [Option.some.injEq] at hn
                exact Or.inl hn.symm
              · rw [List.getElem?_set_ne hkn] at hn
                by_cases hin : i = n
                · subst hin
                  rw [List.getElem?_set_self hilt] at hn
                  simp only [Option.some.injEq] at hn
                  subst hn
                  rcases hinv.1 k e hk with hj | ⟨a, f, hj, hc⟩
                  · exact Or.inl hj
                  · subst hj
                    exact Or.inr ⟨a, f, rfl,
                      r4 a _ hc (JobSys.holder_false_of_ne s hinv i k a self hi hk hik)⟩
                · rw [List.getElem?_set_ne hin] at hn
                  rcases hinv.1 n j1 hn with hj | ⟨a, f, hj, hc⟩
                  · exact Or.inl hj
                  · subst hj
                    exact Or.inr ⟨a, f, rfl,
                      r4 a _ hc (JobSys.holder_false_of_ne s hinv i n a self hi hn hin)⟩
            · have h := hinv.2.1 addr
              have hset1 := countP_set (JobSys.holder addr) s.jobs i (some e) (some self) hi
              have hset2 := countP_set (JobSys.holder addr) (s.jobs.set i (some e)) k
                (some ({} : job)) (some e) hk1
              show (call_func self.m_deleteFunc self.m_runnable s.world).log.count
                  (Event.deleted addr) +
                ((s.jobs.set i (some e)).set k (some ({} : job))).countP (JobSys.holder addr) =
                if addr < (call_func self.m_deleteFunc self.m_runnable s.world).heap.length
                  then 1 else 0
              rw [r1, r3 addr]
              simp only [JobSys.holders, JobSys.deleted] at h
              simp only [holder_default, Bool.false_eq_true, if_false] at hset2
              generalize (if JobSys.holder addr (some self) = true then 1 else 0) = x at *
              generalize (if JobSys.holder addr (some e) = true then 1 else 0) = y at *
              omega
            · show (call_func self.m_deleteFunc self.m_runnable s.world).log.count
                Event.undefined_behaviour = 0
              rw [r2]
              exact hinv.2.2

theorem JobSys.step_keeps_job_inv (s : JobSys) (hinv : s.Inv) (a : JobAction) : (s.step a).Inv := by
  cases a with
  | create f => exact JobSys.job_inv_create s hinv f
  | default_ctor => exact JobSys.inv_default_ctor s hinv
  | move_ctor k => exact JobSys.inv_move_ctor s hinv k
  | move_assign i k => exact JobSys.inv_move_assign s hinv i k
  | destroy i => exact JobSys.inv_destroy s hinv i
  | invoke i => exact JobSys.inv_invoke s hinv i

theorem JobSys.foldl_keeps_job_inv (acts : List JobAction) :
    ∀ s : JobSys, s.Inv → (acts.foldl JobSys.step s).Inv := by
  induction acts with
  | nil => exact fun s h => h
  | cons a acts ih => exact fun s h => ih _ (JobSys.step_keeps_job_inv s h a)

theorem JobSys.run_keeps_job_inv (acts : List JobAction) : (JobSys.run acts).Inv :=
  JobSys.foldl_keeps_job_inv acts {} JobSys.job_inv_init

end impl
end nova

namespace nova
namespace impl

/-- C27 (release of closures under moves).  Over every sequence of
constructions (`job{f}` and `job()`), move constructions, move assignments
between distinct live jobs, destructions and invocations, started without any
object: every closure ever allocated has either been released by
`delete_runnable` exactly once and is held by no live job, or has not been
released and is held by exactly one live job, and no released closure is
released again (nothing undefined happens); so once every object has been
destroyed each closure has been released exactly once.  The release is made by
the job that holds the closure: destroying job `i`, or move assigning to it,
releases exactly the closure that job `i` holds at that point and nothing else;
a move construction changes nothing in memory and hands the closure to the new
object.  The source of a move is left as a default job (`no_op`, `no_op`, null
pointer), and for a default job the destructor, a move assignment to it and an
invocation leave memory and the log unchanged. -/
theorem closure_released_exactly_once (acts : List JobAction) :
    (∀ addr, addr < (JobSys.run acts).world.heap.length →
      (JobSys.run acts).deleted addr + (JobSys.run acts).holders addr = 1) ∧
    (∀ addr, (JobSys.run acts).world.heap.length ≤ addr →
      (JobSys.run acts).deleted addr = 0 ∧ (JobSys.run acts).holders addr = 0) ∧
    (JobSys.run acts).world.log.count Event.undefined_behaviour = 0 ∧
    ((∀ o ∈ (JobSys.run acts).jobs, o = none) →
      ∀ addr, addr < (JobSys.run acts).world.heap.length → (JobSys.run acts).deleted addr = 1) ∧
    (∀ (i : Nat) (j : job), (JobSys.run acts).jobs[i]? = some (some j) →
      (j = {} ∨ ∃ addr f, j = owning_job addr {} ∧
        (JobSys.run acts).world.cell addr = some (Runnable.function f)) ∧
      (∀ addr, ((JobSys.run acts).step (JobAction.destroy i)).deleted addr =
        (JobSys.run acts).deleted addr + (if JobSys.holder addr (some j) then 1 else 0)) ∧
      ((JobSys.run acts).step (JobAction.destroy i)).jobs = (JobSys.run acts).jobs.set i none ∧
      (∀ (k : Nat) (e : job), i ≠ k → (JobSys.run acts).jobs[k]? = some (some e) →
        (∀ addr, ((JobSys.run acts).step (JobAction.move_assign i k)).deleted addr =
          (JobSys.run acts).deleted addr + (if JobSys.holder addr (some j) then 1 else 0)) ∧
        ((JobSys.run acts).step (JobAction.move_assign i k)).jobs =
          ((JobSys.run acts).jobs.set i (some e)).set k (some ({} : job))) ∧
      ((JobSys.run acts).step (JobAction.move_ctor i)).world = (JobSys.run acts).world ∧
      ((JobSys.run acts).step (JobAction.move_ctor i)).jobs =
        (JobSys.run acts).jobs.set i (some ({} : job)) ++ [some j]) ∧
    (∀ (i : Nat), (JobSys.run acts).jobs[i]? = some (some ({} : job)) →
      ((JobSys.run acts).step (JobAction.destroy i)).world = (JobSys.run acts).world ∧
      ((JobSys.run acts).step (JobAction.invoke i)).world = (JobSys.run acts).world ∧
      ∀ k, ((JobSys.run acts).step (JobAction.move_assign i k)).world =
        (JobSys.run acts).world) := by
  have hinv := JobSys.run_keeps_job_inv acts
  generalize JobSys.run acts = s at hinv
  have hsum : ∀ addr, addr < s.world.heap.length → s.deleted addr + s.holders addr = 1 := by
    intro addr ha
    have h := hinv.2.1 addr
    rw [if_pos ha] at h
    exact h
  refine ⟨hsum, ?_, hinv.2.2, ?_, ?_, ?_⟩
  · intro addr ha
    have h := hinv.2.1 addr
    rw [if_neg (by omega)] at h
    omega
  · intro hall addr ha
    have h := hsum addr ha
    have h0 : s.holders addr = 0 := by
      simp only [JobSys.holders, List.countP_eq_zero]
      intro o ho
      rw [hall o ho]
      simp [JobSys.holder]
    omega
  · intro i j hi
    obtain ⟨r1, r2, r3, r4, r5⟩ := release_spec j s.world (hinv.1 i j hi)
    refine ⟨hinv.1 i j hi, ?_, ?_, ?_, ?_, ?_⟩
    · intro addr
      rw [JobSys.step_destroy s i j hi r5]
      exact r3 addr
    · rw [JobSys.step_destroy s i j hi r5]
    · intro k e hik hk
      rw [JobSys.step_move_assign s i k j e hik hi hk r5]
      exact ⟨fun addr => r3 addr, rfl⟩
    · rw [JobSys.step_move_ctor s i j hi]
    · rw [JobSys.step_move_ctor s i j hi]
  · intro i hi
    refine ⟨?_, ?_, ?_⟩
    · rw [JobSys.step_destroy s i {} hi rfl]
      rfl
    · rw [JobSys.step_invoke s i {} hi]
      rfl
    · intro k
      by_cases hik : i = k
      · simp only [JobSys.step, hik, if_true]
      · cases hk : s.jobs[k]? with
        | none => simp only [JobSys.step, hik, if_false, hi, hk]
        | some o =>
          cases o with
          | none => simp only [JobSys.step, hik, if_false, hi, hk]
          | some e =>
            rw [JobSys.step_move_assign s i k {} e hik hi hk rfl]
            rfl

end impl
end nova
